import Mathlib

/-!
Verification development for the Virtual-File-System repository.

The file shallowly embeds the core of the repository:

* `src/fs/index/btree.py` — the custom order-N B-tree used as the
  per-directory name index (`BNode`, `BTree` and their operations);
* `src/fs/inode_table.py` — the inode table (part of `VFSState`);
* `src/fs/vfs.py` — the namespace façade (`VFS.mkdir`, `VFS.touch`,
  `VFS.write`, `VFS.read`, `VFS.ls`, `VFS.rm`);
* `Directory` / `File` object model.  `src/fs/node.py` is not present in
  the sources (only the older prototype variant is), so the directory
  wrapper is modelled from the spec where noted.

Python-specific conventions used throughout:
* Python `bytes` are `List Nat`.
* A Python function that raises is embedded as returning `Option`/`Except`.
* `datetime.now()` timestamps are modelled by a monotone clock counter in
  the façade state: each `Meta` construction consumes one tick.
* A raw Python `KeyError` escaping a public operation (i.e. not translated
  to one of the repository's own exception classes) is the distinguished
  error `Err.pyKeyError`; an escaping `AttributeError` is
  `Err.pyAttributeError`.
-/

deriving instance DecidableEq for Except

/-- Python `list.insert(i, a)`: inserts at position `i`, clamping to the end
of the list when `i` exceeds the length (Python semantics). -/
def pyInsert {α : Type} : List α → Nat → α → List α
  | l, 0, a => a :: l
  | [], _ + 1, a => [a]
  | x :: xs, i + 1, a => x :: pyInsert xs i a

/-- Python string comparison `a < b`: lexicographic by code point. -/
def strLtL : List Char → List Char → Bool
  | [], [] => false
  | [], _ :: _ => true
  | _ :: _, [] => false
  | a :: as, b :: bs =>
    if a.toNat < b.toNat then true
    else if b.toNat < a.toNat then false
    else strLtL as bs

/-- Python `a < b` on strings. -/
def strLt (a b : String) : Bool := strLtL a.toList b.toList

/-- Python `a <= b` on strings (`¬ b < a` for this total order). -/
def strLe (a b : String) : Bool := !(strLt b a)

/-- `bisect.bisect_left(keys, k)` on a sorted list: the first index whose
element is not `< k` (equivalently, the number of leading elements `< k`). -/
def bisectLeft : List String → String → Nat
  | [], _ => 0
  | x :: xs, k => if strLt x k then bisectLeft xs k + 1 else 0

/-- The descent-index loop of `BTree._insert_non_full`
(`i = len(keys)-1; while i >= 0 and key < keys[i]: i -= 1; i += 1`):
scanning from the right, one past the first index whose element is `≤ k`,
and `0` when every element is `> k`. -/
def descentIdx : List String → String → Nat
  | [], _ => 0
  | x :: xs, k =>
    let r := descentIdx xs k
    if r = 0 then (if strLe x k then 1 else 0) else r + 1

/-- `fs.index.btree._Node`: either a leaf (parallel `keys`/`vals` arrays) or
an internal node (`keys` interleaved with `kids`), mirroring the `leaf`
flag of the Python class. -/
inductive BNode : Type where
  | leaf (keys : List String) (vals : List Nat) : BNode
  | internal (keys : List String) (kids : List BNode) : BNode

/-- The `keys` field of a node. -/
def BNode.nkeys : BNode → List String
  | .leaf ks _ => ks
  | .internal ks _ => ks

mutual

/-- `BTree._iter_node`: in-order walk.  A leaf yields its keys; an internal
node interleaves its children's walks with its own keys. -/
def BNode.iter : BNode → List String
  | .leaf ks _ => ks
  | .internal ks kids => BNode.iterKids kids ks

/-- The `for i, kid in enumerate(node.kids)` loop of `_iter_node`: yield
each child's walk, then the node's key at the same position when present. -/
def BNode.iterKids : List BNode → List String → List String
  | [], _ => []
  | c :: cs, [] => BNode.iter c ++ BNode.iterKids cs []
  | c :: cs, k :: krest => BNode.iter c ++ k :: BNode.iterKids cs krest

end

mutual

/-- `BTree._search` specialised to `get`: returns the value stored at `k`,
`none` when the search ends without a match (Python `KeyError`).  On an
exact match at an internal node the search descends into the child to the
right of the matched key (`i += 1`). -/
def BNode.get : BNode → String → Option Nat
  | .leaf ks vs, k =>
    let i := bisectLeft ks k
    if ks.get? i = some k then vs.get? i else none
  | .internal ks kids, k =>
    let i0 := bisectLeft ks k
    let i := if ks.get? i0 = some k then i0 + 1 else i0
    BNode.getKid kids i k

/-- Descend into `kids[i]` for `_search`; `none` past the end (the Python
`IndexError` this would raise is unreachable on trees the code builds). -/
def BNode.getKid : List BNode → Nat → String → Option Nat
  | [], _, _ => none
  | c :: _, 0, k => BNode.get c k
  | _ :: cs, i + 1, k => BNode.getKid cs i k

end

mutual

/-- `BTree.delete`: find `k` with the same routing as `_search` and remove
the key/value pair from the leaf holding it; `none` when absent (Python
`KeyError`).  No rebalancing or merging. -/
def BNode.del : BNode → String → Option BNode
  | .leaf ks vs, k =>
    let i := bisectLeft ks k
    if ks.get? i = some k then some (.leaf (ks.eraseIdx i) (vs.eraseIdx i)) else none
  | .internal ks kids, k =>
    let i0 := bisectLeft ks k
    let i := if ks.get? i0 = some k then i0 + 1 else i0
    match BNode.delKid kids i k with
    | some kids2 => some (.internal ks kids2)
    | none => none

/-- Delete inside `kids[i]`, rebuilding the child list (the Python code
mutates the found leaf in place). -/
def BNode.delKid : List BNode → Nat → String → Option (List BNode)
  | [], _, _ => none
  | c :: cs, 0, k =>
    match BNode.del c k with
    | some c2 => some (c2 :: cs)
    | none => none
  | c :: cs, i + 1, k =>
    match BNode.delKid cs i k with
    | some cs2 => some (c :: cs2)
    | none => none

end

/-- `BTree._split_child(parent, i)`: split the full child at index `i`.
`mid = order // 2`; the pivot `child.keys[mid]` is promoted into the parent
at position `i`, the left child keeps `keys[0..mid]` *inclusive of the
pivot*, and the new right sibling receives `keys[mid+1..]`; values (leaf)
or child pointers (internal) are partitioned at the same boundary. -/
def splitChild (order : Nat) (pks : List String) (pkids : List BNode) (i : Nat) :
    List String × List BNode :=
  match pkids.get? i with
  | none => (pks, pkids)
  | some y =>
    let mid := order / 2
    let pks2 := pyInsert pks i (y.nkeys.getD mid "")
    match y with
    | .leaf ks vs =>
      let left : BNode := .leaf (ks.take (mid + 1)) (vs.take (mid + 1))
      let right : BNode := .leaf (ks.drop (mid + 1)) (vs.drop (mid + 1))
      (pks2, pyInsert (pkids.set i left) (i + 1) right)
    | .internal ks kids =>
      let left : BNode := .internal (ks.take (mid + 1)) (kids.take (mid + 1))
      let right : BNode := .internal (ks.drop (mid + 1)) (kids.drop (mid + 1))
      (pks2, pyInsert (pkids.set i left) (i + 1) right)

theorem mem_pyInsert {α : Type} {a x : α} {l : List α} {i : Nat}
    (h : a ∈ pyInsert l i x) : a = x ∨ a ∈ l := by
  induction l generalizing i with
  | nil =>
    cases i <;> simp [pyInsert] at h <;> simp [h]
  | cons y ys ih =>
    cases i with
    | zero => simpa [pyInsert] using h
    | succ j =>
      simp [pyInsert] at h
      rcases h with rfl | h
      · simp
      · rcases ih h with rfl | h2
        · simp
        · simp [h2]

mutual

/-- Executable tree size (number of nodes), used as the recursion budget
for `BNode.insertNF`. -/
def BNode.tsize : BNode → Nat
  | .leaf _ _ => 1
  | .internal _ kids => BNode.tsizeL kids + 1

/-- Total size of a list of nodes. -/
def BNode.tsizeL : List BNode → Nat
  | [] => 0
  | c :: cs => BNode.tsize c + BNode.tsizeL cs

end

/-- `BTree._insert_non_full`, with an explicit recursion budget (`fuel`)
standing in for Python's unbounded recursion: a leaf inserts the key at its
bisect position and the value at `keys.index(key)` after the key insertion;
an internal node picks the descent child, splits it first when it is full
(moving one position right when the key is greater than the freshly
promoted pivot), and recurses.  A recursion step strictly shrinks the tree
size of the node descended into, so `fuel = BNode.tsize node` at the top
level always suffices and the out-of-fuel branch is unreachable. -/
def BNode.insertNF (order : Nat) (k : String) (v : Nat) : Nat → BNode → BNode
  | _, .leaf ks vs =>
    let i := bisectLeft ks k
    let ks2 := pyInsert ks i k
    .leaf ks2 (pyInsert vs (ks2.indexOf k) v)
  | fuel + 1, .internal ks kids =>
    let i := descentIdx ks k
    if (kids.getD i (.leaf [] [])).nkeys.length = order - 1 then
      let pr := splitChild order ks kids i
      let i2 := if strLt (pr.1.getD i "") k then i + 1 else i
      match pr.2.get? i2 with
      | some c => .internal pr.1 (pr.2.set i2 (BNode.insertNF order k v fuel c))
      | none => .internal pr.1 pr.2
    else
      match kids.get? i with
      | some c => .internal ks (kids.set i (BNode.insertNF order k v fuel c))
      | none => .internal ks kids
  | 0, n => n

/-- `BTree._insert_non_full` (see `BNode.insertNF`; the budget
`BNode.tsize n` always suffices). -/
def BNode.insertNonFull (order : Nat) (k : String) (v : Nat) (n : BNode) : BNode :=
  BNode.insertNF order k v (BNode.tsize n) n

/-- `fs.index.btree.BTree`: root node plus the configured order (fan-out
bound; a node holds at most `order - 1` keys before it must split). -/
structure BTree where
  root : BNode
  order : Nat

/-- `BTree.__init__`: an empty leaf root. -/
def BTree.empty (order : Nat) : BTree := ⟨.leaf [] [], order⟩

/-- `BTree.insert`: when the root is full it is split beneath a new internal
root before the non-full insertion runs. -/
def BTree.insert (t : BTree) (k : String) (v : Nat) : BTree :=
  if t.root.nkeys.length = t.order - 1 then
    let pr := splitChild t.order [] [t.root] 0
    ⟨BNode.insertNonFull t.order k v (.internal pr.1 pr.2), t.order⟩
  else
    ⟨BNode.insertNonFull t.order k v t.root, t.order⟩

/-- `BTree.get`: value lookup; `none` models the raised `KeyError`. -/
def BTree.get (t : BTree) (k : String) : Option Nat := t.root.get k

/-- `BTree.delete`; `none` models the raised `KeyError`. -/
def BTree.del (t : BTree) (k : String) : Option BTree :=
  (t.root.del k).map fun r => ⟨r, t.order⟩

/-- `BTree.iter`: the in-order key walk, as a list. -/
def BTree.iterKeys (t : BTree) : List String := t.root.iter

/-- Insert a list of (key, value) pairs left to right. -/
def BTree.insertSeq : List (String × Nat) → BTree → BTree
  | [], t => t
  | (k, v) :: rest, t => BTree.insertSeq rest (t.insert k v)

/-- Insert a list of (key, value) pairs left to right (argument-flipped
wrapper around `BTree.insertSeq`). -/
def BTree.insertAll (t : BTree) (l : List (String × Nat)) : BTree :=
  BTree.insertSeq l t

/-- Error kinds of the public operations.  `src/fs/exceptions.py` is absent
from `src/`; the first five constructors are modelled from the spec's §7
taxonomy (`FSException` for a relative path is the `InvalidPath` kind,
`FileExists` is `AlreadyExists`, `FileNotFound` is `NotFound`,
`NotDirectory` is `NotADirectory`; `InvalidIdentity` is listed in §7 but
never raised by the code, which lets the backing dict's `KeyError`
propagate instead).  `pyKeyError` / `pyAttributeError` stand for a raw
Python `KeyError` / `AttributeError` escaping a public operation; they are
not part of the §7 taxonomy. -/
inductive Err : Type where
  | invalidPath : Err
  | alreadyExists : Err
  | notFound : Err
  | notADirectory : Err
  | invalidIdentity : Err
  | pyKeyError : Err
  | pyAttributeError : Err
deriving DecidableEq

/-- Membership in the five-kind §7 error taxonomy. -/
def Err.inTaxonomy : Err → Bool
  | .invalidPath | .alreadyExists | .notFound | .notADirectory | .invalidIdentity => true
  | .pyKeyError | .pyAttributeError => false

/-- `fs.node.Meta`: creation/modification timestamps (clock ticks), size in
bytes, and the informational permission flag. -/
structure Meta where
  created : Nat
  modified : Nat
  size : Nat
  perms : String
deriving DecidableEq

/-- The inode object model: a `Directory` owns a B-tree child index, a
`File` owns a byte buffer; both carry the mutable `id` assigned by the
inode table (`-1` is the placeholder used by the façade before
allocation). -/
inductive INode : Type where
  | dir (id : Int) (meta : Meta) (children : BTree) : INode
  | file (id : Int) (meta : Meta) (content : List Nat) : INode

/-- The `id` field of an inode. -/
def INode.ident : INode → Int
  | .dir i _ _ => i
  | .file i _ _ => i

/-- Overwrite the mutable `id` field (`inode.id = self._next_id`). -/
def INode.setId : INode → Int → INode
  | .dir _ m ch, i => .dir i m ch
  | .file _ m c, i => .file i m c

/-- The façade state: the inode table (a list indexed by identity — the
table only ever grows, so the next sequential identity is the length), the
root identity, and the clock supplying `datetime.now()` ticks. -/
structure VFSState where
  table : List INode
  rootId : Nat
  clock : Nat

/-- `InodeTable.allocate`: assign the next sequential identity, overwrite
the inode's `id` field with it, store the inode under it, and return it. -/
def VFSState.allocate (s : VFSState) (ino : INode) : VFSState × Nat :=
  let nid := s.table.length
  ({ s with table := s.table ++ [ino.setId (Int.ofNat nid)] }, nid)

/-- Modelled from the spec: `src/fs/node.py` is absent from `src/` (only
the older `filesystem-prototype` variant is present); per §2/§4.1 and the
`vfs.py` header ("Directory — now backed by an in-memory B-tree index"), a
new `Directory(id_=-1)` carries a fresh `Meta` (size 0, permission "rw",
both timestamps the current tick) and an empty order-64 `BTree` index. -/
def newDir (clock : Nat) : INode :=
  .dir (-1) ⟨clock, clock, 0, "rw"⟩ (BTree.empty 64)

/-- Modelled from the spec (see `newDir`): a new `File(id_=-1, content)`
carries a fresh `Meta` with `size = len(content)` and the byte buffer. -/
def newFile (clock : Nat) (content : List Nat) : INode :=
  .file (-1) ⟨clock, clock, content.length, "rw"⟩ content

/-- Construct and allocate a fresh empty directory (`Directory(id_=-1)`
passed to `allocate`), consuming one clock tick for its `Meta`. -/
def VFSState.allocNewDir (s : VFSState) : VFSState × Nat :=
  VFSState.allocate { s with clock := s.clock + 1 } (newDir s.clock)

/-- Construct and allocate a fresh file with the given content. -/
def VFSState.allocNewFile (s : VFSState) (content : List Nat) : VFSState × Nat :=
  VFSState.allocate { s with clock := s.clock + 1 } (newFile s.clock content)

/-- `Directory.add_child` applied to the directory stored at slot `did`:
insert `(name, cid)` into its B-tree index (the Python code mutates the
shared object held by the table).  Leaves the state unchanged when slot
`did` does not hold a directory (unreachable through the façade). -/
def VFSState.addChild (s : VFSState) (did : Nat) (name : String) (cid : Nat) : VFSState :=
  match s.table.get? did with
  | some (.dir i m ch) =>
    { s with table := s.table.set did (.dir i m (ch.insert name cid)) }
  | _ => s

/-- `str.split('/')` over the character list (the building block of
pathlib's component parsing). -/
def splitSlash : List Char → List (List Char)
  | [] => [[]]
  | '/' :: rest => [] :: splitSlash rest
  | c :: rest =>
    match splitSlash rest with
    | s :: ss => (c :: s) :: ss
    | [] => [[c]]

/-- `PurePosixPath(path).is_absolute()`: the path begins with `/`. -/
def isAbs (path : String) : Bool :=
  match path.toList with
  | '/' :: _ => true
  | _ => false

/-- `PurePosixPath(path).parts[1:]` for a path beginning with `/`: the
components after the root, with empty components and single-dot components
collapsed (pathlib normalization). -/
def pathParts (path : String) : List String :=
  ((splitSlash path.toList).map fun cs => String.mk cs).filter fun c =>
    !(c == "") && !(c == ".")

/-- The intermediate-component loop of `VFS._split_path`: walk from
`curId`; a missing table entry is an uncaught dict `KeyError`; a file in an
intermediate position raises `NotDirectory`; an absent component is
auto-created as a fresh empty directory (mkdir-p) and its identity inserted
into the current directory's index. -/
def walkSegs : List String → VFSState → Nat → VFSState × Except Err Nat
  | [], s, curId => (s, .ok curId)
  | seg :: rest, s, curId =>
    match s.table.get? curId with
    | none => (s, .error .pyKeyError)
    | some (.file _ _ _) => (s, .error .notADirectory)
    | some (.dir _ _ ch) =>
      match ch.get seg with
      | some cid => walkSegs rest s cid
      | none =>
        let pr := s.allocNewDir
        walkSegs rest (pr.1.addChild curId seg pr.2) pr.2

/-- `VFS._split_path`: reject a non-absolute path with the base
`FSException` (the `InvalidPath` kind), walk the intermediate components,
and return `(parent_id, final_component)` — the final component being `""`
when the path is exactly `/`. -/
def VFS.splitPath (s : VFSState) (path : String) : VFSState × Except Err (Nat × String) :=
  if isAbs path then
    let parts := pathParts path
    match walkSegs parts.dropLast s s.rootId with
    | (s2, .ok pid) => (s2, .ok (pid, parts.getLastD ""))
    | (s2, .error e) => (s2, .error e)
  else (s, .error .invalidPath)

/-- `VFS.mkdir`: resolve the parent, fail with `FileExists` when the final
name is already a child (of either kind), otherwise allocate a fresh empty
directory and insert it.  The lookup of slot `parent_id` is
`VFS._assert_dir`. -/
def VFS.mkdir (s : VFSState) (path : String) : VFSState × Except Err Unit :=
  match VFS.splitPath s path with
  | (s1, .error e) => (s1, .error e)
  | (s1, .ok (pid, name)) =>
    match s1.table.get? pid with
    | none => (s1, .error .pyKeyError)
    | some (.file _ _ _) => (s1, .error .notADirectory)
    | some (.dir _ _ ch) =>
      match ch.get name with
      | some _ => (s1, .error .alreadyExists)
      | none =>
        let pr := s1.allocNewDir
        (pr.1.addChild pid name pr.2, .ok ())

/-- `VFS.touch`: identical to `mkdir` but allocates an empty file. -/
def VFS.touch (s : VFSState) (path : String) : VFSState × Except Err Unit :=
  match VFS.splitPath s path with
  | (s1, .error e) => (s1, .error e)
  | (s1, .ok (pid, name)) =>
    match s1.table.get? pid with
    | none => (s1, .error .pyKeyError)
    | some (.file _ _ _) => (s1, .error .notADirectory)
    | some (.dir _ _ ch) =>
      match ch.get name with
      | some _ => (s1, .error .alreadyExists)
      | none =>
        let pr := s1.allocNewFile []
        (pr.1.addChild pid name pr.2, .ok ())

/-- `VFS.write`: on an existing file, overwrite the content in place and
set `meta.size` (the modification timestamp is *not* touched by the code);
on an existing directory raise `NotDirectory`; when the child lookup — or
the inode-table lookup inside the same `try` block — raises `KeyError`,
allocate a fresh file holding the data. -/
def VFS.write (s : VFSState) (path : String) (data : List Nat) : VFSState × Except Err Unit :=
  match VFS.splitPath s path with
  | (s1, .error e) => (s1, .error e)
  | (s1, .ok (pid, name)) =>
    match s1.table.get? pid with
    | none => (s1, .error .pyKeyError)
    | some (.file _ _ _) => (s1, .error .notADirectory)
    | some (.dir _ _ ch) =>
      match ch.get name with
      | some cid =>
        match s1.table.get? cid with
        | some (.file fi fm _) =>
          ({ s1 with table := s1.table.set cid (.file fi { fm with size := data.length } data) },
            .ok ())
        | some (.dir _ _ _) => (s1, .error .notADirectory)
        | none =>
          let pr := s1.allocNewFile data
          (pr.1.addChild pid name pr.2, .ok ())
      | none =>
        let pr := s1.allocNewFile data
        (pr.1.addChild pid name pr.2, .ok ())

/-- `VFS.read`: `FileNotFound` when the name is absent, `NotDirectory` when
the target is a directory, otherwise a copy of the file's bytes. -/
def VFS.read (s : VFSState) (path : String) : VFSState × Except Err (List Nat) :=
  match VFS.splitPath s path with
  | (s1, .error e) => (s1, .error e)
  | (s1, .ok (pid, name)) =>
    match s1.table.get? pid with
    | none => (s1, .error .pyKeyError)
    | some (.file _ _ _) => (s1, .error .notADirectory)
    | some (.dir _ _ ch) =>
      match ch.get name with
      | none => (s1, .error .notFound)
      | some cid =>
        match s1.table.get? cid with
        | none => (s1, .error .pyKeyError)
        | some (.dir _ _ _) => (s1, .error .notADirectory)
        | some (.file _ _ cont) => (s1, .ok cont)

/-- `VFS.ls`: for `/`, list the root index.  Otherwise resolve the parent
and look the final name up via `self.table.get(parent_id).get_child(name)`
— with no `try` block, so an absent name lets the raw `KeyError` escape,
and a file parent raises `AttributeError` (`File` has no `get_child`);
then `_assert_dir` the child and return its sorted name walk. -/
def VFS.ls (s : VFSState) (path : String) : VFSState × Except Err (List String) :=
  if path = "/" then
    match s.table.get? s.rootId with
    | none => (s, .error .pyKeyError)
    | some (.file _ _ _) => (s, .error .notADirectory)
    | some (.dir _ _ ch) => (s, .ok ch.iterKeys)
  else
    match VFS.splitPath s path with
    | (s1, .error e) => (s1, .error e)
    | (s1, .ok (pid, name)) =>
      match s1.table.get? pid with
      | none => (s1, .error .pyKeyError)
      | some (.file _ _ _) => (s1, .error .pyAttributeError)
      | some (.dir _ _ ch) =>
        match ch.get name with
        | none => (s1, .error .pyKeyError)
        | some cid =>
          match s1.table.get? cid with
          | none => (s1, .error .pyKeyError)
          | some (.file _ _ _) => (s1, .error .notADirectory)
          | some (.dir _ _ ch2) => (s1, .ok ch2.iterKeys)

/-- `VFS.rm`: `FileNotFound` when the final name is absent from the
parent's index, otherwise detach the `(name, identity)` pair from the
parent's index only — the inode table is untouched. -/
def VFS.rm (s : VFSState) (path : String) : VFSState × Except Err Unit :=
  match VFS.splitPath s path with
  | (s1, .error e) => (s1, .error e)
  | (s1, .ok (pid, name)) =>
    match s1.table.get? pid with
    | none => (s1, .error .pyKeyError)
    | some (.file _ _ _) => (s1, .error .notADirectory)
    | some (.dir di dm ch) =>
      match ch.get name with
      | none => (s1, .error .notFound)
      | some _ =>
        match ch.del name with
        | some ch2 => ({ s1 with table := s1.table.set pid (.dir di dm ch2) }, .ok ())
        | none => (s1, .error .pyKeyError)

/-- `VFS.__init__`: fresh table, `root_id = allocate(Directory(id_=-1))`,
which is identity 0. -/
def VFS.fresh : VFSState :=
  let pr := (VFSState.mk [] 0 0).allocNewDir
  { pr.1 with rootId := pr.2 }

mutual

/-- Structural equality test for nodes (no derived instance exists for the
nested inductive). -/
def BNode.beq : BNode → BNode → Bool
  | .leaf ks vs, .leaf ks2 vs2 => ks == ks2 && vs == vs2
  | .internal ks kids, .internal ks2 kids2 => ks == ks2 && BNode.beqL kids kids2
  | .leaf _ _, .internal _ _ => false
  | .internal _ _, .leaf _ _ => false

/-- Pointwise `BNode.beq` on lists. -/
def BNode.beqL : List BNode → List BNode → Bool
  | [], [] => true
  | c :: cs, d :: ds => BNode.beq c d && BNode.beqL cs ds
  | [], _ :: _ => false
  | _ :: _, [] => false

end

theorem BNode.tsize_pos : ∀ n : BNode, 0 < BNode.tsize n := by
  intro n
  cases n <;> simp [BNode.tsize]

theorem BNode.tsize_le_of_mem {c : BNode} : ∀ {kids : List BNode}, c ∈ kids →
    BNode.tsize c ≤ BNode.tsizeL kids := by
  intro kids
  induction kids with
  | nil => intro h; cases h
  | cons d ds ih =>
    intro h
    rcases List.mem_cons.mp h with rfl | h2
    · simp [BNode.tsizeL]
    · have := ih h2
      simp [BNode.tsizeL]
      omega

/-- Induction over the node structure with the inductive hypothesis for
every child of an internal node. -/
theorem BNode.inductOn (motive : BNode → Prop)
    (hl : ∀ ks vs, motive (.leaf ks vs))
    (hi : ∀ ks kids, (∀ c ∈ kids, motive c) → motive (.internal ks kids)) :
    ∀ n, motive n
  | .leaf ks vs => hl ks vs
  | .internal ks kids =>
    hi ks kids (fun c hc =>
      have : BNode.tsize c < BNode.tsize (.internal ks kids) := by
        have := BNode.tsize_le_of_mem hc
        simp [BNode.tsize]
        omega
      BNode.inductOn motive hl hi c)
termination_by n => BNode.tsize n

theorem BNode.beqL_iff {kids : List BNode}
    (ih : ∀ c ∈ kids, ∀ b, (BNode.beq c b = true) ↔ c = b) :
    ∀ kids2, (BNode.beqL kids kids2 = true) ↔ kids = kids2 := by
  induction kids with
  | nil => intro kids2; cases kids2 <;> simp [BNode.beqL]
  | cons c cs ihl =>
    intro kids2
    cases kids2 with
    | nil => simp [BNode.beqL]
    | cons d ds =>
      simp only [BNode.beqL, Bool.and_eq_true, List.cons.injEq]
      rw [ih c (by simp) d, ihl (fun x hx b => ih x (by simp [hx]) b) ds]

theorem BNode.beq_iff : ∀ a b : BNode, (BNode.beq a b = true) ↔ a = b := by
  intro a
  induction a using BNode.inductOn with
  | hl ks vs =>
    intro b
    cases b with
    | leaf ks2 vs2 => simp [BNode.beq]
    | internal ks2 kids2 => simp [BNode.beq]
  | hi ks kids ih =>
    intro b
    cases b with
    | leaf ks2 vs2 => simp [BNode.beq]
    | internal ks2 kids2 =>
      simp only [BNode.beq, Bool.and_eq_true, beq_iff_eq, BNode.internal.injEq]
      rw [BNode.beqL_iff ih kids2]

instance : DecidableEq BNode := fun a b =>
  decidable_of_iff (BNode.beq a b = true) (BNode.beq_iff a b)

deriving instance DecidableEq for BTree
deriving instance DecidableEq for INode
deriving instance DecidableEq for VFSState

/-- Run a list of `mkdir` calls left to right, reporting whether every one
succeeded (mutations of failed calls persist, as in Python). -/
def mkdirSeq : List String → VFSState → VFSState × Bool
  | [], s => (s, true)
  | p :: ps, s =>
    match VFS.mkdir s p with
    | (s2, .ok _) => mkdirSeq ps s2
    | (s2, .error _) => ((mkdirSeq ps s2).1, false)

/-- The `i`-th single-character child name (code point `48 + i`:
`"0"`, `"1"`, …, `"P"` at `i = 32`, …, `"o"` at `i = 63`). -/
def c6name (i : Nat) : String := String.mk [Char.ofNat (48 + i)]

/-- `/d/<c6name i>` for `i < n`: `n` sibling paths in one directory. -/
def c6paths (n : Nat) : List String := (List.range n).map (fun i => "/d/" ++ c6name i)

/-- The façade state after `mkdir` of the first `k ≤ 63` paths of
`c6paths` from a fresh namespace: root, the directory `/d` whose index is
still a single leaf, and `k` empty child directories. -/
def c6lit (k : Nat) : VFSState :=
  { table := .dir 0 ⟨0, 0, 0, "rw"⟩ ⟨.leaf ["d"] [1], 64⟩ ::
      .dir 1 ⟨1, 1, 0, "rw"⟩
        ⟨.leaf ((List.range k).map c6name) ((List.range k).map (· + 2)), 64⟩ ::
      (List.range k).map (fun i => .dir (Int.ofNat (i + 2)) ⟨i + 2, i + 2, 0, "rw"⟩ ⟨.leaf [] [], 64⟩),
    rootId := 0,
    clock := k + 2 }

/-- The façade state after all 64 `mkdir`s of `c6paths 64`: the 64th
insertion split `/d`'s full leaf, promoting the pivot `"P"` (kept in the
left leaf as well) into the new internal root. -/
def c6split : VFSState :=
  { table := .dir 0 ⟨0, 0, 0, "rw"⟩ ⟨.leaf ["d"] [1], 64⟩ ::
      .dir 1 ⟨1, 1, 0, "rw"⟩ ⟨.internal ["P"]
        [.leaf ((List.range 33).map c6name) ((List.range 33).map (· + 2)),
         .leaf ((List.range 31).map (fun i => c6name (i + 33))) ((List.range 31).map (· + 35))], 64⟩ ::
      (List.range 64).map (fun i => .dir (Int.ofNat (i + 2)) ⟨i + 2, i + 2, 0, "rw"⟩ ⟨.leaf [] [], 64⟩),
    rootId := 0,
    clock := 66 }

/-- Modelled from the spec: `src/fs/node.py` is absent from `src/`; per
§2/§3 and the `vfs.py` header, a `Directory` inode owns shared `Meta`, the
mutable table identity, and one order-64 B-tree index mapping child name to
child identity, with thin wrappers `add_child`/`get_child`/`del_child`/
`iter_names` delegating to the B-tree. -/
structure Directory where
  ident : Int
  meta : Meta
  children : BTree
deriving DecidableEq

/-- Modelled from the spec (see `Directory`): `Directory(id_=-1)`. -/
def Directory.new (clock : Nat) : Directory :=
  ⟨-1, ⟨clock, clock, 0, "rw"⟩, BTree.empty 64⟩

/-- `Directory.add_child`: delegate to `BTree.insert`. -/
def Directory.addChild (d : Directory) (name : String) (inodeId : Nat) : Directory :=
  { d with children := d.children.insert name inodeId }

/-- `Directory.get_child`: delegate to `BTree.get` (`none` = `KeyError`). -/
def Directory.getChild (d : Directory) (name : String) : Option Nat :=
  d.children.get name

/-- `Directory.del_child`: delegate to `BTree.delete`. -/
def Directory.delChild (d : Directory) (name : String) : Option Directory :=
  (d.children.del name).map fun t => { d with children := t }

/-- `Directory.iter_names`: delegate to `BTree.iter`. -/
def Directory.iterNames (d : Directory) : List String := d.children.iterKeys

/-- One child-index operation of the refinement game of claim C1. -/
inductive DirOp : Type where
  | add (name : String) (inodeId : Nat) : DirOp
  | get (name : String) : DirOp
  | del (name : String) : DirOp
  | iterN : DirOp

/-- The observable outcome of one `DirOp`: the returned value (`none` = a
raised `KeyError`), whether a deletion raised, or the iteration order. -/
inductive DirOut : Type where
  | unit : DirOut
  | value (v : Option Nat) : DirOut
  | delOk (ok : Bool) : DirOut
  | names (l : List String) : DirOut
deriving DecidableEq

/-- Run a sequence of child operations against a `Directory`. -/
def Directory.runOps : List DirOp → Directory → List DirOut
  | [], _ => []
  | .add n i :: rest, d => .unit :: Directory.runOps rest (d.addChild n i)
  | .get n :: rest, d => .value (d.getChild n) :: Directory.runOps rest d
  | .del n :: rest, d =>
    match d.delChild n with
    | some d2 => .delOk true :: Directory.runOps rest d2
    | none => .delOk false :: Directory.runOps rest d
  | .iterN :: rest, d => .names d.iterNames :: Directory.runOps rest d

/-- Run the same sequence directly against a `BTree`. -/
def BTree.runOps : List DirOp → BTree → List DirOut
  | [], _ => []
  | .add n i :: rest, t => .unit :: BTree.runOps rest (t.insert n i)
  | .get n :: rest, t => .value (t.get n) :: BTree.runOps rest t
  | .del n :: rest, t =>
    match t.del n with
    | some t2 => .delOk true :: BTree.runOps rest t2
    | none => .delOk false :: BTree.runOps rest t
  | .iterN :: rest, t => .names t.iterKeys :: BTree.runOps rest t

/-- Strict lower bound check for a key (`none` = unbounded). -/
def obLt : Option String → String → Bool
  | none, _ => true
  | some l, x => strLt l x

/-- Inclusive upper bound check for a key (`none` = unbounded). -/
def obLe : String → Option String → Bool
  | _, none => true
  | x, some u => strLe x u

/-- Strict upper bound check for a key (`none` = unbounded). -/
def obLtU : String → Option String → Bool
  | _, none => true
  | x, some u => strLt x u

/-- Inclusive lower bound check for a key (`none` = unbounded). -/
def obLeL : Option String → String → Bool
  | none, _ => true
  | some l, x => strLe l x

/-- The list is nondecreasing under Python string order. -/
def chainLe : List String → Bool
  | [] => true
  | [_] => true
  | a :: b :: r => strLe a b && chainLe (b :: r)

mutual

/-- Well-formedness of a node within inclusive bounds `[lo, hi]`: keys
nondecreasing and inside the bounds; leaves have aligned value arrays; an
internal node's children partition the bounds at its keys, each key being
kept (inclusive) in the subtree to its left — the pivot-retention
discipline of `_split_child`.  A child list one shorter than usual (the
shape `_split_child` leaves behind for the left half) is permitted exactly
when the node's last key equals its upper bound. -/
def BNode.wfB : Option String → Option String → BNode → Bool
  | lo, hi, .leaf ks vs =>
    chainLe ks && ks.all (fun x => obLeL lo x && obLe x hi) && (vs.length == ks.length)
  | lo, hi, .internal ks kids =>
    chainLe ks && ks.all (fun x => obLeL lo x && obLe x hi) && BNode.wfKids lo hi ks kids

/-- Bounds-respecting alignment of an internal node's keys and children. -/
def BNode.wfKids : Option String → Option String → List String → List BNode → Bool
  | lo, hi, [], [] => lo == hi
  | lo, hi, [], [c] => BNode.wfB lo hi c
  | lo, hi, k :: ks, c :: cs => BNode.wfB lo (some k) c && BNode.wfKids (some k) hi ks cs
  | _, _, _, _ :: _ :: _ => false
  | _, _, _ :: _, [] => false

end

/-- Tree-level well-formedness. -/
def BTree.wf (t : BTree) : Bool := BNode.wfB none none t.root

/-- Every key the iteration yields is reachable via `get` (rules out the
unreachable promoted pivots that splits create). -/
def BTree.reachAll (t : BTree) : Bool :=
  t.iterKeys.all (fun k => (t.get k).isSome)

mutual

/-- All values stored in the leaves of a subtree. -/
def BNode.valsAll : BNode → List Nat
  | .leaf _ vs => vs
  | .internal _ kids => BNode.valsAllL kids

/-- All values stored under a list of nodes. -/
def BNode.valsAllL : List BNode → List Nat
  | [] => []
  | c :: cs => BNode.valsAll c ++ BNode.valsAllL cs

end

/-- Identity-resolvability invariant used by the error-taxonomy theorem:
the root identity and every identity stored in any directory index resolve
in the inode table. -/
def VFSState.tableOk (s : VFSState) : Bool :=
  decide (s.rootId < s.table.length) &&
  s.table.all (fun ino =>
    match ino with
    | .dir _ _ ch => ch.root.valsAll.all (fun v => decide (v < s.table.length))
    | .file _ _ _ => true)

/-- Helper for `VFSState.edgeOk`: check the entries of a table suffix whose
first entry sits at slot `i`. -/
def edgeOkFrom : Nat → List INode → Bool
  | _, [] => true
  | i, ino :: rest =>
    (match ino with
     | .dir _ _ ch => ch.root.valsAll.all (fun v => decide (i < v))
     | .file _ _ _ => true) && edgeOkFrom (i + 1) rest

/-- Every directory-index entry points to a strictly later-allocated
identity than its owner's slot (so parent chains strictly increase and the
namespace graph is acyclic). -/
def VFSState.edgeOk (s : VFSState) : Bool := edgeOkFrom 0 s.table

/-- Every directory index is a well-formed order-64 tree all of whose
names are reachable. -/
def VFSState.treesOk (s : VFSState) : Bool :=
  s.table.all (fun ino =>
    match ino with
    | .dir _ _ ch => BTree.wf ch && BTree.reachAll ch && (ch.order == 64)
    | .file _ _ _ => true)

/-- Helper for `VFSState.idsOk`: check a table suffix starting at slot `i`. -/
def idsOkFrom : Nat → List INode → Bool
  | _, [] => true
  | i, ino :: rest => (INode.ident ino == Int.ofNat i) && idsOkFrom (i + 1) rest

/-- Every stored inode's `id` field equals its table slot. -/
def VFSState.idsOk (s : VFSState) : Bool := idsOkFrom 0 s.table

/-- One public façade operation (the six verbs of §4.3). -/
inductive FsOp : Type where
  | mkdir (p : String) : FsOp
  | touch (p : String) : FsOp
  | write (p : String) (data : List Nat) : FsOp
  | read (p : String) : FsOp
  | ls (p : String) : FsOp
  | rm (p : String) : FsOp

/-- The state reached after one public operation (results dropped;
mutations persist whether or not the operation raised, as in Python). -/
def FsOp.apply (o : FsOp) (s : VFSState) : VFSState :=
  match o with
  | .mkdir p => (VFS.mkdir s p).1
  | .touch p => (VFS.touch s p).1
  | .write p data => (VFS.write s p data).1
  | .read p => (VFS.read s p).1
  | .ls p => (VFS.ls s p).1
  | .rm p => (VFS.rm s p).1

/-- The state reached after a sequence of public operations. -/
def FsOp.applySeq : List FsOp → VFSState → VFSState
  | [], s => s
  | o :: os, s => FsOp.applySeq os (o.apply s)

/-- Lookup-only walk over path segments (no implicit creation): used to
observe that `VFS._split_path` has made every intermediate component
present. -/
def lookSegs : List String → VFSState → Nat → Option Nat
  | [], _, cur => some cur
  | seg :: rest, s, cur =>
    match s.table.get? cur with
    | some (.dir _ _ ch) =>
      match ch.get seg with
      | some cid => lookSegs rest s cid
      | none => none
    | _ => none

/-- Observe the metadata stored at a table slot. -/
def VFSState.metaAt (s : VFSState) (i : Nat) : Option Meta :=
  match s.table.get? i with
  | some (.dir _ m _) => some m
  | some (.file _ m _) => some m
  | none => none

/-- Observe the byte content of the file stored at a table slot. -/
def VFSState.contentAt (s : VFSState) (i : Nat) : Option (List Nat) :=
  match s.table.get? i with
  | some (.file _ _ c) => some c
  | _ => none

theorem dirRunOps_eq_btree (ops : List DirOp) : ∀ d : Directory,
    Directory.runOps ops d = BTree.runOps ops d.children := by
  induction ops with
  | nil => intro d; rfl
  | cons o rest ih =>
    intro d
    cases o with
    | add n i => simp [Directory.runOps, BTree.runOps, Directory.addChild, ih]
    | get n => simp [Directory.runOps, BTree.runOps, Directory.getChild, ih]
    | del n =>
      simp only [Directory.runOps, BTree.runOps, Directory.delChild]
      cases h : d.children.del n with
      | some t2 => simp [h, ih]
      | none => simp [h, ih]
    | iterN => simp [Directory.runOps, BTree.runOps, Directory.iterNames, ih]

/-- C1: a `Directory`'s child-name index is the custom order-64 B-tree of
§4.1: for every sequence of child operations, `add_child`/`get_child`/
`del_child`/`iter_names` on a fresh `Directory` produce exactly the
observable results (returned values, raised `KeyError`s, iteration order)
of `BTree.insert`/`get`/`delete`/`iter` on a fresh order-64 `BTree`. -/
theorem c1_directory_refines_btree (clock : Nat) (ops : List DirOp) :
    Directory.runOps ops (Directory.new clock) = BTree.runOps ops (BTree.empty 64) := by
  rw [dirRunOps_eq_btree]
  rfl

/-- C2: a concrete sequence of distinct-key insertions (into an order-4
Ordered Index) forcing two node splits, after which the promoted pivots
`"c"` and `"f"` — inserted and never deleted — are unreachable: `get`
fails with `KeyError` on both. -/
theorem c2_pivot_unreachable_after_splits :
    ((BTree.empty 4).insertAll
        [("a",1),("b",2),("c",3),("d",4),("e",5),("f",6),("g",7),("h",8)]).root.nkeys
      = ["c","f"] ∧
    ((BTree.empty 4).insertAll
        [("a",1),("b",2),("c",3),("d",4),("e",5),("f",6),("g",7),("h",8)]).get "c" = none ∧
    ((BTree.empty 4).insertAll
        [("a",1),("b",2),("c",3),("d",4),("e",5),("f",6),("g",7),("h",8)]).get "f" = none ∧
    "c" ∈ ["a","b","c","d","e","f","g","h"] := by
  refine ⟨by decide, by decide, by decide, by decide⟩

/-- C3 counterexample: the distinct keys `a,b,c,d` inserted into an order-4
Ordered Index make `iterate()` yield `a,b,c,c,d` — the promoted pivot `c`
is yielded twice (once from the left leaf that retains it, once from the
parent), so the output is neither duplicate-free nor strictly increasing. -/
theorem c3_counterexample :
    ["a","b","c","d"].Nodup ∧
    ((BTree.empty 4).insertAll [("a",1),("b",2),("c",3),("d",4)]).iterKeys
      = ["a","b","c","c","d"] ∧
    ¬ ((BTree.empty 4).insertAll [("a",1),("b",2),("c",3),("d",4)]).iterKeys.Nodup := by
  refine ⟨by decide, by decide, by decide⟩

/-- C4 counterexample: on a fresh namespace `ls("/missing")` escapes with a
raw Python `KeyError` (the uncaught `get_child` failure in `VFS.ls`), which
is outside the five-kind §7 taxonomy — not `NotFound` or `NotADirectory`. -/
theorem c4_counterexample :
    (VFS.ls VFS.fresh "/missing").2 = .error .pyKeyError ∧
    Err.inTaxonomy .pyKeyError = false ∧
    Err.pyKeyError ≠ Err.notFound ∧ Err.pyKeyError ≠ Err.notADirectory := by
  refine ⟨by decide, by decide, by decide, by decide⟩

/-- C5 counterexample: `touch("/a")` creates the file at clock tick 1, so
its metadata carries `modified = 1`; the subsequent `write("/a", b"...")`
(running at clock tick 2) updates `size` to 3 and the content, but leaves
`modified` at its creation value 1 — the last-modified metadata is not
updated. -/
theorem c5_counterexample :
    (VFS.touch VFS.fresh "/a").1.clock = 2 ∧
    ((VFS.touch VFS.fresh "/a").1.metaAt 1).map Meta.modified = some 1 ∧
    ((VFS.write (VFS.touch VFS.fresh "/a").1 "/a" [1,2,3]).1.metaAt 1).map Meta.modified
      = some 1 ∧
    ((VFS.write (VFS.touch VFS.fresh "/a").1 "/a" [1,2,3]).1.metaAt 1).map Meta.size
      = some 3 ∧
    (VFS.write (VFS.touch VFS.fresh "/a").1 "/a" [1,2,3]).1.contentAt 1 = some [1,2,3] := by
  refine ⟨by decide, by decide, by decide, by decide, by decide⟩

/-- C7 counterexample: with `/d` an existing directory, `write("/d", data)`
fails with `NotADirectory` and the subsequent `read("/d")` also fails with
`NotADirectory` — so `write(p, data)` followed by `read(p)` does not return
`data` for every valid absolute path `p`. -/
theorem c7_counterexample :
    (VFS.write (VFS.mkdir VFS.fresh "/d").1 "/d" [104]).2 = .error .notADirectory ∧
    ¬ ((VFS.read (VFS.write (VFS.mkdir VFS.fresh "/d").1 "/d" [104]).1 "/d").2
        = .ok [104]) := by
  refine ⟨by decide, by decide⟩

theorem mkdirSeq_append (l1 l2 : List String) : ∀ s : VFSState,
    mkdirSeq (l1 ++ l2) s =
      ((mkdirSeq l2 (mkdirSeq l1 s).1).1,
        (mkdirSeq l1 s).2 && (mkdirSeq l2 (mkdirSeq l1 s).1).2) := by
  induction l1 with
  | nil => intro s; simp [mkdirSeq]
  | cons p ps ih =>
    intro s
    simp only [List.cons_append, mkdirSeq]
    cases h : VFS.mkdir s p with
    | mk s2 r =>
      cases r with
      | ok u => simp [ih]
      | error e => simp [ih]

set_option maxRecDepth 1000000 in
set_option maxHeartbeats 2000000 in
theorem c6chunkA : mkdirSeq (c6paths 16) VFS.fresh = (c6lit 16, true) := by decide

set_option maxRecDepth 1000000 in
set_option maxHeartbeats 2000000 in
theorem c6chunkB : mkdirSeq ((c6paths 32).drop 16) (c6lit 16) = (c6lit 32, true) := by decide

set_option maxRecDepth 1000000 in
set_option maxHeartbeats 2000000 in
theorem c6chunkC : mkdirSeq ((c6paths 48).drop 32) (c6lit 32) = (c6lit 48, true) := by decide

set_option maxRecDepth 1000000 in
set_option maxHeartbeats 2000000 in
theorem c6chunkD : mkdirSeq ((c6paths 64).drop 48) (c6lit 48) = (c6split, true) := by decide

theorem c6run_eq : mkdirSeq (c6paths 64) VFS.fresh = (c6split, true) := by
  have he : c6paths 64
      = c6paths 16 ++ ((c6paths 32).drop 16 ++ ((c6paths 48).drop 32 ++ (c6paths 64).drop 48)) := by
    decide
  rw [he, mkdirSeq_append, c6chunkA, mkdirSeq_append, c6chunkB, mkdirSeq_append, c6chunkC,
    c6chunkD]
  rfl

/-- C6 counterexample: from a fresh namespace, run the 64 sibling `mkdir`s
of `c6paths 64` (all succeed; the path `/d/P` is among them — it is the
33rd).  The 64th insertion splits `/d`'s index and promotes `"P"` as pivot,
making it unreachable via `get`; a second `mkdir("/d/P")` therefore does
not fail with `AlreadyExists` — it succeeds and inserts a duplicate
entry. -/
theorem c6_counterexample :
    "/d/P" ∈ c6paths 64 ∧
    (mkdirSeq (c6paths 64) VFS.fresh).2 = true ∧
    (VFS.mkdir (mkdirSeq (c6paths 64) VFS.fresh).1 "/d/P").2 = .ok () := by
  refine ⟨by decide, ?_, ?_⟩
  · rw [c6run_eq]
  · rw [c6run_eq]
    decide

/-- C6 (amended): `mkdir` and `touch` fail with `AlreadyExists` exactly
when the parent index's `get` still finds the final component — regardless
of the kind of inode the found identity denotes; when a split has made the
name an unreachable promoted pivot, the lookup misses and a repeated
`mkdir` instead succeeds (see the counterexample). -/
theorem c6_amended_creation_alreadyExists
    (s s1 : VFSState) (path : String) (pid : Nat) (name : String)
    (di : Int) (dm : Meta) (ch : BTree)
    (hsp : VFS.splitPath s path = (s1, .ok (pid, name)))
    (ht : s1.table.get? pid = some (.dir di dm ch))
    (hg : (ch.get name).isSome) :
    (VFS.mkdir s path).2 = .error .alreadyExists ∧
    (VFS.touch s path).2 = .error .alreadyExists := by
  obtain ⟨cid, hcid⟩ := Option.isSome_iff_exists.mp hg
  constructor
  · simp only [VFS.mkdir, hsp, ht, hcid]
  · simp only [VFS.touch, hsp, ht, hcid]

/-- Witness for the amended C6 theorem at a concrete input: after
`mkdir("/a")` on a fresh namespace, both `mkdir("/a")` and `touch("/a")`
fail with `AlreadyExists`. -/
theorem c6_amended_witness :
    (VFS.mkdir (VFS.mkdir VFS.fresh "/a").1 "/a").2 = .error .alreadyExists ∧
    (VFS.touch (VFS.mkdir VFS.fresh "/a").1 "/a").2 = .error .alreadyExists :=
  c6_amended_creation_alreadyExists (VFS.mkdir VFS.fresh "/a").1 (VFS.mkdir VFS.fresh "/a").1
    "/a" 0 "a" 0 ⟨0, 0, 0, "rw"⟩ ⟨.leaf ["a"] [1], 64⟩
    (by decide) (by decide) (by decide)

theorem INode.ident_setId (ino : INode) (v : Int) : (ino.setId v).ident = v := by
  cases ino <;> rfl

theorem VFSState.allocate_table (s : VFSState) (ino : INode) :
    (s.allocate ino).1.table = s.table ++ [ino.setId (Int.ofNat s.table.length)] := rfl

theorem VFSState.allocate_len (s : VFSState) (ino : INode) :
    (s.allocate ino).1.table.length = s.table.length + 1 := by
  simp [VFSState.allocate]

theorem VFSState.allocNewDir_len (s : VFSState) :
    (s.allocNewDir).1.table.length = s.table.length + 1 := by
  simp [VFSState.allocNewDir, VFSState.allocate]

theorem VFSState.allocNewFile_len (s : VFSState) (data : List Nat) :
    (s.allocNewFile data).1.table.length = s.table.length + 1 := by
  simp [VFSState.allocNewFile, VFSState.allocate]

theorem VFSState.addChild_len (s : VFSState) (did : Nat) (n : String) (cid : Nat) :
    (s.addChild did n cid).table.length = s.table.length := by
  unfold VFSState.addChild
  cases h : s.table.get? did with
  | none => rfl
  | some ino => cases ino <;> simp

theorem walkSegs_len : ∀ (segs : List String) (s : VFSState) (cur : Nat)
    (s1 : VFSState) (r : Except Err Nat), walkSegs segs s cur = (s1, r) →
    s.table.length ≤ s1.table.length := by
  intro segs
  induction segs with
  | nil => intro s cur s1 r h; cases h; omega
  | cons seg rest ih =>
    intro s cur s1 r h
    simp only [walkSegs] at h
    cases ht : s.table.get? cur with
    | none => rw [ht] at h; cases h; omega
    | some ino =>
      rw [ht] at h
      cases ino with
      | file fi fm fc => simp at h; rcases h with ⟨rfl, rfl⟩; omega
      | dir di dm ch =>
        simp only at h
        cases hg : ch.get seg with
        | some cid =>
          rw [hg] at h
          exact ih s cid s1 r h
        | none =>
          rw [hg] at h
          have h2 := ih _ _ _ _ h
          have h3 := VFSState.addChild_len (s.allocNewDir).1 cur seg (s.allocNewDir).2
          have h4 := VFSState.allocNewDir_len s
          omega

theorem splitPath_len {s : VFSState} {p : String} {s1 : VFSState}
    {r : Except Err (Nat × String)} (h : VFS.splitPath s p = (s1, r)) :
    s.table.length ≤ s1.table.length := by
  unfold VFS.splitPath at h
  by_cases ha : isAbs p = true
  · rw [if_pos ha] at h
    simp only [] at h
    cases hw : walkSegs (pathParts p).dropLast s s.rootId with
    | mk s2 r2 =>
      rw [hw] at h
      have hlen := walkSegs_len _ _ _ _ _ hw
      cases r2 <;> simp only [Prod.mk.injEq] at h <;> rcases h with ⟨rfl, rfl⟩ <;> omega
  · rw [if_neg ha] at h
    cases h
    omega

theorem VFS.mkdir_len (s : VFSState) (p : String) :
    s.table.length ≤ (VFS.mkdir s p).1.table.length := by
  unfold VFS.mkdir
  cases hsp : VFS.splitPath s p with
  | mk s1 r =>
    have h1 := splitPath_len hsp
    cases r with
    | error e => simpa using h1
    | ok pr =>
      obtain ⟨pid, name⟩ := pr
      cases ht : s1.table.get? pid with
      | none => simp only [ht]; exact h1
      | some ino =>
        cases ino with
        | file a b m => simp only [ht]; exact h1
        | dir di dm ch =>
          simp only [ht]
          cases hg : ch.get name with
          | some cid => simp only [hg]; exact h1
          | none =>
            simp only [hg]
            have h2 := VFSState.addChild_len s1.allocNewDir.1 pid name s1.allocNewDir.2
            have h3 := VFSState.allocNewDir_len s1
            omega

theorem VFS.touch_len (s : VFSState) (p : String) :
    s.table.length ≤ (VFS.touch s p).1.table.length := by
  unfold VFS.touch
  cases hsp : VFS.splitPath s p with
  | mk s1 r =>
    have h1 := splitPath_len hsp
    cases r with
    | error e => simpa using h1
    | ok pr =>
      obtain ⟨pid, name⟩ := pr
      cases ht : s1.table.get? pid with
      | none => simp only [ht]; exact h1
      | some ino =>
        cases ino with
        | file a b m => simp only [ht]; exact h1
        | dir di dm ch =>
          simp only [ht]
          cases hg : ch.get name with
          | some cid => simp only [hg]; exact h1
          | none =>
            simp only [hg]
            have h2 := VFSState.addChild_len (s1.allocNewFile []).1 pid name (s1.allocNewFile []).2
            have h3 := VFSState.allocNewFile_len s1 []
            omega

theorem VFS.write_len (s : VFSState) (p : String) (data : List Nat) :
    s.table.length ≤ (VFS.write s p data).1.table.length := by
  unfold VFS.write
  cases hsp : VFS.splitPath s p with
  | mk s1 r =>
    have h1 := splitPath_len hsp
    cases r with
    | error e => simpa using h1
    | ok pr =>
      obtain ⟨pid, name⟩ := pr
      cases ht : s1.table.get? pid with
      | none => simp only [ht]; exact h1
      | some ino =>
        cases ino with
        | file a b m => simp only [ht]; exact h1
        | dir di dm ch =>
          simp only [ht]
          have h2 := VFSState.addChild_len (s1.allocNewFile data).1 pid name (s1.allocNewFile data).2
          have h3 := VFSState.allocNewFile_len s1 data
          cases hg : ch.get name with
          | none =>
            simp only [hg]
            omega
          | some cid =>
            simp only [hg]
            cases ht2 : s1.table.get? cid with
            | none => simp only []; omega
            | some ino2 =>
              cases ino2 with
              | dir x y z => simp only []; exact h1
              | file fi fm fc =>
                simp only [List.length_set]
                exact h1

theorem VFS.read_len (s : VFSState) (p : String) :
    s.table.length ≤ (VFS.read s p).1.table.length := by
  unfold VFS.read
  cases hsp : VFS.splitPath s p with
  | mk s1 r =>
    have h1 := splitPath_len hsp
    cases r with
    | error e => simpa using h1
    | ok pr =>
      obtain ⟨pid, name⟩ := pr
      cases ht : s1.table.get? pid with
      | none => simp only [ht]; exact h1
      | some ino =>
        cases ino with
        | file a b m => simp only [ht]; exact h1
        | dir di dm ch =>
          simp only [ht]
          cases hg : ch.get name with
          | none => simp only [hg]; exact h1
          | some cid =>
            simp only [hg]
            cases ht2 : s1.table.get? cid with
            | none => exact h1
            | some ino2 => cases ino2 <;> exact h1

theorem VFS.ls_len (s : VFSState) (p : String) :
    s.table.length ≤ (VFS.ls s p).1.table.length := by
  unfold VFS.ls
  by_cases hroot : p = "/"
  · rw [if_pos hroot]
    cases ht : s.table.get? s.rootId with
    | none => simp only []; omega
    | some ino => cases ino <;> (simp only []; omega)
  · rw [if_neg hroot]
    cases hsp : VFS.splitPath s p with
    | mk s1 r =>
      have h1 := splitPath_len hsp
      cases r with
      | error e => simpa using h1
      | ok pr =>
        obtain ⟨pid, name⟩ := pr
        cases ht : s1.table.get? pid with
        | none => simp only [ht]; exact h1
        | some ino =>
          cases ino with
          | file a b m => simp only [ht]; exact h1
          | dir di dm ch =>
            simp only [ht]
            cases hg : ch.get name with
            | none => simp only [hg]; exact h1
            | some cid =>
              simp only [hg]
              cases ht2 : s1.table.get? cid with
              | none => exact h1
              | some ino2 => cases ino2 <;> exact h1

theorem VFS.rm_len (s : VFSState) (p : String) :
    s.table.length ≤ (VFS.rm s p).1.table.length := by
  unfold VFS.rm
  cases hsp : VFS.splitPath s p with
  | mk s1 r =>
    have h1 := splitPath_len hsp
    cases r with
    | error e => simpa using h1
    | ok pr =>
      obtain ⟨pid, name⟩ := pr
      cases ht : s1.table.get? pid with
      | none => simp only [ht]; exact h1
      | some ino =>
        cases ino with
        | file a b m => simp only [ht]; exact h1
        | dir di dm ch =>
          simp only [ht]
          cases hg : ch.get name with
          | none => simp only [hg]; exact h1
          | some cid =>
            simp only [hg]
            cases hd : ch.del name with
            | none => simp only []; exact h1
            | some ch2 =>
              simp only [List.length_set]
              exact h1

theorem FsOp.apply_len (o : FsOp) (s : VFSState) :
    s.table.length ≤ (o.apply s).table.length := by
  cases o with
  | mkdir p => exact VFS.mkdir_len s p
  | touch p => exact VFS.touch_len s p
  | write p data => exact VFS.write_len s p data
  | read p => exact VFS.read_len s p
  | ls p => exact VFS.ls_len s p
  | rm p => exact VFS.rm_len s p

theorem FsOp.applySeq_len : ∀ (ops : List FsOp) (s : VFSState),
    s.table.length ≤ (FsOp.applySeq ops s).table.length := by
  intro ops
  induction ops with
  | nil => intro s; simp [FsOp.applySeq]
  | cons o os ih =>
    intro s
    have h1 := FsOp.apply_len o s
    have h2 := ih (o.apply s)
    simp only [FsOp.applySeq]
    omega

theorem idsOkFrom_append : ∀ (l1 l2 : List INode) (i : Nat),
    idsOkFrom i (l1 ++ l2) = (idsOkFrom i l1 && idsOkFrom (i + l1.length) l2) := by
  intro l1
  induction l1 with
  | nil => intro l2 i; simp [idsOkFrom]
  | cons a l1' ih =>
    intro l2 i
    have harith : i + 1 + l1'.length = i + (l1'.length + 1) := by omega
    simp only [List.cons_append, idsOkFrom, List.length_cons, List.append_eq]
    rw [ih, Bool.and_assoc, harith]

theorem idsOkFrom_get? : ∀ (l : List INode) (i j : Nat) (ino : INode),
    idsOkFrom i l = true → l.get? j = some ino → INode.ident ino = Int.ofNat (i + j) := by
  intro l
  induction l with
  | nil => intro i j ino h hg; simp at hg
  | cons a l' ih =>
    intro i j ino h hg
    simp only [idsOkFrom, Bool.and_eq_true, beq_iff_eq] at h
    cases j with
    | zero =>
      simp only [List.get?] at hg
      cases hg
      simpa using h.1
    | succ j' =>
      simp only [List.get?] at hg
      have := ih (i + 1) j' ino h.2 hg
      rw [this]
      congr 1
      omega

theorem idsOkFrom_set : ∀ (l : List INode) (i j : Nat) (ino : INode),
    idsOkFrom i l = true → INode.ident ino = Int.ofNat (i + j) →
    idsOkFrom i (l.set j ino) = true := by
  intro l
  induction l with
  | nil => intro i j ino h hid; simpa using h
  | cons a l' ih =>
    intro i j ino h hid
    simp only [idsOkFrom, Bool.and_eq_true, beq_iff_eq] at h
    cases j with
    | zero =>
      simp only [List.set, idsOkFrom, Bool.and_eq_true, beq_iff_eq]
      exact ⟨by simpa using hid, h.2⟩
    | succ j' =>
      simp only [List.set, idsOkFrom, Bool.and_eq_true, beq_iff_eq]
      refine ⟨h.1, ih (i + 1) j' ino h.2 ?_⟩
      rw [hid]
      congr 1
      omega

theorem idsOk_allocate (s : VFSState) (ino : INode) (h : s.idsOk = true) :
    (s.allocate ino).1.idsOk = true := by
  unfold VFSState.idsOk at h ⊢
  rw [VFSState.allocate_table, idsOkFrom_append, h]
  simp [idsOkFrom, INode.ident_setId]

theorem idsOk_allocNewDir (s : VFSState) (h : s.idsOk = true) :
    s.allocNewDir.1.idsOk = true :=
  idsOk_allocate _ _ h

theorem idsOk_allocNewFile (s : VFSState) (data : List Nat) (h : s.idsOk = true) :
    (s.allocNewFile data).1.idsOk = true :=
  idsOk_allocate _ _ h

theorem idsOk_addChild (s : VFSState) (did : Nat) (n : String) (cid : Nat)
    (h : s.idsOk = true) : (s.addChild did n cid).idsOk = true := by
  unfold VFSState.addChild
  cases ht : s.table.get? did with
  | none => exact h
  | some ino =>
    cases ino with
    | file a b c => exact h
    | dir di dm ch =>
      have hident := idsOkFrom_get? s.table 0 did _ h ht
      simp only [INode.ident] at hident
      exact idsOkFrom_set s.table 0 did _ h (by simpa using hident)

theorem idsOk_setFile (s : VFSState) (cid : Nat) (fi : Int) (fm : Meta) (data : List Nat)
    (oldm : Meta) (oldc : List Nat)
    (ht : s.table.get? cid = some (.file fi oldm oldc)) (h : s.idsOk = true) :
    ({ s with table := s.table.set cid (.file fi fm data) } : VFSState).idsOk = true := by
  have hident := idsOkFrom_get? s.table 0 cid _ h ht
  simp only [INode.ident] at hident
  exact idsOkFrom_set s.table 0 cid _ h (by simpa using hident)

theorem idsOk_setDirTree (s : VFSState) (pid : Nat) (di : Int) (dm : Meta) (ch2 : BTree)
    (oldm : Meta) (oldch : BTree)
    (ht : s.table.get? pid = some (.dir di oldm oldch)) (h : s.idsOk = true) :
    ({ s with table := s.table.set pid (.dir di dm ch2) } : VFSState).idsOk = true := by
  have hident := idsOkFrom_get? s.table 0 pid _ h ht
  simp only [INode.ident] at hident
  exact idsOkFrom_set s.table 0 pid _ h (by simpa using hident)

theorem idsOk_walk : ∀ (segs : List String) (s : VFSState) (cur : Nat)
    (s1 : VFSState) (r : Except Err Nat), walkSegs segs s cur = (s1, r) →
    s.idsOk = true → s1.idsOk = true := by
  intro segs
  induction segs with
  | nil => intro s cur s1 r h hok; cases h; exact hok
  | cons seg rest ih =>
    intro s cur s1 r h hok
    simp only [walkSegs] at h
    cases ht : s.table.get? cur with
    | none => rw [ht] at h; cases h; exact hok
    | some ino =>
      rw [ht] at h
      cases ino with
      | file fi fm fc =>
        simp only [Prod.mk.injEq] at h
        rcases h with ⟨rfl, rfl⟩
        exact hok
      | dir di dm ch =>
        simp only at h
        cases hg : ch.get seg with
        | some cid =>
          rw [hg] at h
          exact ih s cid s1 r h hok
        | none =>
          rw [hg] at h
          exact ih _ _ _ _ h (idsOk_addChild _ _ _ _ (idsOk_allocNewDir s hok))

theorem idsOk_splitPath {s : VFSState} {p : String} {s1 : VFSState}
    {r : Except Err (Nat × String)} (h : VFS.splitPath s p = (s1, r))
    (hok : s.idsOk = true) : s1.idsOk = true := by
  unfold VFS.splitPath at h
  by_cases ha : isAbs p = true
  · rw [if_pos ha] at h
    simp only [] at h
    cases hw : walkSegs (pathParts p).dropLast s s.rootId with
    | mk s2 r2 =>
      rw [hw] at h
      have := idsOk_walk _ _ _ _ _ hw hok
      cases r2 <;> simp only [Prod.mk.injEq] at h <;> rcases h with ⟨rfl, rfl⟩ <;> assumption
  · rw [if_neg ha] at h
    cases h
    exact hok

theorem idsOk_mkdir (s : VFSState) (p : String) (hok : s.idsOk = true) :
    (VFS.mkdir s p).1.idsOk = true := by
  unfold VFS.mkdir
  cases hsp : VFS.splitPath s p with
  | mk s1 r =>
    have h1 := idsOk_splitPath hsp hok
    cases r with
    | error e => simpa using h1
    | ok pr =>
      obtain ⟨pid, name⟩ := pr
      cases ht : s1.table.get? pid with
      | none => simp only [ht]; exact h1
      | some ino =>
        cases ino with
        | file a b m => simp only [ht]; exact h1
        | dir di dm ch =>
          simp only [ht]
          cases hg : ch.get name with
          | some cid => simp only [hg]; exact h1
          | none =>
            simp only [hg]
            exact idsOk_addChild _ _ _ _ (idsOk_allocNewDir s1 h1)

theorem idsOk_touch (s : VFSState) (p : String) (hok : s.idsOk = true) :
    (VFS.touch s p).1.idsOk = true := by
  unfold VFS.touch
  cases hsp : VFS.splitPath s p with
  | mk s1 r =>
    have h1 := idsOk_splitPath hsp hok
    cases r with
    | error e => simpa using h1
    | ok pr =>
      obtain ⟨pid, name⟩ := pr
      cases ht : s1.table.get? pid with
      | none => simp only [ht]; exact h1
      | some ino =>
        cases ino with
        | file a b m => simp only [ht]; exact h1
        | dir di dm ch =>
          simp only [ht]
          cases hg : ch.get name with
          | some cid => simp only [hg]; exact h1
          | none =>
            simp only [hg]
            exact idsOk_addChild _ _ _ _ (idsOk_allocNewFile s1 [] h1)

theorem idsOk_write (s : VFSState) (p : String) (data : List Nat) (hok : s.idsOk = true) :
    (VFS.write s p data).1.idsOk = true := by
  unfold VFS.write
  cases hsp : VFS.splitPath s p with
  | mk s1 r =>
    have h1 := idsOk_splitPath hsp hok
    cases r with
    | error e => simpa using h1
    | ok pr =>
      obtain ⟨pid, name⟩ := pr
      cases ht : s1.table.get? pid with
      | none => simp only [ht]; exact h1
      | some ino =>
        cases ino with
        | file a b m => simp only [ht]; exact h1
        | dir di dm ch =>
          simp only [ht]
          cases hg : ch.get name with
          | none =>
            simp only [hg]
            exact idsOk_addChild _ _ _ _ (idsOk_allocNewFile s1 data h1)
          | some cid =>
            simp only [hg]
            cases ht2 : s1.table.get? cid with
            | none =>
              simp only []
              exact idsOk_addChild _ _ _ _ (idsOk_allocNewFile s1 data h1)
            | some ino2 =>
              cases ino2 with
              | dir x y z => simp only []; exact h1
              | file fi fm fc =>
                simp only []
                exact idsOk_setFile s1 cid fi _ data fm fc ht2 h1

theorem idsOk_read (s : VFSState) (p : String) (hok : s.idsOk = true) :
    (VFS.read s p).1.idsOk = true := by
  unfold VFS.read
  cases hsp : VFS.splitPath s p with
  | mk s1 r =>
    have h1 := idsOk_splitPath hsp hok
    cases r with
    | error e => simpa using h1
    | ok pr =>
      obtain ⟨pid, name⟩ := pr
      cases ht : s1.table.get? pid with
      | none => simp only [ht]; exact h1
      | some ino =>
        cases ino with
        | file a b m => simp only [ht]; exact h1
        | dir di dm ch =>
          simp only [ht]
          cases hg : ch.get name with
          | none => simp only [hg]; exact h1
          | some cid =>
            simp only [hg]
            cases ht2 : s1.table.get? cid with
            | none => exact h1
            | some ino2 => cases ino2 <;> exact h1

theorem idsOk_ls (s : VFSState) (p : String) (hok : s.idsOk = true) :
    (VFS.ls s p).1.idsOk = true := by
  unfold VFS.ls
  by_cases hroot : p = "/"
  · rw [if_pos hroot]
    cases ht : s.table.get? s.rootId with
    | none => exact hok
    | some ino => cases ino <;> exact hok
  · rw [if_neg hroot]
    cases hsp : VFS.splitPath s p with
    | mk s1 r =>
      have h1 := idsOk_splitPath hsp hok
      cases r with
      | error e => simpa using h1
      | ok pr =>
        obtain ⟨pid, name⟩ := pr
        cases ht : s1.table.get? pid with
        | none => simp only [ht]; exact h1
        | some ino =>
          cases ino with
          | file a b m => simp only [ht]; exact h1
          | dir di dm ch =>
            simp only [ht]
            cases hg : ch.get name with
            | none => simp only [hg]; exact h1
            | some cid =>
              simp only [hg]
              cases ht2 : s1.table.get? cid with
              | none => exact h1
              | some ino2 => cases ino2 <;> exact h1

theorem idsOk_rm (s : VFSState) (p : String) (hok : s.idsOk = true) :
    (VFS.rm s p).1.idsOk = true := by
  unfold VFS.rm
  cases hsp : VFS.splitPath s p with
  | mk s1 r =>
    have h1 := idsOk_splitPath hsp hok
    cases r with
    | error e => simpa using h1
    | ok pr =>
      obtain ⟨pid, name⟩ := pr
      cases ht : s1.table.get? pid with
      | none => simp only [ht]; exact h1
      | some ino =>
        cases ino with
        | file a b m => simp only [ht]; exact h1
        | dir di dm ch =>
          simp only [ht]
          cases hg : ch.get name with
          | none => simp only [hg]; exact h1
          | some cid =>
            simp only [hg]
            cases hd : ch.del name with
            | none => simp only []; exact h1
            | some ch2 =>
              simp only []
              exact idsOk_setDirTree s1 pid di dm ch2 dm ch ht h1

theorem idsOk_apply (o : FsOp) (s : VFSState) (hok : s.idsOk = true) :
    (o.apply s).idsOk = true := by
  cases o with
  | mkdir p => exact idsOk_mkdir s p hok
  | touch p => exact idsOk_touch s p hok
  | write p data => exact idsOk_write s p data hok
  | read p => exact idsOk_read s p hok
  | ls p => exact idsOk_ls s p hok
  | rm p => exact idsOk_rm s p hok

theorem idsOk_applySeq : ∀ (ops : List FsOp) (s : VFSState), s.idsOk = true →
    (FsOp.applySeq ops s).idsOk = true := by
  intro ops
  induction ops with
  | nil => intro s h; exact h
  | cons o os ih => intro s h; exact ih _ (idsOk_apply o s h)

/-- C10: the implicit identity invariant.  `allocate` returns the next
sequential identity (the table length) and stores the inode with its `id`
field overwritten to that identity — so the façade's `-1` placeholder never
persists; a fresh namespace satisfies the slot-equals-id invariant, every
public operation preserves it, and hence every state reachable by public
operations satisfies it. -/
theorem c10_inode_id_invariant :
    (∀ (s : VFSState) (ino : INode),
      (s.allocate ino).2 = s.table.length ∧
      (s.allocate ino).1.table.get? s.table.length
        = some (ino.setId (Int.ofNat s.table.length))) ∧
    VFS.fresh.idsOk = true ∧
    (∀ (s : VFSState) (o : FsOp), s.idsOk = true → (o.apply s).idsOk = true) ∧
    (∀ ops : List FsOp, (FsOp.applySeq ops VFS.fresh).idsOk = true) := by
  refine ⟨?_, by decide, fun s o h => idsOk_apply o s h, ?_⟩
  · intro s ino
    refine ⟨rfl, ?_⟩
    rw [VFSState.allocate_table, List.get?_append_right (le_refl _)]
    simp
  · intro ops
    exact idsOk_applySeq ops VFS.fresh (by decide)

/-- Witness for C10 at concrete inputs: allocating into an empty table
returns identity 0, and one `touch` on a fresh namespace preserves the
slot-equals-id invariant. -/
theorem c10_witness :
    ((VFSState.mk [] 0 0).allocate (newFile 0 [7])).2 = 0 ∧
    (FsOp.apply (.touch "/a") VFS.fresh).idsOk = true := by
  constructor
  · exact (c10_inode_id_invariant.1 (VFSState.mk [] 0 0) (newFile 0 [7])).1
  · exact c10_inode_id_invariant.2.2.1 VFS.fresh (.touch "/a") (by decide)

/-- C9: identity retention.  Every public operation only grows the inode
table; after any operation sequence every previously allocated identity is
still resolvable via the table; and a successful `rm` changes the state by
exactly one thing — replacing the parent directory's index with the index
from which the `(name, identity)` pair was deleted — removing nothing from
the inode table. -/
theorem c9_inode_table_retention :
    (∀ (s : VFSState) (o : FsOp), s.table.length ≤ (o.apply s).table.length) ∧
    (∀ (ops : List FsOp) (s : VFSState) (i : Nat), i < s.table.length →
      ∃ ino, (FsOp.applySeq ops s).table.get? i = some ino) ∧
    (∀ (s s1 : VFSState) (p : String) (pid : Nat) (name : String)
      (di : Int) (dm : Meta) (ch : BTree) (cid : Nat) (ch2 : BTree),
      VFS.splitPath s p = (s1, .ok (pid, name)) →
      s1.table.get? pid = some (.dir di dm ch) →
      ch.get name = some cid →
      ch.del name = some ch2 →
      VFS.rm s p = ({ s1 with table := s1.table.set pid (.dir di dm ch2) }, .ok ())) := by
  refine ⟨fun s o => FsOp.apply_len o s, ?_, ?_⟩
  · intro ops s i hi
    have hlen := FsOp.applySeq_len ops s
    have h2 : i < (FsOp.applySeq ops s).table.length := by omega
    exact ⟨_, List.get?_eq_get h2⟩
  · intro s s1 p pid name di dm ch cid ch2 hsp ht hg hd
    unfold VFS.rm
    rw [hsp]
    simp only [ht, hg, hd]

/-- Witness for C9 at concrete inputs: the file created by `touch("/a")`
(identity 1) is still resolvable after `rm("/a")`, and that `rm` only
replaces the root directory's index with the one-deletion-smaller index. -/
theorem c9_witness :
    (∃ ino, (FsOp.applySeq [.rm "/a"] (VFS.touch VFS.fresh "/a").1).table.get? 1
      = some ino) ∧
    VFS.rm (VFS.mkdir VFS.fresh "/a").1 "/a"
      = ({ (VFS.mkdir VFS.fresh "/a").1 with
            table := (VFS.mkdir VFS.fresh "/a").1.table.set 0
              (.dir 0 ⟨0, 0, 0, "rw"⟩ ⟨.leaf [] [], 64⟩) }, .ok ()) := by
  constructor
  · exact c9_inode_table_retention.2.1 [.rm "/a"] (VFS.touch VFS.fresh "/a").1 1 (by decide)
  · exact c9_inode_table_retention.2.2 (VFS.mkdir VFS.fresh "/a").1
      (VFS.mkdir VFS.fresh "/a").1 "/a" 0 "a" 0 ⟨0, 0, 0, "rw"⟩ ⟨.leaf ["a"] [1], 64⟩ 1
      ⟨.leaf [] [], 64⟩ (by decide) (by decide) (by decide) (by decide)

theorem valsAllL_mem_of_mem {x : Nat} {c : BNode} : ∀ {l : List BNode}, c ∈ l →
    x ∈ c.valsAll → x ∈ BNode.valsAllL l := by
  intro l
  induction l with
  | nil => intro h; cases h
  | cons d ds ih =>
    intro hc hx
    rcases List.mem_cons.mp hc with rfl | h2
    · simp [BNode.valsAllL, hx]
    · simp [BNode.valsAllL, ih h2 hx]

theorem valsAllL_set_sub {x : Nat} {c : BNode} : ∀ (l : List BNode) (i : Nat),
    x ∈ BNode.valsAllL (l.set i c) → x ∈ c.valsAll ∨ x ∈ BNode.valsAllL l := by
  intro l
  induction l with
  | nil => intro i h; simp [BNode.valsAllL] at h
  | cons d ds ih =>
    intro i h
    cases i with
    | zero =>
      simp only [List.set, BNode.valsAllL, List.mem_append] at h
      rcases h with h | h
      · exact Or.inl h
      · exact Or.inr (by simp [BNode.valsAllL, h])
    | succ j =>
      simp only [List.set, BNode.valsAllL, List.mem_append] at h
      rcases h with h | h
      · exact Or.inr (by simp [BNode.valsAllL, h])
      · rcases ih j h with h2 | h2
        · exact Or.inl h2
        · exact Or.inr (by simp [BNode.valsAllL, h2])

theorem valsAllL_pyInsert_sub {x : Nat} {c : BNode} : ∀ (l : List BNode) (i : Nat),
    x ∈ BNode.valsAllL (pyInsert l i c) → x ∈ c.valsAll ∨ x ∈ BNode.valsAllL l := by
  intro l
  induction l with
  | nil =>
    intro i h
    cases i <;> simp only [pyInsert, BNode.valsAllL, List.mem_append] at h <;>
      simpa [BNode.valsAllL] using h
  | cons d ds ih =>
    intro i h
    cases i with
    | zero =>
      simp only [pyInsert, BNode.valsAllL, List.mem_append] at h
      rcases h with h | h | h
      · exact Or.inl h
      · exact Or.inr (by simp [BNode.valsAllL, List.mem_append, h])
      · exact Or.inr (by simp [BNode.valsAllL, List.mem_append, h])
    | succ j =>
      simp only [pyInsert, BNode.valsAllL, List.mem_append] at h
      rcases h with h | h
      · exact Or.inr (by simp [BNode.valsAllL, h])
      · rcases ih j h with h2 | h2
        · exact Or.inl h2
        · exact Or.inr (by simp [BNode.valsAllL, h2])

theorem valsAllL_take_sub {x : Nat} : ∀ (l : List BNode) (n : Nat),
    x ∈ BNode.valsAllL (l.take n) → x ∈ BNode.valsAllL l := by
  intro l
  induction l with
  | nil => intro n h; cases n <;> simpa using h
  | cons d ds ih =>
    intro n h
    cases n with
    | zero => simp [BNode.valsAllL] at h
    | succ m =>
      simp only [List.take, BNode.valsAllL, List.mem_append] at h ⊢
      rcases h with h | h
      · exact Or.inl h
      · exact Or.inr (ih m h)

theorem valsAllL_drop_sub {x : Nat} : ∀ (l : List BNode) (n : Nat),
    x ∈ BNode.valsAllL (l.drop n) → x ∈ BNode.valsAllL l := by
  intro l
  induction l with
  | nil => intro n h; cases n <;> simpa using h
  | cons d ds ih =>
    intro n h
    cases n with
    | zero => exact h
    | succ m =>
      simp only [List.drop] at h
      simp only [BNode.valsAllL, List.mem_append]
      exact Or.inr (ih m h)

theorem splitChild_vals_sub {x : Nat} {order : Nat} {pks : List String}
    {pkids : List BNode} {i : Nat}
    (h : x ∈ BNode.valsAllL (splitChild order pks pkids i).2) :
    x ∈ BNode.valsAllL pkids := by
  unfold splitChild at h
  cases hg : pkids.get? i with
  | none => rw [hg] at h; exact h
  | some y =>
    have hy : y ∈ pkids := List.get?_mem hg
    rw [hg] at h
    cases y with
    | leaf ks vs =>
      simp only at h
      rcases valsAllL_pyInsert_sub _ _ h with h2 | h2
      · refine valsAllL_mem_of_mem hy ?_
        simp only [BNode.valsAll] at h2 ⊢
        exact List.drop_subset _ _ h2
      · rcases valsAllL_set_sub _ _ h2 with h3 | h3
        · refine valsAllL_mem_of_mem hy ?_
          simp only [BNode.valsAll] at h3 ⊢
          exact List.take_subset _ _ h3
        · exact h3
    | internal ks kids =>
      simp only at h
      rcases valsAllL_pyInsert_sub _ _ h with h2 | h2
      · refine valsAllL_mem_of_mem hy ?_
        simp only [BNode.valsAll] at h2 ⊢
        exact valsAllL_drop_sub _ _ h2
      · rcases valsAllL_set_sub _ _ h2 with h3 | h3
        · refine valsAllL_mem_of_mem hy ?_
          simp only [BNode.valsAll] at h3 ⊢
          exact valsAllL_take_sub _ _ h3
        · exact h3

theorem insertNF_vals_sub {order : Nat} {k : String} {v x : Nat} :
    ∀ (fuel : Nat) (n : BNode), x ∈ (BNode.insertNF order k v fuel n).valsAll →
    x = v ∨ x ∈ n.valsAll := by
  intro fuel
  induction fuel with
  | zero =>
    intro n h
    cases n with
    | leaf ks vs =>
      simp only [BNode.insertNF, BNode.valsAll] at h
      rcases mem_pyInsert h with rfl | h2
      · exact Or.inl rfl
      · exact Or.inr h2
    | internal ks kids => exact Or.inr h
  | succ fuel ih =>
    intro n h
    cases n with
    | leaf ks vs =>
      simp only [BNode.insertNF, BNode.valsAll] at h
      rcases mem_pyInsert h with rfl | h2
      · exact Or.inl rfl
      · exact Or.inr h2
    | internal ks kids =>
      simp only [BNode.insertNF] at h
      by_cases hfull :
          ((kids.getD (descentIdx ks k) (.leaf [] [])).nkeys.length = order - 1)
      · rw [if_pos hfull] at h
        cases hget : (splitChild order ks kids (descentIdx ks k)).2.get?
            (if strLt ((splitChild order ks kids (descentIdx ks k)).1.getD (descentIdx ks k) "") k
              then descentIdx ks k + 1 else descentIdx ks k) with
        | none =>
          rw [hget] at h
          simp only [BNode.valsAll] at h
          exact Or.inr (splitChild_vals_sub h)
        | some c =>
          rw [hget] at h
          simp only [BNode.valsAll] at h
          rcases valsAllL_set_sub _ _ h with h2 | h2
          · rcases ih c h2 with h3 | h3
            · exact Or.inl h3
            · exact Or.inr (splitChild_vals_sub
                (valsAllL_mem_of_mem (List.get?_mem hget) h3))
          · exact Or.inr (splitChild_vals_sub h2)
      · rw [if_neg hfull] at h
        cases hget : kids.get? (descentIdx ks k) with
        | none =>
          rw [hget] at h
          exact Or.inr h
        | some c =>
          rw [hget] at h
          simp only [BNode.valsAll] at h
          rcases valsAllL_set_sub _ _ h with h2 | h2
          · rcases ih c h2 with h3 | h3
            · exact Or.inl h3
            · exact Or.inr (valsAllL_mem_of_mem (List.get?_mem hget) h3)
          · exact Or.inr h2

theorem BTree.insert_vals_sub {t : BTree} {k : String} {v x : Nat}
    (h : x ∈ (t.insert k v).root.valsAll) : x = v ∨ x ∈ t.root.valsAll := by
  unfold BTree.insert at h
  by_cases hfull : (t.root.nkeys.length = t.order - 1)
  · rw [if_pos hfull] at h
    simp only [] at h
    rcases insertNF_vals_sub _ _ h with h2 | h2
    · exact Or.inl h2
    · simp only [BNode.valsAll] at h2
      have h3 := splitChild_vals_sub h2
      exact Or.inr (by simpa [BNode.valsAllL] using h3)
  · rw [if_neg hfull] at h
    exact insertNF_vals_sub _ _ h

theorem getKid_eq : ∀ (l : List BNode) (i : Nat) (k : String) (v : Nat),
    BNode.getKid l i k = some v → ∃ c ∈ l, BNode.get c k = some v := by
  intro l
  induction l with
  | nil => intro i k v h; simp [BNode.getKid] at h
  | cons c cs ih =>
    intro i k v h
    cases i with
    | zero => exact ⟨c, by simp, h⟩
    | succ j =>
      obtain ⟨c2, hc2, hg⟩ := ih j k v h
      exact ⟨c2, by simp [hc2], hg⟩

theorem get_mem_vals : ∀ (n : BNode) (k : String) (v : Nat),
    BNode.get n k = some v → v ∈ n.valsAll := by
  intro n
  induction n using BNode.inductOn with
  | hl ks vs =>
    intro k v h
    simp only [BNode.get] at h
    by_cases hc : ks.get? (bisectLeft ks k) = some k
    · rw [if_pos hc] at h
      exact List.get?_mem h
    · rw [if_neg hc] at h
      cases h
  | hi ks kids ih =>
    intro k v h
    simp only [BNode.get] at h
    obtain ⟨c, hc, hg⟩ := getKid_eq _ _ _ _ h
    exact valsAllL_mem_of_mem hc (ih c hc k v hg)

theorem getKid_isSome_delKid : ∀ (l : List BNode) (i : Nat) (k : String),
    (∀ c ∈ l, (BNode.get c k).isSome → (BNode.del c k).isSome) →
    (BNode.getKid l i k).isSome → (BNode.delKid l i k).isSome := by
  intro l
  induction l with
  | nil => intro i k hind h; simp [BNode.getKid] at h
  | cons c cs ih =>
    intro i k hind h
    cases i with
    | zero =>
      simp only [BNode.getKid] at h
      have h2 := hind c (by simp) h
      simp only [BNode.delKid]
      obtain ⟨c2, hc2⟩ := Option.isSome_iff_exists.mp h2
      rw [hc2]
      rfl
    | succ j =>
      simp only [BNode.getKid] at h
      have h2 := ih j k (fun c2 hc2 => hind c2 (by simp [hc2])) h
      simp only [BNode.delKid]
      obtain ⟨cs2, hcs2⟩ := Option.isSome_iff_exists.mp h2
      rw [hcs2]
      rfl

theorem get_isSome_del : ∀ (n : BNode) (k : String),
    (BNode.get n k).isSome → (BNode.del n k).isSome := by
  intro n
  induction n using BNode.inductOn with
  | hl ks vs =>
    intro k h
    simp only [BNode.get] at h
    simp only [BNode.del]
    by_cases hc : ks.get? (bisectLeft ks k) = some k
    · rw [if_pos hc]
      rfl
    · rw [if_neg hc] at h
      simp at h
  | hi ks kids ih =>
    intro k h
    simp only [BNode.get] at h
    simp only [BNode.del]
    have h2 := getKid_isSome_delKid _ _ _ (fun c hc => ih c hc k) h
    obtain ⟨kids2, hk2⟩ := Option.isSome_iff_exists.mp h2
    rw [hk2]
    rfl

theorem delKid_vals_sub_aux : ∀ (l : List BNode) (i : Nat) (k : String) (l2 : List BNode),
    (∀ c ∈ l, ∀ c2, BNode.del c k = some c2 → ∀ x ∈ c2.valsAll, x ∈ c.valsAll) →
    BNode.delKid l i k = some l2 → ∀ x ∈ BNode.valsAllL l2, x ∈ BNode.valsAllL l := by
  intro l
  induction l with
  | nil => intro i k l2 hind h; simp [BNode.delKid] at h
  | cons c cs ih =>
    intro i k l2 hind h x hx
    cases i with
    | zero =>
      simp only [BNode.delKid] at h
      cases hd : BNode.del c k with
      | none => rw [hd] at h; cases h
      | some c2 =>
        rw [hd] at h
        simp only [Option.some.injEq] at h
        subst h
        simp only [BNode.valsAllL, List.mem_append] at hx ⊢
        rcases hx with hx | hx
        · exact Or.inl (hind c (by simp) c2 hd x hx)
        · exact Or.inr hx
    | succ j =>
      simp only [BNode.delKid] at h
      cases hd : BNode.delKid cs j k with
      | none => rw [hd] at h; cases h
      | some cs2 =>
        rw [hd] at h
        simp only [Option.some.injEq] at h
        subst h
        simp only [BNode.valsAllL, List.mem_append] at hx ⊢
        rcases hx with hx | hx
        · exact Or.inl hx
        · exact Or.inr (ih j k cs2 (fun c2 hc2 => hind c2 (by simp [hc2])) hd x hx)

theorem del_vals_sub : ∀ (n : BNode) (k : String) (n2 : BNode),
    BNode.del n k = some n2 → ∀ x ∈ n2.valsAll, x ∈ n.valsAll := by
  intro n
  induction n using BNode.inductOn with
  | hl ks vs =>
    intro k n2 h x hx
    simp only [BNode.del] at h
    by_cases hc : ks.get? (bisectLeft ks k) = some k
    · rw [if_pos hc] at h
      simp only [Option.some.injEq] at h
      subst h
      simp only [BNode.valsAll] at hx ⊢
      exact List.eraseIdx_subset _ _ hx
    · rw [if_neg hc] at h
      cases h
  | hi ks kids ih =>
    intro k n2 h x hx
    simp only [BNode.del] at h
    cases hd : BNode.delKid kids
        (if ks.get? (bisectLeft ks k) = some k then bisectLeft ks k + 1 else bisectLeft ks k) k with
    | none => rw [hd] at h; cases h
    | some kids2 =>
      rw [hd] at h
      simp only [Option.some.injEq] at h
      subst h
      simp only [BNode.valsAll] at hx ⊢
      exact delKid_vals_sub_aux _ _ _ _ (fun c hc => ih c hc k) hd x hx

theorem tableOk_iff {s : VFSState} : s.tableOk = true ↔
    (s.rootId < s.table.length ∧
     ∀ di dm ch, (INode.dir di dm ch) ∈ s.table → ∀ v ∈ ch.root.valsAll,
       v < s.table.length) := by
  unfold VFSState.tableOk
  rw [Bool.and_eq_true, List.all_eq_true, decide_eq_true_eq]
  constructor
  · rintro ⟨h1, h2⟩
    refine ⟨h1, ?_⟩
    intro di dm ch hmem v hv
    have h3 := h2 _ hmem
    simp only [List.all_eq_true] at h3
    simpa using h3 v hv
  · rintro ⟨h1, h2⟩
    refine ⟨h1, ?_⟩
    intro ino hmem
    cases ino with
    | file a b c => rfl
    | dir di dm ch =>
      simp only [List.all_eq_true]
      intro v hv
      simpa using h2 di dm ch hmem v hv

theorem tableOk_clock (s : VFSState) (c : Nat) :
    ({ s with clock := c } : VFSState).tableOk = s.tableOk := rfl

theorem tableOk_allocNewDir (s : VFSState) (h : s.tableOk = true) :
    s.allocNewDir.1.tableOk = true := by
  rw [tableOk_iff] at h ⊢
  obtain ⟨h1, h2⟩ := h
  unfold VFSState.allocNewDir VFSState.allocate
  simp only [List.length_append, List.length_singleton]
  constructor
  · omega
  · intro di dm ch hmem v hv
    rcases List.mem_append.mp hmem with hmem2 | hmem2
    · have := h2 di dm ch hmem2 v hv
      omega
    · simp only [List.mem_singleton] at hmem2
      cases hmem2
      simp [BNode.valsAll, BTree.empty] at hv

theorem tableOk_allocNewFile (s : VFSState) (data : List Nat) (h : s.tableOk = true) :
    (s.allocNewFile data).1.tableOk = true := by
  rw [tableOk_iff] at h ⊢
  obtain ⟨h1, h2⟩ := h
  unfold VFSState.allocNewFile VFSState.allocate
  simp only [List.length_append, List.length_singleton]
  constructor
  · omega
  · intro di dm ch hmem v hv
    rcases List.mem_append.mp hmem with hmem2 | hmem2
    · have := h2 di dm ch hmem2 v hv
      omega
    · simp only [List.mem_singleton] at hmem2
      cases hmem2

theorem tableOk_addChild (s : VFSState) (did : Nat) (seg : String) (cid : Nat)
    (h : s.tableOk = true) (hcid : cid < s.table.length) :
    (s.addChild did seg cid).tableOk = true := by
  unfold VFSState.addChild
  cases ht : s.table.get? did with
  | none => exact h
  | some ino =>
    cases ino with
    | file a b c => exact h
    | dir di dm ch =>
      rw [tableOk_iff] at h ⊢
      obtain ⟨h1, h2⟩ := h
      simp only [List.length_set]
      constructor
      · exact h1
      · intro di2 dm2 ch2 hmem v hv
        rcases List.mem_or_eq_of_mem_set hmem with hmem2 | heq
        · exact h2 di2 dm2 ch2 hmem2 v hv
        · have hinj : di2 = di ∧ dm2 = dm ∧ ch2 = ch.insert seg cid := by
            injection heq with a b c
            exact ⟨a, b, c⟩
          obtain ⟨rfl, rfl, rfl⟩ := hinj
          rcases BTree.insert_vals_sub hv with rfl | hv2
          · exact hcid
          · exact h2 _ _ ch (List.get?_mem ht) v hv2

theorem walk_taxonomy : ∀ (segs : List String) (s : VFSState) (cur : Nat)
    (s1 : VFSState) (r : Except Err Nat), walkSegs segs s cur = (s1, r) →
    s.tableOk = true → cur < s.table.length →
    s1.tableOk = true ∧ (∀ e, r = .error e → e = Err.notADirectory) ∧
    (∀ pid, r = .ok pid → pid < s1.table.length) := by
  intro segs
  induction segs with
  | nil =>
    intro s cur s1 r h hok hcur
    cases h
    refine ⟨hok, ?_, ?_⟩
    · intro e he
      exact Except.noConfusion he
    · intro pid hp
      injection hp with hp2
      subst hp2
      exact hcur
  | cons seg rest ih =>
    intro s cur s1 r h hok hcur
    simp only [walkSegs] at h
    cases ht : s.table.get? cur with
    | none =>
      exfalso
      rw [List.get?_eq_none] at ht
      omega
    | some ino =>
      rw [ht] at h
      cases ino with
      | file fi fm fc =>
        simp only [Prod.mk.injEq] at h
        rcases h with ⟨rfl, rfl⟩
        refine ⟨hok, ?_, ?_⟩
        · intro e he
          injection he with he2
          exact he2.symm
        · intro pid hp
          cases hp
      | dir di dm ch =>
        simp only at h
        cases hg : ch.get seg with
        | some cid =>
          rw [hg] at h
          have hcmem : cid ∈ ch.root.valsAll := get_mem_vals _ _ _ hg
          have hdirmem := List.get?_mem ht
          have hbound := (tableOk_iff.mp hok).2 di dm ch hdirmem cid hcmem
          exact ih s cid s1 r h hok hbound
        | none =>
          rw [hg] at h
          have hok2 : s.allocNewDir.1.tableOk = true := tableOk_allocNewDir s hok
          have hlen : s.allocNewDir.1.table.length = s.table.length + 1 :=
            VFSState.allocNewDir_len s
          have hnid : s.allocNewDir.2 = s.table.length := rfl
          have hok3 : (s.allocNewDir.1.addChild cur seg s.allocNewDir.2).tableOk = true := by
            refine tableOk_addChild _ _ _ _ hok2 ?_
            rw [hlen, hnid]
            omega
          have hlen2 : (s.allocNewDir.1.addChild cur seg s.allocNewDir.2).table.length
              = s.table.length + 1 := by
            rw [VFSState.addChild_len, hlen]
          refine ih _ _ _ _ h hok3 ?_
          rw [hlen2, hnid]
          omega

theorem splitPath_taxonomy {s : VFSState} {p : String} {s1 : VFSState}
    {r : Except Err (Nat × String)} (h : VFS.splitPath s p = (s1, r))
    (hok : s.tableOk = true) :
    s1.tableOk = true ∧
    (∀ e, r = .error e → e = Err.invalidPath ∨ e = Err.notADirectory) ∧
    (∀ pid name, r = .ok (pid, name) → pid < s1.table.length) := by
  unfold VFS.splitPath at h
  by_cases ha : isAbs p = true
  · rw [if_pos ha] at h
    simp only [] at h
    cases hw : walkSegs (pathParts p).dropLast s s.rootId with
    | mk s2 r2 =>
      rw [hw] at h
      have hroot : s.rootId < s.table.length := (tableOk_iff.mp hok).1
      have hwt := walk_taxonomy _ _ _ _ _ hw hok hroot
      cases r2 with
      | ok pid =>
        simp only [Prod.mk.injEq] at h
        rcases h with ⟨rfl, rfl⟩
        refine ⟨hwt.1, ?_, ?_⟩
        · intro e he
          exact Except.noConfusion he
        · intro pid2 name2 hp
          injection hp with hp2
          injection hp2 with hpa hpb
          subst hpa
          exact hwt.2.2 pid rfl
      | error e =>
        simp only [Prod.mk.injEq] at h
        rcases h with ⟨rfl, rfl⟩
        refine ⟨hwt.1, ?_, ?_⟩
        · intro e2 he
          injection he with he2
          subst he2
          exact Or.inr (hwt.2.1 _ rfl)
        · intro pid name hp
          exact Except.noConfusion hp
  · rw [if_neg ha] at h
    cases h
    refine ⟨hok, ?_, ?_⟩
    · intro e he
      injection he with he2
      exact Or.inl he2.symm
    · intro pid name hp
      exact Except.noConfusion hp

theorem mkdir_taxonomy (s : VFSState) (p : String) (hok : s.tableOk = true) :
    ∀ e : Err, (VFS.mkdir s p).2 = .error e → Err.inTaxonomy e = true := by
  intro e
  unfold VFS.mkdir
  cases hsp : VFS.splitPath s p with
  | mk s1 r =>
    have hsp2 := splitPath_taxonomy hsp hok
    cases r with
    | error e2 =>
      intro he
      injection he with he2
      subst he2
      rcases hsp2.2.1 _ rfl with rfl | rfl <;> rfl
    | ok pr =>
      obtain ⟨pid, name⟩ := pr
      have hpid := hsp2.2.2 pid name rfl
      cases ht : s1.table.get? pid with
      | none =>
        exfalso
        rw [List.get?_eq_none] at ht
        omega
      | some ino =>
        simp only [ht]
        cases ino with
        | file a b c =>
          intro he
          injection he with he2
          subst he2
          rfl
        | dir di dm ch =>
          simp only []
          cases hg : ch.get name with
          | some cid =>
            intro he
            injection he with he2
            subst he2
            rfl
          | none =>
            intro he
            exact Except.noConfusion he

theorem touch_taxonomy (s : VFSState) (p : String) (hok : s.tableOk = true) :
    ∀ e : Err, (VFS.touch s p).2 = .error e → Err.inTaxonomy e = true := by
  intro e
  unfold VFS.touch
  cases hsp : VFS.splitPath s p with
  | mk s1 r =>
    have hsp2 := splitPath_taxonomy hsp hok
    cases r with
    | error e2 =>
      intro he
      injection he with he2
      subst he2
      rcases hsp2.2.1 _ rfl with rfl | rfl <;> rfl
    | ok pr =>
      obtain ⟨pid, name⟩ := pr
      have hpid := hsp2.2.2 pid name rfl
      cases ht : s1.table.get? pid with
      | none =>
        exfalso
        rw [List.get?_eq_none] at ht
        omega
      | some ino =>
        simp only [ht]
        cases ino with
        | file a b c =>
          intro he
          injection he with he2
          subst he2
          rfl
        | dir di dm ch =>
          simp only []
          cases hg : ch.get name with
          | some cid =>
            intro he
            injection he with he2
            subst he2
            rfl
          | none =>
            intro he
            exact Except.noConfusion he

theorem write_taxonomy (s : VFSState) (p : String) (data : List Nat)
    (hok : s.tableOk = true) :
    ∀ e : Err, (VFS.write s p data).2 = .error e → Err.inTaxonomy e = true := by
  intro e
  unfold VFS.write
  cases hsp : VFS.splitPath s p with
  | mk s1 r =>
    have hsp2 := splitPath_taxonomy hsp hok
    cases r with
    | error e2 =>
      intro he
      injection he with he2
      subst he2
      rcases hsp2.2.1 _ rfl with rfl | rfl <;> rfl
    | ok pr =>
      obtain ⟨pid, name⟩ := pr
      have hpid := hsp2.2.2 pid name rfl
      cases ht : s1.table.get? pid with
      | none =>
        exfalso
        rw [List.get?_eq_none] at ht
        omega
      | some ino =>
        simp only [ht]
        cases ino with
        | file a b c =>
          intro he
          injection he with he2
          subst he2
          rfl
        | dir di dm ch =>
          simp only []
          cases hg : ch.get name with
          | none =>
            intro he
            exact Except.noConfusion he
          | some cid =>
            simp only []
            cases ht2 : s1.table.get? cid with
            | none =>
              intro he
              exact Except.noConfusion he
            | some ino2 =>
              cases ino2 with
              | dir x y z =>
                intro he
                injection he with he2
                subst he2
                rfl
              | file fi fm fc =>
                intro he
                exact Except.noConfusion he

theorem read_taxonomy (s : VFSState) (p : String) (hok : s.tableOk = true) :
    ∀ e : Err, (VFS.read s p).2 = .error e → Err.inTaxonomy e = true := by
  intro e
  unfold VFS.read
  cases hsp : VFS.splitPath s p with
  | mk s1 r =>
    have hsp2 := splitPath_taxonomy hsp hok
    cases r with
    | error e2 =>
      intro he
      injection he with he2
      subst he2
      rcases hsp2.2.1 _ rfl with rfl | rfl <;> rfl
    | ok pr =>
      obtain ⟨pid, name⟩ := pr
      have hpid := hsp2.2.2 pid name rfl
      cases ht : s1.table.get? pid with
      | none =>
        exfalso
        rw [List.get?_eq_none] at ht
        omega
      | some ino =>
        simp only [ht]
        cases ino with
        | file a b c =>
          intro he
          injection he with he2
          subst he2
          rfl
        | dir di dm ch =>
          simp only []
          cases hg : ch.get name with
          | none =>
            intro he
            injection he with he2
            subst he2
            rfl
          | some cid =>
            simp only []
            cases ht2 : s1.table.get? cid with
            | none =>
              exfalso
              have hcmem : cid ∈ ch.root.valsAll := get_mem_vals _ _ _ hg
              have hbound := (tableOk_iff.mp hsp2.1).2 di dm ch (List.get?_mem ht) cid hcmem
              rw [List.get?_eq_none] at ht2
              omega
            | some ino2 =>
              cases ino2 with
              | dir x y z =>
                intro he
                injection he with he2
                subst he2
                rfl
              | file fi fm fc =>
                intro he
                exact Except.noConfusion he

theorem rm_taxonomy (s : VFSState) (p : String) (hok : s.tableOk = true) :
    ∀ e : Err, (VFS.rm s p).2 = .error e → Err.inTaxonomy e = true := by
  intro e
  unfold VFS.rm
  cases hsp : VFS.splitPath s p with
  | mk s1 r =>
    have hsp2 := splitPath_taxonomy hsp hok
    cases r with
    | error e2 =>
      intro he
      injection he with he2
      subst he2
      rcases hsp2.2.1 _ rfl with rfl | rfl <;> rfl
    | ok pr =>
      obtain ⟨pid, name⟩ := pr
      have hpid := hsp2.2.2 pid name rfl
      cases ht : s1.table.get? pid with
      | none =>
        exfalso
        rw [List.get?_eq_none] at ht
        omega
      | some ino =>
        simp only [ht]
        cases ino with
        | file a b c =>
          intro he
          injection he with he2
          subst he2
          rfl
        | dir di dm ch =>
          simp only []
          cases hg : ch.get name with
          | none =>
            intro he
            injection he with he2
            subst he2
            rfl
          | some cid =>
            simp only []
            cases hd : ch.del name with
            | none =>
              exfalso
              have hs : (BNode.get ch.root name).isSome := by
                unfold BTree.get at hg
                rw [hg]
                rfl
              have hds := get_isSome_del ch.root name hs
              unfold BTree.del at hd
              obtain ⟨n2, hn2⟩ := Option.isSome_iff_exists.mp hds
              rw [hn2] at hd
              simp at hd
            | some ch2 =>
              intro he
              exact Except.noConfusion he

/-- C4 (amended): with every identity referenced from a directory index
resolvable (`tableOk`), the operations `mkdir`, `touch`, `write`, `read`
and `rm` return a success value or fail with one of the five §7 kinds;
`ls`, however, lets a raw `KeyError` escape when the final component is
absent — on a fresh namespace `ls("/missing")` fails with that
out-of-taxonomy error, not `NotFound`. -/
theorem c4_amended_taxonomy :
    (∀ (s : VFSState) (p : String) (data : List Nat) (e : Err), s.tableOk = true →
      ((VFS.mkdir s p).2 = .error e → Err.inTaxonomy e = true) ∧
      ((VFS.touch s p).2 = .error e → Err.inTaxonomy e = true) ∧
      ((VFS.write s p data).2 = .error e → Err.inTaxonomy e = true) ∧
      ((VFS.read s p).2 = .error e → Err.inTaxonomy e = true) ∧
      ((VFS.rm s p).2 = .error e → Err.inTaxonomy e = true)) ∧
    (VFS.ls VFS.fresh "/missing").2 = .error .pyKeyError ∧
    Err.inTaxonomy .pyKeyError = false := by
  refine ⟨?_, by decide, by decide⟩
  intro s p data e hok
  exact ⟨mkdir_taxonomy s p hok e, touch_taxonomy s p hok e,
    write_taxonomy s p data hok e, read_taxonomy s p hok e, rm_taxonomy s p hok e⟩

/-- Witness for the amended C4 theorem at a concrete input: the `NotFound`
failure of `read("/missing")` on a fresh namespace is in the taxonomy. -/
theorem c4_amended_witness : Err.inTaxonomy .notFound = true :=
  ((c4_amended_taxonomy.1 VFS.fresh "/missing" [] .notFound (by decide)).2.2.2.1)
    (by decide)

/-- C5 (amended): when path resolution finds the final component as an
existing `File` (identity `cid`), `write` replaces that file's content in
place and sets `size` to the byte length of the data, changing no other
table slot and allocating nothing — but the last-modified metadata is left
untouched (the resulting metadata is `fm` with only `size` replaced); when
the final component names an existing `Directory`, `write` fails with
`NotADirectory` and changes nothing at all. -/
theorem c5_amended_write_behavior :
    (∀ (s s1 : VFSState) (p : String) (pid : Nat) (name : String)
      (di : Int) (dm : Meta) (ch : BTree) (cid : Nat) (fi : Int) (fm : Meta)
      (fc : List Nat) (data : List Nat),
      VFS.splitPath s p = (s1, .ok (pid, name)) →
      s1.table.get? pid = some (.dir di dm ch) →
      ch.get name = some cid →
      s1.table.get? cid = some (.file fi fm fc) →
      VFS.write s p data
        = ({ s1 with
              table := s1.table.set cid (.file fi { fm with size := data.length } data) },
            .ok ())) ∧
    (∀ (s s1 : VFSState) (p : String) (pid : Nat) (name : String)
      (di : Int) (dm : Meta) (ch : BTree) (cid : Nat) (ci : Int) (cm : Meta)
      (cch : BTree) (data : List Nat),
      VFS.splitPath s p = (s1, .ok (pid, name)) →
      s1.table.get? pid = some (.dir di dm ch) →
      ch.get name = some cid →
      s1.table.get? cid = some (.dir ci cm cch) →
      VFS.write s p data = (s1, .error .notADirectory)) := by
  constructor
  · intro s s1 p pid name di dm ch cid fi fm fc data hsp ht hg ht2
    unfold VFS.write
    rw [hsp]
    simp only [ht, hg, ht2]
  · intro s s1 p pid name di dm ch cid ci cm cch data hsp ht hg ht2
    unfold VFS.write
    rw [hsp]
    simp only [ht, hg, ht2]

/-- Witness for the amended C5 theorem at concrete inputs: overwriting the
file created by `touch("/a")` updates content and size in place (metadata
keeps `modified = 1`), and writing onto the directory `/d` fails with
`NotADirectory`. -/
theorem c5_amended_witness :
    VFS.write (VFS.touch VFS.fresh "/a").1 "/a" [9, 8]
      = ({ (VFS.touch VFS.fresh "/a").1 with
            table := (VFS.touch VFS.fresh "/a").1.table.set 1
              (.file 1 ⟨1, 1, 2, "rw"⟩ [9, 8]) },
          .ok ()) ∧
    VFS.write (VFS.mkdir VFS.fresh "/d").1 "/d" [9] = ((VFS.mkdir VFS.fresh "/d").1,
      .error .notADirectory) := by
  constructor
  · exact c5_amended_write_behavior.1 (VFS.touch VFS.fresh "/a").1
      (VFS.touch VFS.fresh "/a").1 "/a" 0 "a" 0 ⟨0, 0, 0, "rw"⟩ ⟨.leaf ["a"] [1], 64⟩ 1 1
      ⟨1, 1, 0, "rw"⟩ [] [9, 8] (by decide) (by decide) (by decide) (by decide)
  · exact c5_amended_write_behavior.2 (VFS.mkdir VFS.fresh "/d").1
      (VFS.mkdir VFS.fresh "/d").1 "/d" 0 "d" 0 ⟨0, 0, 0, "rw"⟩ ⟨.leaf ["d"] [1], 64⟩ 1 1
      ⟨1, 1, 0, "rw"⟩ (BTree.empty 64) [9] (by decide) (by decide) (by decide) (by decide)

/- Ordering facts for the Python string order, toward the amended C3:
`strLt` is a strict total order and `strLe` its reflexive closure. -/

theorem strLtL_irrefl : ∀ as : List Char, strLtL as as = false := by
  intro as
  induction as with
  | nil => rfl
  | cons a as ih => simp [strLtL, ih]

theorem strLtL_trans : ∀ (as bs cs : List Char), strLtL as bs = true →
    strLtL bs cs = true → strLtL as cs = true := by
  intro as
  induction as with
  | nil =>
    intro bs cs h1 h2
    cases bs with
    | nil => exact h2
    | cons b bs2 =>
      cases cs with
      | nil => simp [strLtL] at h2
      | cons c cs2 => rfl
  | cons a as2 ih =>
    intro bs cs h1 h2
    cases bs with
    | nil => simp [strLtL] at h1
    | cons b bs2 =>
      cases cs with
      | nil => simp [strLtL] at h2
      | cons c cs2 =>
        simp only [strLtL] at h1 h2 ⊢
        rcases Nat.lt_trichotomy a.toNat b.toNat with hab | hab | hab
        · rcases Nat.lt_trichotomy b.toNat c.toNat with hbc | hbc | hbc
          · rw [if_pos (by omega)]
          · rw [if_pos (by omega)]
          · rw [if_neg (by omega), if_pos (by omega)] at h2
            exact Bool.noConfusion h2
        · rcases Nat.lt_trichotomy b.toNat c.toNat with hbc | hbc | hbc
          · rw [if_pos (by omega)]
          · rw [if_neg (by omega), if_neg (by omega)] at h1
            rw [if_neg (by omega), if_neg (by omega)] at h2
            rw [if_neg (by omega), if_neg (by omega)]
            exact ih bs2 cs2 h1 h2
          · rw [if_neg (by omega), if_pos (by omega)] at h2
            exact Bool.noConfusion h2
        · rw [if_neg (by omega), if_pos (by omega)] at h1
          exact Bool.noConfusion h1

theorem strLtL_conn : ∀ (as bs : List Char), strLtL as bs = false →
    strLtL bs as = false → as = bs := by
  intro as
  induction as with
  | nil =>
    intro bs h1 h2
    cases bs with
    | nil => rfl
    | cons b bs2 => simp [strLtL] at h1
  | cons a as2 ih =>
    intro bs h1 h2
    cases bs with
    | nil => simp [strLtL] at h2
    | cons b bs2 =>
      simp only [strLtL] at h1 h2
      rcases Nat.lt_trichotomy a.toNat b.toNat with hab | hab | hab
      · rw [if_pos (by omega)] at h1
        exact Bool.noConfusion h1
      · rw [if_neg (by omega), if_neg (by omega)] at h1
        rw [if_neg (by omega), if_neg (by omega)] at h2
        have hc : a = b := Char.ext (by
          apply UInt32.ext
          exact hab)
        rw [hc, ih bs2 h1 h2]
      · rw [if_pos (by omega)] at h2
        exact Bool.noConfusion h2

theorem strLt_irrefl (a : String) : strLt a a = false := strLtL_irrefl _

theorem strLt_trans {a b c : String} (h1 : strLt a b = true)
    (h2 : strLt b c = true) : strLt a c = true :=
  strLtL_trans _ _ _ h1 h2

theorem strEq_of_not_lt {a b : String} (h1 : strLt a b = false)
    (h2 : strLt b a = false) : a = b := by
  have h3 := strLtL_conn a.toList b.toList h1 h2
  have h4 : a.data = b.data := h3
  cases a; cases b
  congr 1

theorem strLt_asymm {a b : String} (h : strLt a b = true) : strLt b a = false := by
  cases hb : strLt b a
  · rfl
  · have h3 := strLt_trans h hb
    rw [strLt_irrefl] at h3
    exact Bool.noConfusion h3

theorem strLt_trichot (a b : String) :
    strLt a b = true ∨ a = b ∨ strLt b a = true := by
  cases h1 : strLt a b
  · cases h2 : strLt b a
    · exact Or.inr (Or.inl (strEq_of_not_lt h1 h2))
    · exact Or.inr (Or.inr rfl)
  · exact Or.inl rfl

theorem strLe_false_iff {a b : String} : strLe a b = false ↔ strLt b a = true := by
  simp [strLe]

theorem strLe_iff_not_lt {a b : String} : strLe a b = true ↔ strLt b a = false := by
  simp [strLe]

theorem strLe_refl (a : String) : strLe a a = true :=
  strLe_iff_not_lt.mpr (strLt_irrefl a)

theorem strLe_of_strLt {a b : String} (h : strLt a b = true) : strLe a b = true :=
  strLe_iff_not_lt.mpr (strLt_asymm h)

theorem strLe_iff {a b : String} : strLe a b = true ↔ (strLt a b = true ∨ a = b) := by
  constructor
  · intro h
    rcases strLt_trichot a b with h1 | h1 | h1
    · exact Or.inl h1
    · exact Or.inr h1
    · rw [strLe_iff_not_lt.mp h] at h1
      exact Bool.noConfusion h1
  · intro h
    rcases h with h | rfl
    · exact strLe_of_strLt h
    · exact strLe_refl a

theorem strLe_trans {a b c : String} (h1 : strLe a b = true)
    (h2 : strLe b c = true) : strLe a c = true := by
  rcases strLe_iff.mp h1 with h1 | rfl
  · rcases strLe_iff.mp h2 with h2 | rfl
    · exact strLe_of_strLt (strLt_trans h1 h2)
    · exact strLe_of_strLt h1
  · exact h2

theorem strLe_antisymm {a b : String} (h1 : strLe a b = true)
    (h2 : strLe b a = true) : a = b :=
  strEq_of_not_lt (strLe_iff_not_lt.mp h2) (strLe_iff_not_lt.mp h1)

theorem strLt_of_strLe_of_strLt {a b c : String} (h1 : strLe a b = true)
    (h2 : strLt b c = true) : strLt a c = true := by
  rcases strLe_iff.mp h1 with h1 | rfl
  · exact strLt_trans h1 h2
  · exact h2

theorem strLt_of_strLt_of_strLe {a b c : String} (h1 : strLt a b = true)
    (h2 : strLe b c = true) : strLt a c = true := by
  rcases strLe_iff.mp h2 with h2 | rfl
  · exact strLt_trans h1 h2
  · exact h1

/- Structural facts about nondecreasing key lists (`chainLe`) and about the
insertion/search index primitives, toward the amended C3. -/

theorem chainLe_cons_iff {a : String} {l : List String} :
    chainLe (a :: l) = true ↔ (∀ x ∈ l, strLe a x = true) ∧ chainLe l = true := by
  induction l generalizing a with
  | nil => simp [chainLe]
  | cons b r ih =>
    show (strLe a b && chainLe (b :: r)) = true ↔ _
    rw [Bool.and_eq_true]
    constructor
    · rintro ⟨hab, ht⟩
      refine ⟨?_, ht⟩
      intro x hx
      rcases List.mem_cons.mp hx with rfl | hx
      · exact hab
      · exact strLe_trans hab (((ih).mp ht).1 x hx)
    · rintro ⟨hall, ht⟩
      exact ⟨hall b (List.mem_cons_self b r), ht⟩

theorem chainLe_tail {a : String} {l : List String} (h : chainLe (a :: l) = true) :
    chainLe l = true := (chainLe_cons_iff.mp h).2

theorem chainLe_glue {A B : List String} (hA : chainLe A = true)
    (hB : chainLe B = true) (hAB : ∀ a ∈ A, ∀ b ∈ B, strLe a b = true) :
    chainLe (A ++ B) = true := by
  induction A with
  | nil => simpa using hB
  | cons a A2 ih =>
    rw [List.cons_append]
    rw [chainLe_cons_iff] at hA ⊢
    refine ⟨?_, ih hA.2 (fun x hx b hb => hAB x (List.mem_cons_of_mem a hx) b hb)⟩
    intro x hx
    rcases List.mem_append.mp hx with hx | hx
    · exact hA.1 x hx
    · exact hAB a (List.mem_cons_self a A2) x hx

theorem chainLe_take {l : List String} (h : chainLe l = true) (n : Nat) :
    chainLe (l.take n) = true := by
  induction l generalizing n with
  | nil => simp [chainLe]
  | cons a r ih =>
    cases n with
    | zero => simp [chainLe]
    | succ m =>
      rw [List.take_succ_cons, chainLe_cons_iff]
      rw [chainLe_cons_iff] at h
      exact ⟨fun x hx => h.1 x (List.take_subset m r hx), ih h.2 m⟩

theorem chainLe_drop {l : List String} (h : chainLe l = true) (n : Nat) :
    chainLe (l.drop n) = true := by
  induction l generalizing n with
  | nil => simp [chainLe]
  | cons a r ih =>
    cases n with
    | zero => simpa using h
    | succ m =>
      rw [List.drop_succ_cons]
      exact ih (chainLe_tail h) m

theorem chainLe_head_le {a : String} {l : List String} (h : chainLe (a :: l) = true) :
    ∀ x ∈ l, strLe a x = true := (chainLe_cons_iff.mp h).1

theorem chainLe_take_le {l : List String} {m : Nat} {p : String}
    (h : chainLe l = true) (hp : l.get? m = some p) :
    ∀ x ∈ l.take (m + 1), strLe x p = true := by
  induction l generalizing m with
  | nil => simp at hp
  | cons a r ih =>
    cases m with
    | zero =>
      simp only [List.get?_cons_zero, Option.some.injEq] at hp
      subst hp
      intro x hx
      simp only [List.take_succ_cons, List.take_zero] at hx
      rcases List.mem_singleton.mp hx with rfl
      exact strLe_refl x
    | succ m2 =>
      simp only [List.get?_cons_succ] at hp
      intro x hx
      rw [List.take_succ_cons] at hx
      rcases List.mem_cons.mp hx with rfl | hx
      · exact strLe_trans
          (chainLe_head_le h p (List.get?_mem hp)) (strLe_refl p)
      · exact ih (chainLe_tail h) hp x hx

theorem chainLe_drop_le {l : List String} {m : Nat} {p : String}
    (h : chainLe l = true) (hp : l.get? m = some p) :
    ∀ x ∈ l.drop (m + 1), strLe p x = true := by
  induction l generalizing m with
  | nil => simp at hp
  | cons a r ih =>
    cases m with
    | zero =>
      simp only [List.get?_cons_zero, Option.some.injEq] at hp
      subst hp
      intro x hx
      simp only [List.drop_succ_cons, List.drop_zero] at hx
      exact chainLe_head_le h x hx
    | succ m2 =>
      simp only [List.get?_cons_succ] at hp
      intro x hx
      rw [List.drop_succ_cons] at hx
      exact ih (chainLe_tail h) hp x hx

theorem pyInsert_length {α : Type} : ∀ (l : List α) (i : Nat) (a : α),
    (pyInsert l i a).length = l.length + 1 := by
  intro l
  induction l with
  | nil => intro i a; cases i <;> rfl
  | cons x xs ih =>
    intro i a
    cases i with
    | zero => rfl
    | succ j => simp [pyInsert, ih]

theorem pyInsert_ne_nil {α : Type} (l : List α) (i : Nat) (a : α) :
    pyInsert l i a ≠ [] := by
  intro h
  have h2 := pyInsert_length l i a
  rw [h] at h2
  simp at h2

theorem self_mem_pyInsert {α : Type} : ∀ (l : List α) (i : Nat) (a : α),
    a ∈ pyInsert l i a := by
  intro l
  induction l with
  | nil => intro i a; cases i <;> simp [pyInsert]
  | cons x xs ih =>
    intro i a
    cases i with
    | zero => simp [pyInsert]
    | succ j =>
      show a ∈ x :: pyInsert xs j a
      exact List.mem_cons_of_mem x (ih j a)

theorem mem_pyInsert_of_mem {α : Type} {x : α} : ∀ {l : List α} (i : Nat) (a : α),
    x ∈ l → x ∈ pyInsert l i a := by
  intro l
  induction l with
  | nil => intro i a h; simp at h
  | cons y ys ih =>
    intro i a h
    cases i with
    | zero =>
      show x ∈ a :: y :: ys
      exact List.mem_cons_of_mem a h
    | succ j =>
      show x ∈ y :: pyInsert ys j a
      rcases List.mem_cons.mp h with rfl | h
      · exact List.mem_cons_self x _
      · exact List.mem_cons_of_mem y (ih j a h)

theorem mem_pyInsert_iff {α : Type} {x a : α} {l : List α} {i : Nat} :
    x ∈ pyInsert l i a ↔ (x = a ∨ x ∈ l) := by
  constructor
  · exact mem_pyInsert
  · rintro (rfl | h)
    · exact self_mem_pyInsert l i x
    · exact mem_pyInsert_of_mem i a h

theorem pyInsert_get?_lt {α : Type} : ∀ (l : List α) (i m : Nat) (a : α),
    m < i → i ≤ l.length → (pyInsert l i a).get? m = l.get? m := by
  intro l
  induction l with
  | nil =>
    intro i m a h1 h2
    simp only [List.length_nil, Nat.le_zero] at h2
    omega
  | cons y ys ih =>
    intro i m a h1 h2
    cases i with
    | zero => omega
    | succ j =>
      cases m with
      | zero => rfl
      | succ m2 =>
        simp only [pyInsert, List.get?_cons_succ]
        exact ih j m2 a (by omega) (by simpa using h2)

theorem pyInsert_get?_self {α : Type} : ∀ (l : List α) (i : Nat) (a : α),
    i ≤ l.length → (pyInsert l i a).get? i = some a := by
  intro l
  induction l with
  | nil =>
    intro i a h
    simp only [List.length_nil, Nat.le_zero] at h
    subst h
    rfl
  | cons y ys ih =>
    intro i a h
    cases i with
    | zero => rfl
    | succ j =>
      simp only [pyInsert, List.get?_cons_succ]
      exact ih j a (by simpa using h)

theorem pyInsert_get?_gt {α : Type} : ∀ (l : List α) (i m : Nat) (a : α),
    i ≤ m → i ≤ l.length → (pyInsert l i a).get? (m + 1) = l.get? m := by
  intro l
  induction l with
  | nil =>
    intro i m a h1 h2
    simp only [List.length_nil, Nat.le_zero] at h2
    subst h2
    simp [pyInsert]
  | cons y ys ih =>
    intro i m a h1 h2
    cases i with
    | zero => rfl
    | succ j =>
      cases m with
      | zero => omega
      | succ m2 =>
        simp only [pyInsert, List.get?_cons_succ]
        exact ih j m2 a (by omega) (by simpa using h2)

theorem bisectLeft_le_length : ∀ (ks : List String) (k : String),
    bisectLeft ks k ≤ ks.length := by
  intro ks k
  induction ks with
  | nil => simp [bisectLeft]
  | cons x xs ih =>
    simp only [bisectLeft]
    split
    · simpa using ih
    · simp

theorem chainLe_pyInsert_bisect {ks : List String} {k : String}
    (h : chainLe ks = true) :
    chainLe (pyInsert ks (bisectLeft ks k) k) = true := by
  induction ks with
  | nil => simp [bisectLeft, pyInsert, chainLe]
  | cons x xs ih =>
    simp only [bisectLeft]
    by_cases hx : strLt x k = true
    · rw [if_pos hx]
      show chainLe (x :: pyInsert xs (bisectLeft xs k) k) = true
      rw [chainLe_cons_iff]
      refine ⟨?_, ih (chainLe_tail h)⟩
      intro z hz
      rcases mem_pyInsert_iff.mp hz with rfl | hz
      · exact strLe_of_strLt hx
      · exact chainLe_head_le h z hz
    · rw [if_neg hx]
      show chainLe (k :: x :: xs) = true
      rw [chainLe_cons_iff]
      have hkx : strLe k x = true := by
        simp only [strLe]
        cases hlt : strLt x k
        · rfl
        · exact absurd hlt (by simpa using hx)
      refine ⟨?_, h⟩
      intro z hz
      rcases List.mem_cons.mp hz with rfl | hz
      · exact hkx
      · exact strLe_trans hkx (chainLe_head_le h z hz)

theorem descentIdx_le_length : ∀ (ks : List String) (k : String),
    descentIdx ks k ≤ ks.length := by
  intro ks k
  induction ks with
  | nil => simp [descentIdx]
  | cons x xs ih =>
    simp only [descentIdx]
    split
    · split <;> simp
    · simpa using ih

theorem descentIdx_gt_after : ∀ (ks : List String) (k : String) (m : Nat) (x : String),
    descentIdx ks k ≤ m → ks.get? m = some x → strLt k x = true := by
  intro ks
  induction ks with
  | nil => intro k m x h1 h2; simp at h2
  | cons a xs ih =>
    intro k m x h1 h2
    simp only [descentIdx] at h1
    by_cases hr : descentIdx xs k = 0
    · rw [if_pos hr] at h1
      by_cases ha : strLe a k = true
      · rw [if_pos ha] at h1
        cases m with
        | zero => omega
        | succ m2 =>
          simp only [List.get?_cons_succ] at h2
          exact ih k m2 x (by omega) h2
      · rw [if_neg ha] at h1
        cases m with
        | zero =>
          simp only [List.get?_cons_zero, Option.some.injEq] at h2
          subst h2
          have ha2 : strLe a k = false := by
            cases hb : strLe a k
            · rfl
            · exact absurd hb ha
          exact strLe_false_iff.mp ha2
        | succ m2 =>
          simp only [List.get?_cons_succ] at h2
          exact ih k m2 x (by omega) h2
    · rw [if_neg hr] at h1
      cases m with
      | zero => omega
      | succ m2 =>
        simp only [List.get?_cons_succ] at h2
        exact ih k m2 x (by omega) h2

theorem descentIdx_pred_le : ∀ (ks : List String) (k : String) (j : Nat),
    descentIdx ks k = j + 1 → ∃ x, ks.get? j = some x ∧ strLe x k = true := by
  intro ks
  induction ks with
  | nil => intro k j h; simp [descentIdx] at h
  | cons a xs ih =>
    intro k j h
    simp only [descentIdx] at h
    by_cases hr : descentIdx xs k = 0
    · rw [if_pos hr] at h
      by_cases ha : strLe a k = true
      · rw [if_pos ha] at h
        have hj : j = 0 := by omega
        subst hj
        exact ⟨a, rfl, ha⟩
      · rw [if_neg ha] at h
        omega
    · rw [if_neg hr] at h
      cases j with
      | zero => omega
      | succ j2 =>
        have h2 : descentIdx xs k = j2 + 1 := by omega
        obtain ⟨x, hx1, hx2⟩ := ih k j2 h2
        exact ⟨x, by simpa using hx1, hx2⟩

theorem obLe_of_obLtU {k : String} {hi : Option String} (h : obLtU k hi = true) :
    obLe k hi = true := by
  cases hi with
  | none => rfl
  | some u => exact strLe_of_strLt h

theorem mem_iterKids : ∀ (kids : List BNode) (ks : List String) (x : String),
    x ∈ BNode.iterKids kids ks ↔
      ((∃ c, c ∈ kids ∧ x ∈ BNode.iter c) ∨ x ∈ ks.take (min kids.length ks.length)) := by
  intro kids
  induction kids with
  | nil =>
    intro ks x
    simp [BNode.iterKids]
  | cons c cs ih =>
    intro ks x
    cases ks with
    | nil =>
      show x ∈ BNode.iter c ++ BNode.iterKids cs [] ↔ _
      rw [List.mem_append, ih [] x]
      simp
    | cons k kr =>
      show x ∈ BNode.iter c ++ k :: BNode.iterKids cs kr ↔ _
      rw [List.mem_append, List.mem_cons, ih kr x]
      have hmin : min (cs.length + 1) (kr.length + 1) = min cs.length kr.length + 1 := by
        omega
      simp only [List.length_cons, hmin, List.take_succ_cons, List.mem_cons]
      constructor
      · rintro (hc | rfl | (⟨c2, hc2, hx⟩ | hk))
        · exact Or.inl ⟨c, Or.inl rfl, hc⟩
        · exact Or.inr (Or.inl rfl)
        · exact Or.inl ⟨c2, Or.inr hc2, hx⟩
        · exact Or.inr (Or.inr hk)
      · rintro (⟨c2, hc2, hx⟩ | rfl | hk)
        · rcases hc2 with rfl | hc2
          · exact Or.inl hx
          · exact Or.inr (Or.inr (Or.inl ⟨c2, hc2, hx⟩))
        · exact Or.inr (Or.inl rfl)
        · exact Or.inr (Or.inr (Or.inr hk))

theorem wfKids_lengths : ∀ (ks : List String) (kids : List BNode) (lo hi : Option String),
    BNode.wfKids lo hi ks kids = true →
    kids.length = ks.length ∨ kids.length = ks.length + 1 := by
  intro ks
  induction ks with
  | nil =>
    intro kids lo hi h
    cases kids with
    | nil => simp
    | cons c cs =>
      cases cs with
      | nil => simp
      | cons c2 cs2 => simp [BNode.wfKids] at h
  | cons k ks2 ih =>
    intro kids lo hi h
    cases kids with
    | nil => simp [BNode.wfKids] at h
    | cons c cs =>
      rw [show BNode.wfKids lo hi (k :: ks2) (c :: cs)
            = (BNode.wfB lo (some k) c && BNode.wfKids (some k) hi ks2 cs) by
            simp [BNode.wfKids], Bool.and_eq_true] at h
      rcases ih cs (some k) hi h.2 with h2 | h2 <;> simp [h2]

theorem wfKids_nil_nil {lo hi : Option String}
    (h : BNode.wfKids lo hi [] [] = true) : lo = hi := by
  rw [show BNode.wfKids lo hi [] [] = (lo == hi) from rfl] at h
  exact eq_of_beq h

theorem wfKids_last : ∀ (ks : List String) (kids : List BNode) (lo hi : Option String)
    (x : String), BNode.wfKids lo hi ks kids = true → kids.length = ks.length →
    ks.getLast? = some x → hi = some x := by
  intro ks
  induction ks with
  | nil => intro kids lo hi x h hl hx; simp at hx
  | cons k ks2 ih =>
    intro kids lo hi x h hl hx
    cases kids with
    | nil => simp [BNode.wfKids] at h
    | cons c cs =>
      rw [show BNode.wfKids lo hi (k :: ks2) (c :: cs)
            = (BNode.wfB lo (some k) c && BNode.wfKids (some k) hi ks2 cs) by
            simp [BNode.wfKids], Bool.and_eq_true] at h
      simp only [List.length_cons, Nat.succ.injEq] at hl
      cases ks2 with
      | nil =>
        cases cs with
        | nil =>
          have h2 := wfKids_nil_nil h.2
          simp only [List.getLast?_singleton, Option.some.injEq] at hx
          rw [← h2, hx]
        | cons c2 cs2 => simp at hl
      | cons k2 ks3 =>
        have hx2 : (k2 :: ks3).getLast? = some x := by
          rw [List.getLast?_cons_cons] at hx
          exact hx
        exact ih cs (some k) hi x h.2 hl hx2

theorem wfKids_child_wf : ∀ (ks : List String) (kids : List BNode)
    (lo hi : Option String) (i : Nat) (c : BNode),
    BNode.wfKids lo hi ks kids = true → kids.get? i = some c →
    ∃ lo2 hi2, BNode.wfB lo2 hi2 c = true := by
  intro ks
  induction ks with
  | nil =>
    intro kids lo hi i c h hc
    cases kids with
    | nil => simp at hc
    | cons c0 cs =>
      cases cs with
      | nil =>
        cases i with
        | zero =>
          simp only [List.get?_cons_zero, Option.some.injEq] at hc
          subst hc
          exact ⟨lo, hi, h⟩
        | succ j => simp at hc
      | cons c2 cs2 => simp [BNode.wfKids] at h
  | cons k ks2 ih =>
    intro kids lo hi i c h hc
    cases kids with
    | nil => simp [BNode.wfKids] at h
    | cons c0 cs =>
      rw [show BNode.wfKids lo hi (k :: ks2) (c0 :: cs)
            = (BNode.wfB lo (some k) c0 && BNode.wfKids (some k) hi ks2 cs) by
            simp [BNode.wfKids], Bool.and_eq_true] at h
      cases i with
      | zero =>
        simp only [List.get?_cons_zero, Option.some.injEq] at hc
        subst hc
        exact ⟨lo, some k, h.1⟩
      | succ j =>
        simp only [List.get?_cons_succ] at hc
        exact ih cs (some k) hi j c h.2 hc

theorem nkeys_sub_iterKids {ks : List String} {kids : List BNode}
    {lo hi : Option String} {x : String} (h : BNode.wfKids lo hi ks kids = true)
    (hx : x ∈ ks) : x ∈ BNode.iterKids kids ks := by
  rw [mem_iterKids]
  right
  rcases wfKids_lengths ks kids lo hi h with h2 | h2 <;>
    · rw [h2]
      simpa [min_def] using hx

theorem iter_sub_iterKids {ks : List String} {kids : List BNode} {c : BNode}
    {x : String} (hc : c ∈ kids) (hx : x ∈ BNode.iter c) :
    x ∈ BNode.iterKids kids ks := by
  rw [mem_iterKids]
  exact Or.inl ⟨c, hc, hx⟩

theorem wfB_leaf_eq (lo hi : Option String) (ks : List String) (vs : List Nat) :
    BNode.wfB lo hi (.leaf ks vs)
      = (chainLe ks && ks.all (fun x => obLeL lo x && obLe x hi)
          && (vs.length == ks.length)) := by
  simp only [BNode.wfB]

theorem wfB_internal_eq (lo hi : Option String) (ks : List String) (kids : List BNode) :
    BNode.wfB lo hi (.internal ks kids)
      = (chainLe ks && ks.all (fun x => obLeL lo x && obLe x hi)
          && BNode.wfKids lo hi ks kids) := by
  simp only [BNode.wfB]

theorem wfKids_cons_eq (lo hi : Option String) (k : String) (ks : List String)
    (c : BNode) (cs : List BNode) :
    BNode.wfKids lo hi (k :: ks) (c :: cs)
      = (BNode.wfB lo (some k) c && BNode.wfKids (some k) hi ks cs) := by
  simp only [BNode.wfKids]

theorem wfKids_nil_one_eq (lo hi : Option String) (c : BNode) :
    BNode.wfKids lo hi [] [c] = BNode.wfB lo hi c := by
  simp only [BNode.wfKids]

theorem getD_eq_of_get? {α : Type} {l : List α} {n : Nat} {x d : α}
    (h : l.get? n = some x) : l.getD n d = x := by
  induction l generalizing n with
  | nil => simp at h
  | cons a r ih =>
    cases n with
    | zero =>
      simp only [List.get?_cons_zero, Option.some.injEq] at h
      simp [List.getD, h]
    | succ m =>
      simp only [List.get?_cons_succ] at h
      simpa [List.getD] using ih h

theorem wfKids_take : ∀ (m : Nat) (ks : List String) (kids : List BNode)
    (lo hi : Option String) (p : String),
    BNode.wfKids lo hi ks kids = true → ks.get? m = some p →
    BNode.wfKids lo (some p) (ks.take (m + 1)) (kids.take (m + 1)) = true := by
  intro m
  induction m with
  | zero =>
    intro ks kids lo hi p h hp
    cases ks with
    | nil => simp at hp
    | cons k ks2 =>
      simp only [List.get?_cons_zero, Option.some.injEq] at hp
      subst hp
      cases kids with
      | nil => simp [BNode.wfKids] at h
      | cons c cs =>
        rw [wfKids_cons_eq, Bool.and_eq_true] at h
        rw [List.take_succ_cons, List.take_zero, List.take_succ_cons, List.take_zero,
          wfKids_cons_eq, Bool.and_eq_true]
        exact ⟨h.1, by simp [BNode.wfKids]⟩
  | succ m2 ih =>
    intro ks kids lo hi p h hp
    cases ks with
    | nil => simp at hp
    | cons k ks2 =>
      simp only [List.get?_cons_succ] at hp
      cases kids with
      | nil => simp [BNode.wfKids] at h
      | cons c cs =>
        rw [wfKids_cons_eq, Bool.and_eq_true] at h
        rw [List.take_succ_cons, List.take_succ_cons, wfKids_cons_eq, Bool.and_eq_true]
        exact ⟨h.1, ih ks2 cs (some k) hi p h.2 hp⟩

theorem wfKids_drop : ∀ (m : Nat) (ks : List String) (kids : List BNode)
    (lo hi : Option String) (p : String),
    BNode.wfKids lo hi ks kids = true → ks.get? m = some p →
    BNode.wfKids (some p) hi (ks.drop (m + 1)) (kids.drop (m + 1)) = true := by
  intro m
  induction m with
  | zero =>
    intro ks kids lo hi p h hp
    cases ks with
    | nil => simp at hp
    | cons k ks2 =>
      simp only [List.get?_cons_zero, Option.some.injEq] at hp
      subst hp
      cases kids with
      | nil => simp [BNode.wfKids] at h
      | cons c cs =>
        rw [wfKids_cons_eq, Bool.and_eq_true] at h
        simpa using h.2
  | succ m2 ih =>
    intro ks kids lo hi p h hp
    cases ks with
    | nil => simp at hp
    | cons k ks2 =>
      simp only [List.get?_cons_succ] at hp
      cases kids with
      | nil => simp [BNode.wfKids] at h
      | cons c cs =>
        rw [wfKids_cons_eq, Bool.and_eq_true] at h
        rw [List.drop_succ_cons, List.drop_succ_cons]
        exact ih ks2 cs (some k) hi p h.2 hp

theorem wfB_parts_leaf {lo hi : Option String} {ks : List String} {vs : List Nat}
    (h : BNode.wfB lo hi (.leaf ks vs) = true) :
    chainLe ks = true ∧ (∀ x ∈ ks, obLeL lo x = true ∧ obLe x hi = true) ∧
      vs.length = ks.length := by
  rw [wfB_leaf_eq, Bool.and_eq_true, Bool.and_eq_true] at h
  refine ⟨h.1.1, ?_, by simpa using h.2⟩
  intro x hx
  have h2 := List.all_eq_true.mp h.1.2 x hx
  rw [Bool.and_eq_true] at h2
  exact h2

theorem wfB_leaf_of {lo hi : Option String} {ks : List String} {vs : List Nat}
    (h1 : chainLe ks = true) (h2 : ∀ x ∈ ks, obLeL lo x = true ∧ obLe x hi = true)
    (h3 : vs.length = ks.length) : BNode.wfB lo hi (.leaf ks vs) = true := by
  rw [wfB_leaf_eq, Bool.and_eq_true, Bool.and_eq_true]
  refine ⟨⟨h1, ?_⟩, by simpa using h3⟩
  rw [List.all_eq_true]
  intro x hx
  rw [Bool.and_eq_true]
  exact h2 x hx

theorem wfB_parts_internal {lo hi : Option String} {ks : List String}
    {kids : List BNode} (h : BNode.wfB lo hi (.internal ks kids) = true) :
    chainLe ks = true ∧ (∀ x ∈ ks, obLeL lo x = true ∧ obLe x hi = true) ∧
      BNode.wfKids lo hi ks kids = true := by
  rw [wfB_internal_eq, Bool.and_eq_true, Bool.and_eq_true] at h
  refine ⟨h.1.1, ?_, h.2⟩
  intro x hx
  have h2 := List.all_eq_true.mp h.1.2 x hx
  rw [Bool.and_eq_true] at h2
  exact h2

theorem wfB_internal_of {lo hi : Option String} {ks : List String}
    {kids : List BNode} (h1 : chainLe ks = true)
    (h2 : ∀ x ∈ ks, obLeL lo x = true ∧ obLe x hi = true)
    (h3 : BNode.wfKids lo hi ks kids = true) :
    BNode.wfB lo hi (.internal ks kids) = true := by
  rw [wfB_internal_eq, Bool.and_eq_true, Bool.and_eq_true]
  refine ⟨⟨h1, ?_⟩, h3⟩
  rw [List.all_eq_true]
  intro x hx
  rw [Bool.and_eq_true]
  exact h2 x hx

theorem splitLeaf_ok {order : Nat} {lo hi : Option String} {ks : List String}
    {vs : List Nat} {p : String} (h : BNode.wfB lo hi (.leaf ks vs) = true)
    (hp : ks.get? (order / 2) = some p) :
    BNode.wfB lo (some p)
        (.leaf (ks.take (order / 2 + 1)) (vs.take (order / 2 + 1))) = true ∧
    BNode.wfB (some p) hi
        (.leaf (ks.drop (order / 2 + 1)) (vs.drop (order / 2 + 1))) = true ∧
    obLeL lo p = true ∧ obLe p hi = true ∧
    (∀ x, x ∈ ks.take (order / 2 + 1) ++ p :: ks.drop (order / 2 + 1) ↔ x ∈ ks) := by
  obtain ⟨hch, hbd, hlen⟩ := wfB_parts_leaf h
  have hpm : p ∈ ks := List.get?_mem hp
  refine ⟨?_, ?_, (hbd p hpm).1, (hbd p hpm).2, ?_⟩
  · refine wfB_leaf_of (chainLe_take hch _) ?_ ?_
    · intro x hx
      refine ⟨(hbd x (List.take_subset _ _ hx)).1, ?_⟩
      show strLe x p = true
      exact chainLe_take_le hch hp x hx
    · simp only [List.length_take, hlen]
  · refine wfB_leaf_of (chainLe_drop hch _) ?_ ?_
    · intro x hx
      refine ⟨?_, (hbd x (List.drop_subset _ _ hx)).2⟩
      show strLe p x = true
      exact chainLe_drop_le hch hp x hx
    · simp only [List.length_drop, hlen]
  · intro x
    constructor
    · intro hx
      rcases List.mem_append.mp hx with hx | hx
      · exact List.take_subset _ _ hx
      · rcases List.mem_cons.mp hx with rfl | hx
        · exact hpm
        · exact List.drop_subset _ _ hx
    · intro hx
      rw [← List.take_append_drop (order / 2 + 1) ks] at hx
      rcases List.mem_append.mp hx with hx | hx
      · exact List.mem_append.mpr (Or.inl hx)
      · exact List.mem_append.mpr (Or.inr (List.mem_cons_of_mem p hx))

theorem splitInternal_ok {order : Nat} {lo hi : Option String} {ks : List String}
    {kids : List BNode} {p : String}
    (h : BNode.wfB lo hi (.internal ks kids) = true)
    (hp : ks.get? (order / 2) = some p) :
    BNode.wfB lo (some p)
        (.internal (ks.take (order / 2 + 1)) (kids.take (order / 2 + 1))) = true ∧
    BNode.wfB (some p) hi
        (.internal (ks.drop (order / 2 + 1)) (kids.drop (order / 2 + 1))) = true ∧
    obLeL lo p = true ∧ obLe p hi = true ∧
    (∀ x, x ∈ BNode.iterKids (kids.take (order / 2 + 1)) (ks.take (order / 2 + 1))
            ++ p :: BNode.iterKids (kids.drop (order / 2 + 1)) (ks.drop (order / 2 + 1))
          ↔ x ∈ BNode.iterKids kids ks) := by
  obtain ⟨hch, hbd, hkids⟩ := wfB_parts_internal h
  have hpm : p ∈ ks := List.get?_mem hp
  have hm : order / 2 < ks.length := by
    by_contra hc
    push_neg at hc
    rw [List.get?_len_le hc] at hp
    exact Option.noConfusion hp
  refine ⟨?_, ?_, (hbd p hpm).1, (hbd p hpm).2, ?_⟩
  · refine wfB_internal_of (chainLe_take hch _) ?_ (wfKids_take _ _ _ _ _ _ hkids hp)
    intro x hx
    refine ⟨(hbd x (List.take_subset _ _ hx)).1, ?_⟩
    show strLe x p = true
    exact chainLe_take_le hch hp x hx
  · refine wfB_internal_of (chainLe_drop hch _) ?_ (wfKids_drop _ _ _ _ _ _ hkids hp)
    intro x hx
    refine ⟨?_, (hbd x (List.drop_subset _ _ hx)).2⟩
    show strLe p x = true
    exact chainLe_drop_le hch hp x hx
  · intro x
    rcases wfKids_lengths ks kids lo hi hkids with hK | hK
    all_goals
      rw [List.mem_append, List.mem_cons, mem_iterKids, mem_iterKids, mem_iterKids]
      have t1 : (ks.take (order / 2 + 1)).take
          (min (kids.take (order / 2 + 1)).length (ks.take (order / 2 + 1)).length)
          = ks.take (order / 2 + 1) := by
        apply List.take_of_length_le
        simp only [List.length_take]
        omega
      have t2 : (ks.drop (order / 2 + 1)).take
          (min (kids.drop (order / 2 + 1)).length (ks.drop (order / 2 + 1)).length)
          = ks.drop (order / 2 + 1) := by
        apply List.take_of_length_le
        simp only [List.length_take, List.length_drop]
        omega
      have t3 : ks.take (min kids.length ks.length) = ks := by
        apply List.take_of_length_le
        omega
      rw [t1, t2, t3]
      have hkc : ∀ c : BNode,
          c ∈ kids ↔ c ∈ kids.take (order / 2 + 1) ∨ c ∈ kids.drop (order / 2 + 1) := by
        intro c
        rw [← List.mem_append, List.take_append_drop]
      have hxk : x ∈ ks ↔ x ∈ ks.take (order / 2 + 1) ∨ x ∈ ks.drop (order / 2 + 1) := by
        rw [← List.mem_append, List.take_append_drop]
      constructor
      · rintro ((⟨c, hc, hxc⟩ | hx) | rfl | (⟨c, hc, hxc⟩ | hx))
        · exact Or.inl ⟨c, (hkc c).mpr (Or.inl hc), hxc⟩
        · exact Or.inr (hxk.mpr (Or.inl hx))
        · exact Or.inr hpm
        · exact Or.inl ⟨c, (hkc c).mpr (Or.inr hc), hxc⟩
        · exact Or.inr (hxk.mpr (Or.inr hx))
      · rintro (⟨c, hc, hxc⟩ | hx)
        · rcases (hkc c).mp hc with hc | hc
          · exact Or.inl (Or.inl ⟨c, hc, hxc⟩)
          · exact Or.inr (Or.inr (Or.inl ⟨c, hc, hxc⟩))
        · rcases hxk.mp hx with hx | hx
          · exact Or.inl (Or.inr hx)
          · exact Or.inr (Or.inr (Or.inr hx))

/-- The left half `_split_child` keeps (keys `0..mid` inclusive, and the
matching values or children). -/
def splitL : BNode → Nat → BNode
  | .leaf ks vs, m => .leaf (ks.take (m + 1)) (vs.take (m + 1))
  | .internal ks kids, m => .internal (ks.take (m + 1)) (kids.take (m + 1))

/-- The new right sibling `_split_child` creates (keys `mid+1..`, and the
matching values or children). -/
def splitR : BNode → Nat → BNode
  | .leaf ks vs, m => .leaf (ks.drop (m + 1)) (vs.drop (m + 1))
  | .internal ks kids, m => .internal (ks.drop (m + 1)) (kids.drop (m + 1))

theorem splitChild_zero {order : Nat} {ks : List String} {y : BNode}
    {rest : List BNode} :
    splitChild order ks (y :: rest) 0
      = ((y.nkeys.getD (order / 2) "") :: ks,
         splitL y (order / 2) :: splitR y (order / 2) :: rest) := by
  cases y <;> simp [splitChild, splitL, splitR, pyInsert]

theorem splitChild_cons {order : Nat} {ks2 : List String} {cs : List BNode}
    {k : String} {c : BNode} {j : Nat} {y : BNode} (hy : cs.get? j = some y) :
    splitChild order (k :: ks2) (c :: cs) (j + 1)
      = ((k :: (splitChild order ks2 cs j).1), c :: (splitChild order ks2 cs j).2) := by
  unfold splitChild
  simp only [List.get?_cons_succ, hy]
  cases y <;> simp [pyInsert, List.set_cons_succ]

theorem obLe_trans_strLe {a b : String} {hi : Option String}
    (h1 : strLe a b = true) (h2 : obLe b hi = true) : obLe a hi = true := by
  cases hi with
  | none => rfl
  | some u => exact strLe_trans h1 h2

theorem obLeL_trans_strLe {a b : String} {lo : Option String}
    (h1 : obLeL lo a = true) (h2 : strLe a b = true) : obLeL lo b = true := by
  cases lo with
  | none => rfl
  | some l => exact strLe_trans h1 h2

theorem splitNode_ok {order : Nat} {lo hi : Option String} {y : BNode} {p : String}
    (h : BNode.wfB lo hi y = true) (hp : y.nkeys.get? (order / 2) = some p) :
    BNode.wfB lo (some p) (splitL y (order / 2)) = true ∧
    BNode.wfB (some p) hi (splitR y (order / 2)) = true ∧
    obLeL lo p = true ∧ obLe p hi = true ∧
    (∀ x, x ∈ (splitL y (order / 2)).iter ++ p :: (splitR y (order / 2)).iter
        ↔ x ∈ y.iter) := by
  cases y with
  | leaf ks vs =>
    have h2 := @splitLeaf_ok order _ _ _ _ _ h hp
    exact ⟨h2.1, h2.2.1, h2.2.2.1, h2.2.2.2.1, by
      intro x
      simpa [splitL, splitR, BNode.iter] using h2.2.2.2.2 x⟩
  | internal ks kids =>
    have h2 := @splitInternal_ok order _ _ _ _ _ h hp
    exact ⟨h2.1, h2.2.1, h2.2.2.1, h2.2.2.2.1, by
      intro x
      simpa [splitL, splitR, BNode.iter] using h2.2.2.2.2 x⟩

theorem splitChild_ok {order : Nat} : ∀ (i : Nat) (ks : List String)
    (kids : List BNode) (lo hi : Option String) (y : BNode) (py : String),
    BNode.wfB lo hi (.internal ks kids) = true →
    kids.get? i = some y →
    y.nkeys.get? (order / 2) = some py →
    BNode.wfB lo hi (.internal (splitChild order ks kids i).1
        (splitChild order ks kids i).2) = true ∧
    (∀ x, x ∈ BNode.iterKids (splitChild order ks kids i).2 (splitChild order ks kids i).1
        ↔ x ∈ BNode.iterKids kids ks) ∧
    (splitChild order ks kids i).1.get? i = some py ∧
    (splitChild order ks kids i).2.length = kids.length + 1 ∧
    (splitChild order ks kids i).1 = pyInsert ks i py ∧
    (splitChild order ks kids i).2
      = pyInsert (kids.set i (splitL y (order / 2))) (i + 1) (splitR y (order / 2)) := by
  intro i
  induction i with
  | zero =>
    intro ks kids lo hi y py h hy hpy
    cases kids with
    | nil => simp at hy
    | cons c rest =>
      simp only [List.get?_cons_zero, Option.some.injEq] at hy
      subst hy
      obtain ⟨hch, hbd, hkids⟩ := wfB_parts_internal h
      rw [splitChild_zero]
      have hpd : c.nkeys.getD (order / 2) "" = py := getD_eq_of_get? hpy
      rw [hpd]
      cases ks with
      | nil =>
        cases rest with
        | cons r2 rs => simp [BNode.wfKids] at hkids
        | nil =>
          rw [wfKids_nil_one_eq] at hkids
          obtain ⟨hL, hR, hpl, hpu, hset⟩ := splitNode_ok hkids hpy
          refine ⟨?_, ?_, rfl, rfl, rfl, by simp [pyInsert]⟩
          · apply wfB_internal_of
            · simp [chainLe]
            · intro x hx
              rcases List.mem_singleton.mp hx with rfl
              exact ⟨hpl, hpu⟩
            · rw [wfKids_cons_eq, Bool.and_eq_true]
              exact ⟨hL, by rw [wfKids_nil_one_eq]; exact hR⟩
          · intro x
            simp only [BNode.iterKids, List.append_nil]
            exact hset x
      | cons k ks2 =>
        rw [wfKids_cons_eq, Bool.and_eq_true] at hkids
        obtain ⟨hL, hR, hpl, hpu, hset⟩ := splitNode_ok hkids.1 hpy
        have hpk : strLe py k = true := hpu
        refine ⟨?_, ?_, rfl, rfl, rfl, by simp [pyInsert]⟩
        · apply wfB_internal_of
          · rw [chainLe_cons_iff]
            refine ⟨?_, hch⟩
            intro x hx
            rcases List.mem_cons.mp hx with rfl | hx
            · exact hpk
            · exact strLe_trans hpk (chainLe_head_le hch x hx)
          · intro x hx
            rcases List.mem_cons.mp hx with rfl | hx
            · exact ⟨hpl, obLe_trans_strLe hpk (hbd _ (List.mem_cons_self _ _)).2⟩
            · exact hbd x hx
          · rw [wfKids_cons_eq, Bool.and_eq_true]
            refine ⟨hL, ?_⟩
            rw [wfKids_cons_eq, Bool.and_eq_true]
            exact ⟨hR, hkids.2⟩
        · intro x
          simp only [BNode.iterKids]
          rw [List.mem_append, List.mem_cons, List.mem_append, List.mem_cons,
            List.mem_append, List.mem_cons]
          have hs := hset x
          rw [List.mem_append, List.mem_cons] at hs
          tauto
  | succ j ih =>
    intro ks kids lo hi y py h hy hpy
    cases kids with
    | nil => simp at hy
    | cons c cs =>
      simp only [List.get?_cons_succ] at hy
      obtain ⟨hch, hbd, hkids⟩ := wfB_parts_internal h
      cases ks with
      | nil =>
        cases cs with
        | nil => simp at hy
        | cons c2 cs2 => simp [BNode.wfKids] at hkids
      | cons k ks2 =>
        rw [wfKids_cons_eq, Bool.and_eq_true] at hkids
        rw [splitChild_cons hy]
        have hwf2 : BNode.wfB (some k) hi (.internal ks2 cs) = true := by
          apply wfB_internal_of (chainLe_tail hch) ?_ hkids.2
          intro x hx
          exact ⟨chainLe_head_le hch x hx, (hbd x (List.mem_cons_of_mem k hx)).2⟩
        obtain ⟨ihw, ihset, ihget, ihlen, ihpk, ihkd⟩ := ih ks2 cs (some k) hi y py hwf2 hy hpy
        obtain ⟨ich, ibd, ikids⟩ := wfB_parts_internal ihw
        refine ⟨?_, ?_, by simpa using ihget, by simpa using ihlen, by
          show _ :: _ = pyInsert (k :: ks2) (j + 1) py
          rw [show pyInsert (k :: ks2) (j + 1) py = k :: pyInsert ks2 j py from rfl, ihpk], by
          show _ :: _ = pyInsert ((c :: cs).set (j + 1) (splitL y (order / 2))) (j + 2)
            (splitR y (order / 2))
          rw [List.set_cons_succ,
            show pyInsert (c :: cs.set j (splitL y (order / 2))) (j + 2) (splitR y (order / 2))
              = c :: pyInsert (cs.set j (splitL y (order / 2))) (j + 1) (splitR y (order / 2))
              from rfl, ihkd]⟩
        · apply wfB_internal_of
          · rw [chainLe_cons_iff]
            exact ⟨fun x hx => (ibd x hx).1, ich⟩
          · intro x hx
            rcases List.mem_cons.mp hx with rfl | hx
            · exact hbd _ (List.mem_cons_self _ _)
            · exact ⟨obLeL_trans_strLe (hbd _ (List.mem_cons_self _ _)).1 (ibd x hx).1,
                (ibd x hx).2⟩
          · rw [wfKids_cons_eq, Bool.and_eq_true]
            exact ⟨hkids.1, ikids⟩
        · intro x
          simp only [BNode.iterKids]
          rw [List.mem_append, List.mem_cons, List.mem_append, List.mem_cons]
          have hs := ihset x
          tauto

theorem getLast?_eq_get?L {α : Type} : ∀ l : List α, l.getLast? = l.get? (l.length - 1) := by
  intro l
  induction l with
  | nil => rfl
  | cons a r ih =>
    cases r with
    | nil => rfl
    | cons b r2 =>
      rw [List.getLast?_cons_cons, ih]
      simp

theorem set_get?_self {α : Type} : ∀ (l : List α) (n : Nat) (a : α),
    n < l.length → (l.set n a).get? n = some a := by
  intro l
  induction l with
  | nil => intro n a h; simp at h
  | cons x xs ih =>
    intro n a h
    cases n with
    | zero => rfl
    | succ m =>
      rw [List.set_cons_succ, List.get?_cons_succ]
      exact ih m a (by simpa using h)

theorem set_get?_ne {α : Type} : ∀ (l : List α) (n m : Nat) (a : α),
    n ≠ m → (l.set n a).get? m = l.get? m := by
  intro l
  induction l with
  | nil => intro n m a h; simp
  | cons x xs ih =>
    intro n m a h
    cases n with
    | zero =>
      cases m with
      | zero => omega
      | succ m2 => rfl
    | succ n2 =>
      cases m with
      | zero => rfl
      | succ m2 =>
        rw [List.set_cons_succ, List.get?_cons_succ, List.get?_cons_succ]
        exact ih n2 m2 a (by omega)

theorem tsizeL_take_le : ∀ (kids : List BNode) (n : Nat),
    BNode.tsizeL (kids.take n) ≤ BNode.tsizeL kids := by
  intro kids
  induction kids with
  | nil => intro n; simp [BNode.tsizeL]
  | cons c cs ih =>
    intro n
    cases n with
    | zero => simp [BNode.tsizeL]
    | succ m =>
      rw [List.take_succ_cons]
      show BNode.tsize c + BNode.tsizeL (cs.take m) ≤ BNode.tsize c + BNode.tsizeL cs
      have := ih m
      omega

theorem tsizeL_drop_le : ∀ (kids : List BNode) (n : Nat),
    BNode.tsizeL (kids.drop n) ≤ BNode.tsizeL kids := by
  intro kids
  induction kids with
  | nil => intro n; simp [BNode.tsizeL]
  | cons c cs ih =>
    intro n
    cases n with
    | zero => exact Nat.le_refl _
    | succ m =>
      rw [List.drop_succ_cons]
      have h1 := ih m
      have h2 := BNode.tsize_pos c
      show BNode.tsizeL (cs.drop m) ≤ BNode.tsize c + BNode.tsizeL cs
      omega

theorem tsize_splitL_le (c : BNode) (m : Nat) :
    BNode.tsize (splitL c m) ≤ BNode.tsize c := by
  cases c with
  | leaf ks vs => exact Nat.le_refl _
  | internal ks kids =>
    show BNode.tsizeL (kids.take (m + 1)) + 1 ≤ BNode.tsizeL kids + 1
    have := tsizeL_take_le kids (m + 1)
    omega

theorem tsize_splitR_le (c : BNode) (m : Nat) :
    BNode.tsize (splitR c m) ≤ BNode.tsize c := by
  cases c with
  | leaf ks vs => exact Nat.le_refl _
  | internal ks kids =>
    show BNode.tsizeL (kids.drop (m + 1)) + 1 ≤ BNode.tsizeL kids + 1
    have := tsizeL_drop_le kids (m + 1)
    omega

theorem insert_inRange {k : String} : ∀ (ks : List String) (kids : List BNode)
    (lo hi : Option String),
    BNode.wfKids lo hi ks kids = true →
    obLeL lo k = true → obLtU k hi = true →
    (lo = none → hi = none → ks = [] → False) →
    descentIdx ks k < kids.length := by
  intro ks kids lo hi hkids hlo hhi hne
  rcases wfKids_lengths ks kids lo hi hkids with hK | hK
  · cases ks with
    | nil =>
      cases kids with
      | cons c cs => simp at hK
      | nil =>
        exfalso
        have hlh := wfKids_nil_nil hkids
        cases lo with
        | none => exact hne rfl hlh.symm rfl
        | some u =>
          rw [← hlh] at hhi
          have h2 : strLe u k = false := strLe_false_iff.mpr hhi
          have hlo2 : strLe u k = true := hlo
          rw [hlo2] at h2
          exact Bool.noConfusion h2
    | cons k0 ks2 =>
      have hle := descentIdx_le_length (k0 :: ks2) k
      by_contra hcon
      push_neg at hcon
      have heq : descentIdx (k0 :: ks2) k = ks2.length + 1 := by
        rw [hK] at hcon
        simp only [List.length_cons] at hle hcon ⊢
        omega
      obtain ⟨x, hx1, hx2⟩ := descentIdx_pred_le (k0 :: ks2) k ks2.length heq
      have hgl : (k0 :: ks2).getLast? = some x := by
        rw [getLast?_eq_get?L]
        simpa using hx1
      have hhi2 := wfKids_last (k0 :: ks2) kids lo hi x hkids hK hgl
      rw [hhi2] at hhi
      have h2 : strLe x k = false := strLe_false_iff.mpr hhi
      rw [hx2] at h2
      exact Bool.noConfusion h2
  · have := descentIdx_le_length ks k
    omega

set_option maxHeartbeats 1600000 in
theorem insKid_ok {order : Nat} {k : String} {v : Nat} {fuel : Nat}
    (ihf : ∀ (c : BNode) (lo2 hi2 : Option String), BNode.tsize c ≤ fuel →
      BNode.wfB lo2 hi2 c = true → obLeL lo2 k = true → obLtU k hi2 = true →
      ¬ (k ∈ BNode.iter c) → (lo2 = none → hi2 = none → c.nkeys = [] → False) →
      BNode.wfB lo2 hi2 (BNode.insertNF order k v fuel c) = true ∧
      (∀ x, x ∈ (BNode.insertNF order k v fuel c).iter ↔ (x = k ∨ x ∈ BNode.iter c))) :
    ∀ (i : Nat) (ks : List String) (kids : List BNode) (lo hi : Option String) (c : BNode),
    BNode.wfKids lo hi ks kids = true →
    kids.get? i = some c →
    BNode.tsize c ≤ fuel →
    (∀ m x, i ≤ m → ks.get? m = some x → strLt k x = true) →
    (i = 0 → obLeL lo k = true) →
    (∀ j x, i = j + 1 → ks.get? j = some x → strLe x k = true) →
    obLtU k hi = true →
    ¬ (k ∈ BNode.iterKids kids ks) →
    (lo = none → hi = none → ks = [] → False) →
    BNode.wfKids lo hi ks (kids.set i (BNode.insertNF order k v fuel c)) = true ∧
    (∀ x, x ∈ BNode.iterKids (kids.set i (BNode.insertNF order k v fuel c)) ks
        ↔ (x = k ∨ x ∈ BNode.iterKids kids ks)) := by
  intro i
  induction i with
  | zero =>
    intro ks kids lo hi c hkids hc hsz hr1 hr2 hr3 hhi hk hne
    cases kids with
    | nil => simp at hc
    | cons c0 cs =>
      simp only [List.get?_cons_zero, Option.some.injEq] at hc
      subst hc
      cases ks with
      | nil =>
        cases cs with
        | cons c2 cs2 => simp [BNode.wfKids] at hkids
        | nil =>
          rw [wfKids_nil_one_eq] at hkids
          have hknotin : ¬ (k ∈ BNode.iter c0) := by
            intro hmem
            exact hk (iter_sub_iterKids (List.mem_cons_self _ _) hmem)
          have hne2 : lo = none → hi = none → c0.nkeys = [] → False := by
            intro h1 h2 _
            exact hne h1 h2 rfl
          obtain ⟨hw, hset⟩ := ihf c0 lo hi hsz hkids (hr2 rfl) hhi hknotin hne2
          rw [List.set_cons_zero]
          refine ⟨by rw [wfKids_nil_one_eq]; exact hw, ?_⟩
          intro x
          simp only [BNode.iterKids, List.append_nil]
          exact hset x
      | cons k0 ks2 =>
        rw [wfKids_cons_eq, Bool.and_eq_true] at hkids
        have hknotin : ¬ (k ∈ BNode.iter c0) := by
          intro hmem
          exact hk (iter_sub_iterKids (List.mem_cons_self _ _) hmem)
        have hk0 : strLt k k0 = true := hr1 0 k0 (Nat.le_refl 0) rfl
        obtain ⟨hw, hset⟩ := ihf c0 lo (some k0) hsz hkids.1 (hr2 rfl) hk0 hknotin
          (by intro _ h2 _; exact Option.noConfusion h2)
        rw [List.set_cons_zero]
        refine ⟨?_, ?_⟩
        · rw [wfKids_cons_eq, Bool.and_eq_true]
          exact ⟨hw, hkids.2⟩
        · intro x
          simp only [BNode.iterKids]
          rw [List.mem_append, List.mem_cons, List.mem_append, List.mem_cons]
          have hs := hset x
          tauto
  | succ j ih =>
    intro ks kids lo hi c hkids hc hsz hr1 hr2 hr3 hhi hk hne
    cases kids with
    | nil => simp at hc
    | cons c0 cs =>
      simp only [List.get?_cons_succ] at hc
      cases ks with
      | nil =>
        cases cs with
        | nil => simp at hc
        | cons c2 cs2 => simp [BNode.wfKids] at hkids
      | cons k0 ks2 =>
        rw [wfKids_cons_eq, Bool.and_eq_true] at hkids
        have hknotin2 : ¬ (k ∈ BNode.iterKids cs ks2) := by
          intro hmem
          apply hk
          show k ∈ BNode.iter c0 ++ k0 :: BNode.iterKids cs ks2
          exact List.mem_append.mpr (Or.inr (List.mem_cons_of_mem k0 hmem))
        have hr1b : ∀ m x, j ≤ m → ks2.get? m = some x → strLt k x = true := by
          intro m x hm hx
          exact hr1 (m + 1) x (by omega) (by simpa using hx)
        have hr2b : j = 0 → obLeL (some k0) k = true := by
          intro hj
          exact hr3 0 k0 (by omega) rfl
        have hr3b : ∀ j2 x, j = j2 + 1 → ks2.get? j2 = some x → strLe x k = true := by
          intro j2 x hj hx
          exact hr3 (j2 + 1) x (by omega) (by simpa using hx)
        obtain ⟨hw, hset⟩ := ih ks2 cs (some k0) hi c hkids.2 hc hsz hr1b hr2b hr3b hhi
          hknotin2 (fun h1 => Option.noConfusion h1)
        rw [List.set_cons_succ]
        refine ⟨?_, ?_⟩
        · rw [wfKids_cons_eq, Bool.and_eq_true]
          exact ⟨hkids.1, hw⟩
        · intro x
          simp only [BNode.iterKids]
          rw [List.mem_append, List.mem_cons, List.mem_append, List.mem_cons, hset x]
          tauto

theorem iter_leaf_eq (ks : List String) (vs : List Nat) :
    BNode.iter (.leaf ks vs) = ks := by
  simp only [BNode.iter]

theorem iter_internal_eq (ks : List String) (kids : List BNode) :
    BNode.iter (.internal ks kids) = BNode.iterKids kids ks := by
  simp only [BNode.iter]

set_option maxHeartbeats 3000000 in
theorem insertNF_ok {order : Nat} {k : String} {v : Nat} (ho : 3 ≤ order) :
    ∀ (fuel : Nat) (n : BNode) (lo hi : Option String),
    BNode.tsize n ≤ fuel →
    BNode.wfB lo hi n = true →
    obLeL lo k = true → obLtU k hi = true →
    ¬ (k ∈ BNode.iter n) →
    (lo = none → hi = none → n.nkeys = [] → False) →
    BNode.wfB lo hi (BNode.insertNF order k v fuel n) = true ∧
    (∀ x, x ∈ (BNode.insertNF order k v fuel n).iter ↔ (x = k ∨ x ∈ BNode.iter n)) := by
  intro fuel
  induction fuel with
  | zero =>
    intro n lo hi hsz _ _ _ _ _
    exact absurd hsz (by have := BNode.tsize_pos n; omega)
  | succ f ih =>
    intro n lo hi hsz hwf hlo hhi hk hne
    cases n with
    | leaf ks vs =>
      obtain ⟨hch, hbd, hlen⟩ := wfB_parts_leaf hwf
      rw [iter_leaf_eq] at hk
      have heq : BNode.insertNF order k v (f + 1) (.leaf ks vs)
          = .leaf (pyInsert ks (bisectLeft ks k) k)
              (pyInsert vs ((pyInsert ks (bisectLeft ks k) k).indexOf k) v) := by
        simp only [BNode.insertNF]
      rw [heq]
      constructor
      · apply wfB_leaf_of (chainLe_pyInsert_bisect hch)
        · intro x hx
          rcases mem_pyInsert_iff.mp hx with rfl | hx
          · exact ⟨hlo, obLe_of_obLtU hhi⟩
          · exact hbd x hx
        · rw [pyInsert_length, pyInsert_length, hlen]
      · intro x
        rw [iter_leaf_eq, iter_leaf_eq]
        exact mem_pyInsert_iff
    | internal ks kids =>
      obtain ⟨hch, hbd, hkids⟩ := wfB_parts_internal hwf
      rw [iter_internal_eq] at hk
      have hne2 : lo = none → hi = none → ks = [] → False := hne
      have hin : descentIdx ks k < kids.length :=
        insert_inRange ks kids lo hi hkids hlo hhi hne2
      obtain ⟨c, hcg⟩ : ∃ c, kids.get? (descentIdx ks k) = some c :=
        ⟨kids.get ⟨descentIdx ks k, hin⟩, List.get?_eq_get hin⟩
      have hszk : BNode.tsizeL kids ≤ f := by
        have hts : BNode.tsize (.internal ks kids) = BNode.tsizeL kids + 1 := rfl
        rw [hts] at hsz
        omega
      have hsz_c : BNode.tsize c ≤ f :=
        le_trans (BNode.tsize_le_of_mem (List.get?_mem hcg)) hszk
      have hidxlen : descentIdx ks k ≤ ks.length := descentIdx_le_length ks k
      have hgd : kids.getD (descentIdx ks k) (.leaf [] []) = c := getD_eq_of_get? hcg
      simp only [BNode.insertNF]
      rw [hgd]
      by_cases hfull : c.nkeys.length = order - 1
      · rw [if_pos hfull]
        have hmid : order / 2 < c.nkeys.length := by
          rw [hfull]
          omega
        obtain ⟨py, hpy⟩ : ∃ py, c.nkeys.get? (order / 2) = some py :=
          ⟨c.nkeys.get ⟨order / 2, hmid⟩, List.get?_eq_get hmid⟩
        obtain ⟨hsw, hsset, hsget, hslen, hspk, hskd⟩ :=
          @splitChild_ok order (descentIdx ks k) ks kids lo hi c py hwf hcg hpy
        obtain ⟨sch, sbd, skids⟩ := wfB_parts_internal hsw
        have hsgd : (splitChild order ks kids (descentIdx ks k)).1.getD (descentIdx ks k) ""
            = py := getD_eq_of_get? hsget
        rw [hsgd]
        have hpy_in : py ∈ BNode.iterKids kids ks := by
          have hpyk : py ∈ c.nkeys := List.get?_mem hpy
          have hpyc : py ∈ BNode.iter c := by
            cases c with
            | leaf cks cvs =>
              rw [iter_leaf_eq]
              exact hpyk
            | internal cks ckids =>
              obtain ⟨lo2, hi2, hwc⟩ := wfKids_child_wf ks kids lo hi _ _ hkids hcg
              obtain ⟨_, _, hck⟩ := wfB_parts_internal hwc
              rw [iter_internal_eq]
              exact nkeys_sub_iterKids hck hpyk
          exact iter_sub_iterKids (List.get?_mem hcg) hpyc
        have hknepy : k ≠ py := by
          intro hkp
          apply hk
          rw [hkp]
          exact hpy_in
        have hk2 : ¬ (k ∈ BNode.iterKids (splitChild order ks kids (descentIdx ks k)).2
            (splitChild order ks kids (descentIdx ks k)).1) := by
          intro hm
          exact hk ((hsset k).mp hm)
        have hne3 : lo = none → hi = none →
            (splitChild order ks kids (descentIdx ks k)).1 = [] → False := by
          intro _ _ h3
          rw [hspk] at h3
          exact pyInsert_ne_nil _ _ _ h3
        have hgetL : (splitChild order ks kids (descentIdx ks k)).2.get? (descentIdx ks k)
            = some (splitL c (order / 2)) := by
          rw [hskd]
          rw [pyInsert_get?_lt _ _ _ _ (Nat.lt_succ_self _) (by rw [List.length_set]; omega)]
          exact set_get?_self kids _ _ hin
        have hgetR : (splitChild order ks kids (descentIdx ks k)).2.get?
              (descentIdx ks k + 1)
            = some (splitR c (order / 2)) := by
          rw [hskd]
          exact pyInsert_get?_self _ _ _ (by rw [List.length_set]; omega)
        by_cases hpk : strLt py k = true
        · rw [if_pos hpk, hgetR]
          have hszR : BNode.tsize (splitR c (order / 2)) ≤ f :=
            le_trans (tsize_splitR_le _ _) hsz_c
          have hr1b : ∀ m x, descentIdx ks k + 1 ≤ m →
              (splitChild order ks kids (descentIdx ks k)).1.get? m = some x →
              strLt k x = true := by
            intro m x hm hx
            cases m with
            | zero => omega
            | succ m2 =>
              rw [hspk, pyInsert_get?_gt _ _ _ _ (by omega) hidxlen] at hx
              exact descentIdx_gt_after ks k m2 x (by omega) hx
          have hr3b : ∀ j x, descentIdx ks k + 1 = j + 1 →
              (splitChild order ks kids (descentIdx ks k)).1.get? j = some x →
              strLe x k = true := by
            intro j x hj hx
            have hji : j = descentIdx ks k := by omega
            subst hji
            rw [hsget] at hx
            rw [← Option.some.inj hx]
            exact strLe_of_strLt hpk
          obtain ⟨hw2, hset2⟩ := insKid_ok ih (descentIdx ks k + 1)
            (splitChild order ks kids (descentIdx ks k)).1
            (splitChild order ks kids (descentIdx ks k)).2 lo hi
            (splitR c (order / 2)) skids hgetR hszR
            hr1b (fun h => absurd h (Nat.succ_ne_zero _)) hr3b hhi hk2 hne3
          constructor
          · exact wfB_internal_of sch sbd hw2
          · intro x
            rw [iter_internal_eq, iter_internal_eq, hset2 x, hsset x]
        · rw [if_neg hpk, hgetL]
          have hszL : BNode.tsize (splitL c (order / 2)) ≤ f :=
            le_trans (tsize_splitL_le _ _) hsz_c
          have hr1b : ∀ m x, descentIdx ks k ≤ m →
              (splitChild order ks kids (descentIdx ks k)).1.get? m = some x →
              strLt k x = true := by
            intro m x hm hx
            rcases Nat.eq_or_lt_of_le hm with heq2 | hlt
            · subst heq2
              rw [hsget] at hx
              rw [← Option.some.inj hx]
              rcases strLt_trichot k py with h | h | h
              · exact h
              · exact absurd h hknepy
              · exact absurd h (by simpa using hpk)
            · cases m with
              | zero => omega
              | succ m2 =>
                rw [hspk, pyInsert_get?_gt _ _ _ _ (by omega) hidxlen] at hx
                exact descentIdx_gt_after ks k m2 x (by omega) hx
          have hr3b : ∀ j x, descentIdx ks k = j + 1 →
              (splitChild order ks kids (descentIdx ks k)).1.get? j = some x →
              strLe x k = true := by
            intro j x hj hx
            rw [hspk, pyInsert_get?_lt _ _ _ _ (by omega) hidxlen] at hx
            obtain ⟨x2, hx1, hx2⟩ := descentIdx_pred_le ks k j hj
            rw [hx1] at hx
            rw [← Option.some.inj hx]
            exact hx2
          obtain ⟨hw2, hset2⟩ := insKid_ok ih (descentIdx ks k)
            (splitChild order ks kids (descentIdx ks k)).1
            (splitChild order ks kids (descentIdx ks k)).2 lo hi
            (splitL c (order / 2)) skids hgetL hszL
            hr1b (fun _ => hlo) hr3b hhi hk2 hne3
          constructor
          · exact wfB_internal_of sch sbd hw2
          · intro x
            rw [iter_internal_eq, iter_internal_eq, hset2 x, hsset x]
      · rw [if_neg hfull, hcg]
        have hr3b : ∀ j x, descentIdx ks k = j + 1 → ks.get? j = some x →
            strLe x k = true := by
          intro j x hj hx
          obtain ⟨x2, hx1, hx2⟩ := descentIdx_pred_le ks k j hj
          rw [hx1] at hx
          rw [← Option.some.inj hx]
          exact hx2
        obtain ⟨hw2, hset2⟩ := insKid_ok ih (descentIdx ks k) ks kids lo hi
          c hkids hcg hsz_c
          (fun m x hm hx => descentIdx_gt_after ks k m x hm hx)
          (fun _ => hlo) hr3b hhi hk hne2
        constructor
        · exact wfB_internal_of hch hbd hw2
        · intro x
          rw [iter_internal_eq, iter_internal_eq, hset2 x]

/-- Root-shape invariant of the trees `BTree` actually builds: an internal
root always carries at least one key (it is created by a split, which
promotes a pivot into it, and keys are never removed from internal
nodes). -/
def rootOk : BNode → Bool
  | .leaf _ _ => true
  | .internal ks _ => !ks.isEmpty

theorem rootOk_internal_iff {ks : List String} {kids : List BNode} :
    rootOk (.internal ks kids) = true ↔ ks ≠ [] := by
  cases ks <;> simp [rootOk, List.isEmpty]

theorem splitChild_fst_shape (order : Nat) (ks : List String) (kids : List BNode)
    (i : Nat) : (splitChild order ks kids i).1 = ks ∨
      ∃ j p, (splitChild order ks kids i).1 = pyInsert ks j p := by
  unfold splitChild
  cases hg : kids.get? i with
  | none => exact Or.inl rfl
  | some y => cases y <;> exact Or.inr ⟨i, _, rfl⟩

theorem insertNF_leaf_result {order : Nat} {k : String} {v : Nat} {fuel : Nat}
    {ks : List String} {vs : List Nat} :
    BNode.insertNF order k v fuel (.leaf ks vs)
      = .leaf (pyInsert ks (bisectLeft ks k) k)
          (pyInsert vs ((pyInsert ks (bisectLeft ks k) k).indexOf k) v) := by
  cases fuel <;> simp only [BNode.insertNF]

theorem rootOk_insertNF {order : Nat} {k : String} {v : Nat} : ∀ (fuel : Nat) (n : BNode),
    rootOk n = true → rootOk (BNode.insertNF order k v fuel n) = true := by
  intro fuel n h
  cases n with
  | leaf ks vs => rw [insertNF_leaf_result]; rfl
  | internal ks kids =>
    cases fuel with
    | zero => exact h
    | succ f =>
      simp only [BNode.insertNF]
      split
      · split
        · rcases splitChild_fst_shape order ks kids (descentIdx ks k) with h2 | ⟨j, p, h2⟩ <;>
            rw [rootOk_internal_iff, h2]
          · exact (rootOk_internal_iff).mp h
          · exact pyInsert_ne_nil _ _ _
        · rcases splitChild_fst_shape order ks kids (descentIdx ks k) with h2 | ⟨j, p, h2⟩ <;>
            rw [rootOk_internal_iff, h2]
          · exact (rootOk_internal_iff).mp h
          · exact pyInsert_ne_nil _ _ _
      · split
        · exact h
        · exact h

theorem leaf_insert_ok {order : Nat} {k : String} {v : Nat} {fuel : Nat}
    {ks : List String} {vs : List Nat} {lo hi : Option String}
    (hwf : BNode.wfB lo hi (.leaf ks vs) = true)
    (hlo : obLeL lo k = true) (hhi : obLe k hi = true) :
    BNode.wfB lo hi (BNode.insertNF order k v fuel (.leaf ks vs)) = true ∧
    (∀ x, x ∈ (BNode.insertNF order k v fuel (.leaf ks vs)).iter
        ↔ (x = k ∨ x ∈ BNode.iter (.leaf ks vs))) := by
  obtain ⟨hch, hbd, hlen⟩ := wfB_parts_leaf hwf
  rw [insertNF_leaf_result]
  constructor
  · apply wfB_leaf_of (chainLe_pyInsert_bisect hch)
    · intro x hx
      rcases mem_pyInsert_iff.mp hx with rfl | hx
      · exact ⟨hlo, hhi⟩
      · exact hbd x hx
    · rw [pyInsert_length, pyInsert_length, hlen]
  · intro x
    rw [iter_leaf_eq, iter_leaf_eq]
    exact mem_pyInsert_iff

set_option maxHeartbeats 2000000 in
theorem insert_ok {order : Nat} (ho : 3 ≤ order) : ∀ (t : BTree) (k : String) (v : Nat),
    t.order = order →
    BNode.wfB none none t.root = true →
    rootOk t.root = true →
    ¬ (k ∈ t.root.iter) →
    BNode.wfB none none (t.insert k v).root = true ∧
    rootOk (t.insert k v).root = true ∧
    (t.insert k v).order = order ∧
    (∀ x, x ∈ (t.insert k v).root.iter ↔ (x = k ∨ x ∈ t.root.iter)) := by
  intro t k v hord hwf hro hk
  obtain ⟨root, tord⟩ := t
  simp only at hord hwf hro hk
  subst hord
  unfold BTree.insert
  simp only
  by_cases hfull : root.nkeys.length = tord - 1
  · rw [if_pos hfull]
    simp only [BNode.insertNonFull]
    have hw0 : BNode.wfB none none (.internal [] [root]) = true := by
      apply wfB_internal_of
      · simp [chainLe]
      · intro x hx
        simp at hx
      · rw [wfKids_nil_one_eq]
        exact hwf
    have hmid : tord / 2 < root.nkeys.length := by
      rw [hfull]
      omega
    obtain ⟨py, hpy⟩ : ∃ py, root.nkeys.get? (tord / 2) = some py :=
      ⟨root.nkeys.get ⟨tord / 2, hmid⟩, List.get?_eq_get hmid⟩
    obtain ⟨hsw, hsset, hsget, hslen, hspk, hskd⟩ :=
      @splitChild_ok tord 0 [] [root] none none root py hw0 rfl hpy
    have hkk : ¬ (k ∈ BNode.iter (.internal (splitChild tord [] [root] 0).1
        (splitChild tord [] [root] 0).2)) := by
      rw [iter_internal_eq]
      intro hm
      have h2 := (hsset k).mp hm
      simp [BNode.iterKids] at h2
      exact hk h2
    have hne3 : (none : Option String) = none → (none : Option String) = none →
        BNode.nkeys (.internal (splitChild tord [] [root] 0).1
          (splitChild tord [] [root] 0).2) = [] → False := by
      intro _ _ h3
      have h4 : (splitChild tord [] [root] 0).1 = [] := h3
      rw [hspk] at h4
      exact pyInsert_ne_nil _ _ _ h4
    obtain ⟨hwR, hsetR⟩ := insertNF_ok ho _ _ none none (Nat.le_refl _) hsw rfl rfl hkk hne3
    refine ⟨hwR, ?_, trivial, ?_⟩
    · apply rootOk_insertNF
      rw [rootOk_internal_iff, hspk]
      exact pyInsert_ne_nil _ _ _
    · intro x
      rw [hsetR x, iter_internal_eq, hsset x]
      simp [BNode.iterKids]
  · rw [if_neg hfull]
    simp only [BNode.insertNonFull]
    cases root with
    | leaf ks vs =>
      obtain ⟨hwR, hsetR⟩ := @leaf_insert_ok tord k v
        (BNode.tsize (.leaf ks vs)) ks vs none none hwf rfl rfl
      refine ⟨hwR, ?_, trivial, hsetR⟩
      rw [insertNF_leaf_result]
      rfl
    | internal ks kids =>
      have hksne : ks ≠ [] := (rootOk_internal_iff).mp hro
      have hne : (none : Option String) = none → (none : Option String) = none →
          BNode.nkeys (.internal ks kids) = [] → False := by
        intro _ _ h3
        exact hksne h3
      obtain ⟨hwR, hsetR⟩ := insertNF_ok ho _ _ none none (Nat.le_refl _) hwf rfl rfl hk hne
      exact ⟨hwR, rootOk_insertNF _ _ hro, trivial, hsetR⟩

theorem insertSeq_ok {order : Nat} (ho : 3 ≤ order) : ∀ (pairs : List (String × Nat))
    (t : BTree),
    t.order = order →
    BNode.wfB none none t.root = true →
    rootOk t.root = true →
    (pairs.map Prod.fst).Nodup →
    (∀ q ∈ pairs, ¬ (q.1 ∈ t.root.iter)) →
    BNode.wfB none none (BTree.insertSeq pairs t).root = true ∧
    rootOk (BTree.insertSeq pairs t).root = true ∧
    (BTree.insertSeq pairs t).order = order ∧
    (∀ x, x ∈ (BTree.insertSeq pairs t).root.iter
        ↔ (x ∈ pairs.map Prod.fst ∨ x ∈ t.root.iter)) := by
  intro pairs
  induction pairs with
  | nil =>
    intro t h1 h2 h3 _ _
    exact ⟨h2, h3, h1, fun x => by simp [BTree.insertSeq]⟩
  | cons q rest ih =>
    intro t h1 h2 h3 hnd hnew
    obtain ⟨k, v⟩ := q
    have hknotin : ¬ (k ∈ t.root.iter) := hnew (k, v) (List.mem_cons_self _ _)
    have hik := insert_ok ho t k v h1 h2 h3 hknotin
    have hnd2 : (rest.map Prod.fst).Nodup := by
      simp only [List.map_cons, List.nodup_cons] at hnd
      exact hnd.2
    have hkfresh : ¬ (k ∈ rest.map Prod.fst) := by
      simp only [List.map_cons, List.nodup_cons] at hnd
      exact hnd.1
    have hnew2 : ∀ q2 ∈ rest, ¬ (q2.1 ∈ (t.insert k v).root.iter) := by
      intro q2 hq2 hmem
      rw [hik.2.2.2 q2.1] at hmem
      rcases hmem with heq | hmem
      · apply hkfresh
        rw [← heq]
        exact List.mem_map_of_mem Prod.fst hq2
      · exact hnew q2 (List.mem_cons_of_mem _ hq2) hmem
    have hres := ih (t.insert k v) hik.2.2.1 hik.1 hik.2.1 hnd2 hnew2
    refine ⟨hres.1, hres.2.1, hres.2.2.1, ?_⟩
    intro x
    show x ∈ (BTree.insertSeq rest (t.insert k v)).root.iter ↔ _
    rw [hres.2.2.2 x, hik.2.2.2 x]
    simp only [List.map_cons, List.mem_cons]
    tauto

theorem wfKids_iter_chain : ∀ (kids : List BNode),
    (∀ c ∈ kids, ∀ lo2 hi2, BNode.wfB lo2 hi2 c = true →
      chainLe (BNode.iter c) = true ∧
      ∀ x ∈ BNode.iter c, obLeL lo2 x = true ∧ obLe x hi2 = true) →
    ∀ (ks : List String) (lo hi : Option String),
    BNode.wfKids lo hi ks kids = true →
    chainLe ks = true →
    (∀ x ∈ ks, obLeL lo x = true ∧ obLe x hi = true) →
    chainLe (BNode.iterKids kids ks) = true ∧
    (∀ x ∈ BNode.iterKids kids ks, obLeL lo x = true ∧ obLe x hi = true) := by
  intro kids
  induction kids with
  | nil =>
    intro _ ks lo hi _ _ _
    constructor
    · simp [BNode.iterKids, chainLe]
    · intro x hx
      simp [BNode.iterKids] at hx
  | cons c cs ihk =>
    intro hpt ks lo hi hkids hch hbnd
    cases ks with
    | nil =>
      cases cs with
      | cons c2 cs2 => simp [BNode.wfKids] at hkids
      | nil =>
        rw [wfKids_nil_one_eq] at hkids
        have hc := hpt c (List.mem_cons_self _ _) lo hi hkids
        constructor
        · simp only [BNode.iterKids, List.append_nil]
          exact hc.1
        · intro x hx
          simp only [BNode.iterKids, List.append_nil] at hx
          exact hc.2 x hx
    | cons k ks2 =>
      rw [wfKids_cons_eq, Bool.and_eq_true] at hkids
      have hc := hpt c (List.mem_cons_self _ _) lo (some k) hkids.1
      have hrest := ihk (fun c2 hc2 => hpt c2 (List.mem_cons_of_mem _ hc2)) ks2 (some k) hi
        hkids.2 (chainLe_tail hch)
        (fun x hx => ⟨chainLe_head_le hch x hx, (hbnd x (List.mem_cons_of_mem _ hx)).2⟩)
      constructor
      · simp only [BNode.iterKids]
        apply chainLe_glue hc.1
        · rw [chainLe_cons_iff]
          exact ⟨fun x hx => (hrest.2 x hx).1, hrest.1⟩
        · intro a ha b hb
          have hak : strLe a k = true := (hc.2 a ha).2
          rcases List.mem_cons.mp hb with rfl | hb
          · exact hak
          · exact strLe_trans hak ((hrest.2 b hb).1)
      · intro x hx
        simp only [BNode.iterKids] at hx
        rcases List.mem_append.mp hx with hx | hx
        · exact ⟨(hc.2 x hx).1,
            obLe_trans_strLe ((hc.2 x hx).2) (hbnd k (List.mem_cons_self _ _)).2⟩
        · rcases List.mem_cons.mp hx with rfl | hx
          · exact hbnd _ (List.mem_cons_self _ _)
          · exact ⟨obLeL_trans_strLe (hbnd k (List.mem_cons_self _ _)).1 ((hrest.2 x hx).1),
              (hrest.2 x hx).2⟩

theorem wf_iter_chain : ∀ (n : BNode) (lo hi : Option String),
    BNode.wfB lo hi n = true →
    chainLe (BNode.iter n) = true ∧
    (∀ x ∈ BNode.iter n, obLeL lo x = true ∧ obLe x hi = true) := by
  intro n
  induction n using BNode.inductOn with
  | hl ks vs =>
    intro lo hi h
    obtain ⟨hch, hbd, _⟩ := wfB_parts_leaf h
    rw [iter_leaf_eq]
    exact ⟨hch, hbd⟩
  | hi ks kids ih =>
    intro lo hi h
    obtain ⟨hch, hbd, hkids⟩ := wfB_parts_internal h
    rw [iter_internal_eq]
    exact wfKids_iter_chain kids ih ks lo hi hkids hch hbd

/-- C3 (amended): for every sequence of pairs with distinct keys inserted
into a fresh tree of any order `≥ 3`, the iteration yields keys in
nondecreasing lexicographic order, and its underlying set is exactly the
set of inserted keys (nothing lost, nothing else); but the output is not
duplicate-free — a promoted pivot is yielded twice, as the order-4
insertion of a, b, c, d shows. -/
theorem c3_amended_iter_sorted_set :
    (∀ (order : Nat) (pairs : List (String × Nat)), 3 ≤ order →
      (pairs.map Prod.fst).Nodup →
      chainLe ((BTree.empty order).insertAll pairs).iterKeys = true ∧
      (∀ x, x ∈ ((BTree.empty order).insertAll pairs).iterKeys
          ↔ x ∈ pairs.map Prod.fst)) ∧
    ((BTree.empty 4).insertAll
        [("a", 1), ("b", 2), ("c", 3), ("d", 4)]).iterKeys
      = ["a", "b", "c", "c", "d"] := by
  constructor
  · intro order pairs ho hnd
    have hwf0 : BNode.wfB none none (BTree.empty order).root = true := by
      apply wfB_leaf_of
      · simp [chainLe]
      · intro x hx
        simp at hx
      · rfl
    have hro0 : rootOk (BTree.empty order).root = true := rfl
    have hnew0 : ∀ q ∈ pairs, ¬ (q.1 ∈ (BTree.empty order).root.iter) := by
      intro q _ hmem
      rw [show (BTree.empty order).root = BNode.leaf [] [] from rfl, iter_leaf_eq] at hmem
      simp at hmem
    have hres := insertSeq_ok ho pairs (BTree.empty order) rfl hwf0 hro0 hnd hnew0
    constructor
    · exact (wf_iter_chain _ none none hres.1).1
    · intro x
      rw [show ((BTree.empty order).insertAll pairs).iterKeys
            = (BTree.insertSeq pairs (BTree.empty order)).root.iter from rfl]
      rw [hres.2.2.2 x, show (BTree.empty order).root = BNode.leaf [] [] from rfl,
        iter_leaf_eq]
      simp
  · decide

/-- Witness for the amended C3 theorem at a concrete input: inserting b
then a at order 4 yields a sorted iteration containing a. -/
theorem c3_amended_witness :
    chainLe ((BTree.empty 4).insertAll [("b", 1), ("a", 2)]).iterKeys = true ∧
    ("a" ∈ ((BTree.empty 4).insertAll [("b", 1), ("a", 2)]).iterKeys ↔
      "a" ∈ ([("b", (1 : Nat)), ("a", 2)].map Prod.fst)) :=
  ⟨(c3_amended_iter_sorted_set.1 4 [("b", 1), ("a", 2)] (by decide) (by decide)).1,
   (c3_amended_iter_sorted_set.1 4 [("b", 1), ("a", 2)] (by decide) (by decide)).2 "a"⟩

/- Stability of a mutation-free resolution: a walk that succeeded without
creating anything repeats identically on any state that preserves every
directory entry it might visit (toward the amended C7). -/

theorem walkSegs_stable : ∀ (segs : List String) (s s2 : VFSState) (cur pid : Nat),
    walkSegs segs s cur = (s, .ok pid) →
    (∀ i di dm ch, s.table.get? i = some (.dir di dm ch) →
      s2.table.get? i = some (.dir di dm ch)) →
    walkSegs segs s2 cur = (s2, .ok pid) := by
  intro segs
  induction segs with
  | nil =>
    intro s s2 cur pid h hd
    simp only [walkSegs, Prod.mk.injEq] at h ⊢
    exact ⟨trivial, h.2⟩
  | cons seg rest ih =>
    intro s s2 cur pid h hd
    simp only [walkSegs] at h ⊢
    cases hg : s.table.get? cur with
    | none =>
      simp only [hg, Prod.mk.injEq] at h
      exact absurd h.2 (by intro h2; exact Except.noConfusion h2)
    | some ino =>
      cases ino with
      | file fi fm fc =>
        simp only [hg, Prod.mk.injEq] at h
        exact absurd h.2 (by intro h2; exact Except.noConfusion h2)
      | dir di dm ch =>
        simp only [hg] at h
        simp only [hd cur di dm ch hg]
        cases hcg : ch.get seg with
        | some cid =>
          simp only [hcg] at h
          simp only [hcg]
          exact ih s s2 cid pid h hd
        | none =>
          simp only [hcg] at h
          exfalso
          have hlen := walkSegs_len rest _ _ _ _ h
          have h1 := VFSState.allocNewDir_len s
          have h2 := VFSState.addChild_len (s.allocNewDir).1 cur seg (s.allocNewDir).2
          rw [h2, h1] at hlen
          omega

theorem splitPath_stable : ∀ (s s2 : VFSState) (p : String) (pid : Nat) (name : String),
    VFS.splitPath s p = (s, .ok (pid, name)) →
    s2.rootId = s.rootId →
    (∀ i di dm ch, s.table.get? i = some (.dir di dm ch) →
      s2.table.get? i = some (.dir di dm ch)) →
    VFS.splitPath s2 p = (s2, .ok (pid, name)) := by
  intro s s2 p pid name h hr hd
  unfold VFS.splitPath at h ⊢
  by_cases ha : isAbs p = true
  · rw [if_pos ha] at h ⊢
    simp only [] at h ⊢
    cases hw : walkSegs (pathParts p).dropLast s s.rootId with
    | mk s1 r =>
      cases r with
      | error e =>
        rw [hw] at h
        simp only [Prod.mk.injEq] at h
        exact absurd h.2 (by intro h2; exact Except.noConfusion h2)
      | ok q =>
        rw [hw] at h
        simp only [Prod.mk.injEq] at h
        obtain ⟨hs1, hq⟩ := h
        have hq2 : q = pid ∧ (pathParts p).getLastD "" = name := by
          have := Except.ok.inj hq
          exact ⟨congrArg Prod.fst this, congrArg Prod.snd this⟩
        rw [hs1] at hw
        have hw2 := walkSegs_stable (pathParts p).dropLast s s2 s.rootId q hw hd
        rw [hr, hw2]
        rw [hq2.1, hq2.2]
  · rw [if_neg ha] at h
    simp only [Prod.mk.injEq] at h
    exact absurd h.2 (by intro h2; exact Except.noConfusion h2)

/-- C7 (amended): for a path that resolves in place (no implicit creation)
to an existing `File`, `write(p, data)` followed by `read(p)` returns
exactly `data`, for every byte sequence `data` including the empty one —
the write replaces only the file's table entry, so the resolution of the
read repeats identically; the unconditional claim is false because a path
naming an existing `Directory` makes the round trip fail with
`NotADirectory` instead (see the counterexample). -/
theorem c7_amended_write_read_roundtrip :
    ∀ (s : VFSState) (p : String) (data : List Nat) (pid : Nat) (name : String)
      (di : Int) (dm : Meta) (ch : BTree) (cid : Nat) (fi : Int) (fm : Meta)
      (fc : List Nat),
    VFS.splitPath s p = (s, .ok (pid, name)) →
    s.table.get? pid = some (.dir di dm ch) →
    ch.get name = some cid →
    s.table.get? cid = some (.file fi fm fc) →
    (VFS.read (VFS.write s p data).1 p).2 = .ok data := by
  intro s p data pid name di dm ch cid fi fm fc hsp hpd hgn hcf
  have hw : VFS.write s p data
      = ({ s with table := s.table.set cid (.file fi { fm with size := data.length } data) },
          .ok ()) := by
    unfold VFS.write
    rw [hsp]
    simp only [hpd, hgn, hcf]
  rw [hw]
  show (VFS.read
      { s with table := s.table.set cid (.file fi { fm with size := data.length } data) }
      p).2 = .ok data
  have hcl : cid < s.table.length := by
    by_contra hc
    push_neg at hc
    rw [List.get?_len_le hc] at hcf
    exact Option.noConfusion hcf
  have hd2 : ∀ i di2 dm2 ch2, s.table.get? i = some (.dir di2 dm2 ch2) →
      (s.table.set cid (.file fi { fm with size := data.length } data)).get? i
        = some (.dir di2 dm2 ch2) := by
    intro i di2 dm2 ch2 hi2
    have hic : cid ≠ i := by
      intro he
      rw [← he, hcf] at hi2
      exact INode.noConfusion (Option.some.inj hi2)
    rw [set_get?_ne _ _ _ _ hic]
    exact hi2
  have hsp2 := splitPath_stable s
    { s with table := s.table.set cid (.file fi { fm with size := data.length } data) }
    p pid name hsp rfl hd2
  unfold VFS.read
  rw [hsp2]
  have hpd2 : (s.table.set cid (.file fi { fm with size := data.length } data)).get? pid
      = some (.dir di dm ch) := hd2 pid di dm ch hpd
  simp only [hpd2, hgn]
  have hcf2 : (s.table.set cid (.file fi { fm with size := data.length } data)).get? cid
      = some (.file fi { fm with size := data.length } data) :=
    set_get?_self _ _ _ hcl
  simp only [hcf2]

/-- Witness for the amended C7 theorem at a concrete input: after
`touch("/a")`, writing `[9, 8]` to `/a` and reading it back returns
`[9, 8]`. -/
theorem c7_amended_witness :
    (VFS.read (VFS.write (VFS.touch VFS.fresh "/a").1 "/a" [9, 8]).1 "/a").2
      = .ok [9, 8] :=
  c7_amended_write_read_roundtrip (VFS.touch VFS.fresh "/a").1 "/a" [9, 8] 0 "a" 0
    ⟨0, 0, 0, "rw"⟩ ⟨.leaf ["a"] [1], 64⟩ 1 1 ⟨1, 1, 0, "rw"⟩ [] (by decide) (by decide)
    (by decide) (by decide)

/-- How a table may evolve during path resolution: it only grows, existing
directories keep their identity and metadata (only their index may gain
entries), existing files are untouched, and every new slot holds a
directory. -/
def tableGrows (t1 t2 : List INode) : Prop :=
  t1.length ≤ t2.length ∧
  (∀ i di m ch, t1.get? i = some (.dir di m ch) → ∃ ch2, t2.get? i = some (.dir di m ch2)) ∧
  (∀ i fi m c, t1.get? i = some (.file fi m c) → t2.get? i = some (.file fi m c)) ∧
  (∀ i e, t1.length ≤ i → t2.get? i = some e → ∃ di m ch, e = .dir di m ch)

theorem tableGrows_refl (t : List INode) : tableGrows t t := by
  refine ⟨Nat.le_refl _, fun i di m ch h => ⟨ch, h⟩, fun i fi m c h => h, ?_⟩
  intro i e hi he
  rw [List.get?_len_le hi] at he
  exact Option.noConfusion he

theorem tableGrows_trans {t1 t2 t3 : List INode} (h12 : tableGrows t1 t2)
    (h23 : tableGrows t2 t3) : tableGrows t1 t3 := by
  obtain ⟨hl12, hd12, hf12, hn12⟩ := h12
  obtain ⟨hl23, hd23, hf23, hn23⟩ := h23
  refine ⟨Nat.le_trans hl12 hl23, ?_, ?_, ?_⟩
  · intro i di m ch h
    obtain ⟨ch2, h2⟩ := hd12 i di m ch h
    exact hd23 i di m ch2 h2
  · intro i fi m c h
    exact hf23 i fi m c (hf12 i fi m c h)
  · intro i e hi he
    by_cases h2 : t2.length ≤ i
    · exact hn23 i e h2 he
    · push_neg at h2
      have hg2 : t2.get? i = some (t2.get ⟨i, h2⟩) := List.get?_eq_get h2
      obtain ⟨di, m, ch, he2⟩ := hn12 i (t2.get ⟨i, h2⟩) hi hg2
      rw [he2] at hg2
      obtain ⟨ch2, h3⟩ := hd23 i di m ch hg2
      rw [h3] at he
      exact ⟨di, m, ch2, (Option.some.inj he).symm⟩

theorem walkSegs_cons_dir {seg : String} {rest : List String} {s : VFSState}
    {cur : Nat} {di : Int} {dm : Meta} {ch : BTree}
    (hg : s.table.get? cur = some (.dir di dm ch)) :
    walkSegs (seg :: rest) s cur
      = (match ch.get seg with
         | some cid => walkSegs rest s cid
         | none => walkSegs rest ((s.allocNewDir).1.addChild cur seg (s.allocNewDir).2)
             (s.allocNewDir).2) := by
  simp only [walkSegs, hg]

theorem walk_tableGrows : ∀ (segs : List String) (s : VFSState) (cur : Nat),
    tableGrows s.table ((walkSegs segs s cur).1).table := by
  intro segs
  induction segs with
  | nil =>
    intro s cur
    exact tableGrows_refl _
  | cons seg rest ih =>
    intro s cur
    cases hg : s.table.get? cur with
    | none =>
      rw [show walkSegs (seg :: rest) s cur = (s, .error .pyKeyError) by
        simp only [walkSegs, hg]]
      exact tableGrows_refl _
    | some ino =>
      cases ino with
      | file fi fm fc =>
        rw [show walkSegs (seg :: rest) s cur = (s, .error .notADirectory) by
          simp only [walkSegs, hg]]
        exact tableGrows_refl _
      | dir di dm ch =>
        rw [walkSegs_cons_dir hg]
        cases hcg : ch.get seg with
        | some cid => exact ih s cid
        | none =>
          refine tableGrows_trans ?_ (ih _ _)
          -- one creation step: append a fresh directory, then update the
          -- current directory's index in place
          have hcl : cur < s.table.length := by
            by_contra hc
            push_neg at hc
            rw [List.get?_len_le hc] at hg
            exact Option.noConfusion hg
          have htb : ((s.allocNewDir).1.addChild cur seg (s.allocNewDir).2).table
              = (s.table ++ [(newDir s.clock).setId (Int.ofNat s.table.length)]).set cur
                  (.dir di dm (ch.insert seg s.table.length)) := by
            unfold VFSState.addChild VFSState.allocNewDir VFSState.allocate
            simp only []
            rw [List.get?_append hcl, hg]
          rw [htb]
          refine ⟨?_, ?_, ?_, ?_⟩
          · rw [List.length_set, List.length_append]
            simp
          · intro i di2 m2 ch2 h2
            have hil : i < s.table.length := by
              by_contra hc
              push_neg at hc
              rw [List.get?_len_le hc] at h2
              exact Option.noConfusion h2
            by_cases hic : cur = i
            · subst hic
              rw [hg] at h2
              obtain ⟨rfl, rfl, rfl⟩ : di = di2 ∧ dm = m2 ∧ ch = ch2 := by
                have := Option.some.inj h2
                exact ⟨(INode.dir.inj this).1, (INode.dir.inj this).2.1,
                  (INode.dir.inj this).2.2⟩
              refine ⟨ch.insert seg s.table.length, ?_⟩
              rw [set_get?_self]
              rw [List.length_append]
              omega
            · rw [set_get?_ne _ _ _ _ hic, List.get?_append hil]
              exact ⟨ch2, h2⟩
          · intro i fi2 m2 c2 h2
            have hil : i < s.table.length := by
              by_contra hc
              push_neg at hc
              rw [List.get?_len_le hc] at h2
              exact Option.noConfusion h2
            have hic : cur ≠ i := by
              intro he
              rw [← he, hg] at h2
              exact INode.noConfusion (Option.some.inj h2)
            rw [set_get?_ne _ _ _ _ hic, List.get?_append hil]
            exact h2
          · intro i e hi he
            have hic : cur ≠ i := by omega
            rw [set_get?_ne _ _ _ _ hic] at he
            have hir : i < s.table.length + 1 := by
              by_contra hc
              push_neg at hc
              rw [List.get?_len_le (by simpa using hc)] at he
              exact Option.noConfusion he
            have hieq : i = s.table.length := by omega
            subst hieq
            rw [List.get?_append_right (Nat.le_refl _)] at he
            simp only [Nat.sub_self, List.get?_cons_zero] at he
            refine ⟨Int.ofNat s.table.length, ⟨s.clock, s.clock, 0, "rw"⟩,
              BTree.empty 64, ?_⟩
            rw [← Option.some.inj he]
            rfl

theorem splitPath_tableGrows (s : VFSState) (p : String) :
    tableGrows s.table ((VFS.splitPath s p).1).table := by
  unfold VFS.splitPath
  by_cases ha : isAbs p = true
  · rw [if_pos ha]
    simp only []
    cases hw : walkSegs (pathParts p).dropLast s s.rootId with
    | mk s1 r =>
      have h2 := walk_tableGrows (pathParts p).dropLast s s.rootId
      rw [hw] at h2
      cases r with
      | ok q => exact h2
      | error e => exact h2
  · rw [if_neg ha]
    exact tableGrows_refl _

/-- Slot `i` of the table holds a directory (executable observation). -/
def isDirAt (s : VFSState) (i : Nat) : Bool :=
  match s.table.get? i with
  | some (.dir _ _ _) => true
  | _ => false

/-- C8: path resolution (`VFS._split_path`, shared by all six public
operations) implicitly creates every component it fails to find: the table
only grows during resolution, existing directories keep their identity and
metadata (their index may only gain entries), existing files are left
untouched, and every entry added by resolution is a directory; concretely,
a single `touch("/a/b/c.txt")` on a fresh namespace succeeds, creates the
directories `/a` (slot 1) and `/a/b` (slot 2), and this is observable via
`ls("/")` = `["a"]` and `ls("/a")` = `["b"]`. -/
theorem c8_implicit_intermediates :
    (∀ (s : VFSState) (p : String),
      s.table.length ≤ ((VFS.splitPath s p).1).table.length ∧
      (∀ i di m ch, s.table.get? i = some (.dir di m ch) →
        ∃ ch2, ((VFS.splitPath s p).1).table.get? i = some (.dir di m ch2)) ∧
      (∀ i fi m c, s.table.get? i = some (.file fi m c) →
        ((VFS.splitPath s p).1).table.get? i = some (.file fi m c)) ∧
      (∀ i e, s.table.length ≤ i → ((VFS.splitPath s p).1).table.get? i = some e →
        ∃ di m ch, e = .dir di m ch)) ∧
    ((VFS.touch VFS.fresh "/a/b/c.txt").2 = .ok () ∧
     (VFS.ls (VFS.touch VFS.fresh "/a/b/c.txt").1 "/").2 = .ok ["a"] ∧
     (VFS.ls (VFS.touch VFS.fresh "/a/b/c.txt").1 "/a").2 = .ok ["b"] ∧
     isDirAt (VFS.touch VFS.fresh "/a/b/c.txt").1 1 = true ∧
     isDirAt (VFS.touch VFS.fresh "/a/b/c.txt").1 2 = true ∧
     isDirAt VFS.fresh 1 = false ∧ isDirAt VFS.fresh 2 = false) := by
  constructor
  · intro s p
    exact splitPath_tableGrows s p
  · constructor
    · decide
    · constructor
      · decide
      · constructor
        · decide
        · constructor
          · decide
          · constructor
            · decide
            · constructor
              · decide
              · decide

/-- Witness for C8's universally quantified part at a concrete input:
resolving `/x/y` on a fresh namespace only grows the table, and the root
directory entry survives with its identity and metadata. -/
theorem c8_witness :
    VFS.fresh.table.length ≤ ((VFS.splitPath VFS.fresh "/x/y").1).table.length ∧
    (∃ ch2, ((VFS.splitPath VFS.fresh "/x/y").1).table.get? 0
        = some (.dir 0 ⟨0, 0, 0, "rw"⟩ ch2)) :=
  ⟨(c8_implicit_intermediates.1 VFS.fresh "/x/y").1,
   (c8_implicit_intermediates.1 VFS.fresh "/x/y").2.1 0 0 ⟨0, 0, 0, "rw"⟩
     (BTree.empty 64) (by decide)⟩
